import Mathlib

/-!
# iv: assignment engine and axis primitives

A shallow embedding of `apl/primitives/reverse.go`, `apl/operators/assign.go` and
`apl/numbers/complexs.go`.
Go `int` is `Int`; a Go slice is a `List`; a function that returns `(v, error)` or may
panic returns `Except Err`.  In-place mutation (`Set`) returns the updated value, and a
function that mutates its argument returns the argument's state after the call next to
its result.  The 64-bit width of `int` is modelled where a result depends on it: the
offset addition in the closure `rot` of `rotate`, and the length that `Reshape` computes
from a requested shape.  Sizes and offsets of arrays that exist in memory stay far below
that range.
-/

namespace Iv

/-- Error kinds of the evaluator; `panic` is a Go run-time panic, `other` any error
without a kind of its own. -/
inductive Err where
  | indexOutOfRange
  | axisOutOfRange
  | nonConformant
  | typeMismatch
  | conversionError
  | undefinedVariable
  | notSettable
  | keyMismatch
  | unsupportedDepth
  | invalidAxis
  | other (msg : String)
  | panic
  deriving DecidableEq, Repr

/-- Scalar values; these are the values usable as dictionary keys. -/
inductive Scalar where
  | int (n : Int)
  | str (s : String)
  deriving DecidableEq, Repr

/-- Modelled from the spec: the value variants (the declarations of `apl.Value`,
`apl.IntArray`, `apl.StringArray`, `apl.MixedArray`, `apl.List`, `apl.Dict`, `apl.Table`
and `apl.Axis` are not among the sources).  Uniform arrays hold a flat homogeneous
storage, mixed arrays boxed values; `object` and `table` are a `Dict` with key order `K`
and mapping `M`. -/
inductive Value where
  | scalar (s : Scalar)
  | intArray (Dims : List Int) (Ints : List Int)
  | strArray (Dims : List Int) (Strings : List String)
  | mixed (Dims : List Int) (Values : List Value)
  | list (Values : List Value)
  | object (K : List Scalar) (M : List (Scalar × Value))
  | table (K : List Scalar) (M : List (Scalar × Value)) (Rows : Int)
  | axis (R : Value) (A : List Int)

/-- The index descriptor `apl.IntArray`. -/
structure IntArray where
  Dims : List Int
  Ints : List Int
  deriving DecidableEq, Repr

/-- Run-time type of a value, as compared by `reflect.TypeOf`. -/
inductive Kind where
  | scalarInt | scalarStr | intArray | strArray | mixed | list | object | table | axis
  deriving DecidableEq, Repr

def Value.kind : Value → Kind
  | .scalar (.int _) => .scalarInt
  | .scalar (.str _) => .scalarStr
  | .intArray _ _ => .intArray
  | .strArray _ _ => .strArray
  | .mixed _ _ => .mixed
  | .list _ => .list
  | .object _ _ => .object
  | .table _ _ _ => .table
  | .axis _ _ => .axis

/-- Element test of `Set`, by the type of the receiver. -/
def Kind.accepts : Kind → Value → Bool
  | .intArray, .scalar (.int _) => true
  | .strArray, .scalar (.str _) => true
  | .mixed, _ => true
  | _, _ => false

/-- The type assertion `R.(apl.Array)`. -/
def Value.isArray : Value → Bool
  | .intArray _ _ => true
  | .strArray _ _ => true
  | .mixed _ _ => true
  | _ => false

/-- Modelled from the spec: `Copy` yields an independent value equal to its receiver;
without shared storage this is the identity. -/
def Value.Copy (v : Value) : Value := v

def Value.Shape : Value → List Int
  | .intArray d _ => d
  | .strArray d _ => d
  | .mixed d _ => d
  | _ => []

/-- The boxed storage of an array. -/
def Value.elems : Value → List Value
  | .intArray _ xs => xs.map (fun n => .scalar (.int n))
  | .strArray _ xs => xs.map (fun s => .scalar (.str s))
  | .mixed _ vs => vs
  | _ => []

/-- The method `Size`: the length of the storage. -/
def Value.Size (v : Value) : Int := v.elems.length

/-- Slice read `xs[i]`, which panics outside the bounds. -/
def getAt {α : Type} (xs : List α) (i : Int) : Except Err α :=
  if i < 0 then .error .panic
  else match xs[i.toNat]? with
    | some x => .ok x
    | none => .error .panic

/-- Modelled from the spec: `At(i)` reads the element at a flat offset. -/
def Value.At (v : Value) (i : Int) : Except Err Value := getAt v.elems i

/-- Modelled from the spec: `Set(i, x)` is bounds-checked, and a uniform array rejects a
value that is not of its element type; a mixed array accepts every value. -/
def Value.Set (v : Value) (i : Int) (x : Value) : Except Err Value :=
  if i < 0 ∨ i ≥ v.Size then .error .indexOutOfRange
  else match v, x with
    | .intArray d xs, .scalar (.int n) => .ok (.intArray d (xs.set i.toNat n))
    | .strArray d xs, .scalar (.str s) => .ok (.strArray d (xs.set i.toNat s))
    | .mixed d vs, x => .ok (.mixed d (vs.set i.toNat x))
    | _, _ => .error .typeMismatch

/-- Modelled from the spec: `ArrayBounds` reports an offset outside `[0, Size)`. -/
def ArrayBounds (v : Value) (i : Int) : Except Err Unit :=
  if i < 0 ∨ i ≥ v.Size then .error .indexOutOfRange else .ok ()

/-- Modelled from the spec: `flatten(shape)` is the product of the entries, 1 for the
empty shape. -/
def prod : List Int → Int
  | [] => 1
  | s :: ss => s * prod ss

/-- Filler of a freshly made mixed array. -/
def zeroValue : Value := .scalar (.int 0)

/-- Modelled from the spec: `NewMixed(shape)` allocates a mixed array of that shape. -/
def NewMixed (shape : List Int) : Value :=
  .mixed shape (List.replicate (prod shape).toNat zeroValue)

/-- Modelled from the spec: `MakeArray(prototype, shape)` is a zero-filled array of the
prototype's variant; a nil shape stands for the prototype's own shape. -/
def MakeArray (prototype : Value) (shape : Option (List Int)) : Value :=
  let sh := shape.getD prototype.Shape
  match prototype with
  | .intArray _ _ => .intArray sh (List.replicate (prod sh).toNat 0)
  | .strArray _ _ => .strArray sh (List.replicate (prod sh).toNat "")
  | _ => NewMixed sh

/-- Row-major weights of a shape: the last axis has weight 1. -/
def weights : List Int → List Int
  | [] => []
  | _ :: ss => prod ss :: weights ss

/-- Modelled from the spec: `NewIdxConverter(shape)` returns the converter (the row-major
weights) and a zero index vector of the shape's rank. -/
def NewIdxConverter (shape : List Int) : List Int × List Int :=
  (weights shape, List.replicate shape.length 0)

/-- Modelled from the spec: `ic.Index(idx)` is the flat offset of a multi-index. -/
def Index : List Int → List Int → Int
  | w :: ws, i :: is => w * i + Index ws is
  | _, _ => 0

/-- Odometer step: the incremented vector and whether the carry left the first axis. -/
def incCarry : List Int → List Int → List Int × Bool
  | i :: is, s :: ss =>
    let r := incCarry is ss
    if r.2 then
      if i + 1 < s then ((i + 1) :: r.1, false) else (0 :: r.1, true)
    else (i :: r.1, false)
  | is, _ => (is, true)

/-- Modelled from the spec: `IncArrayIndex(vec, shape)` steps to the next multi-index in
row-major order and wraps to all-zero after the last one. -/
def IncArrayIndex (idx shape : List Int) : List Int := (incCarry idx shape).1

/-- A call `res.Set(i, v)` whose error is dropped. -/
def setIgnore (res : Value) (i : Int) (v : Value) : Value :=
  match res.Set i v with
  | .ok r => r
  | .error _ => res

/-- Body of the loop of `reverse`, run `n` times from counter `i`. -/
def reverseLoop (ar : Value) (shape ic : List Int) (axis : Nat) :
    Nat → Int → Value → List Int → Except Err Value
  | 0, _, res, _ => .ok res
  | n + 1, i, res, dst => do
    let src := dst
    let sa ← getAt shape axis
    let ca ← getAt src axis
    let src := src.set axis (sa - ca - 1)
    let v ← ar.At (Index ic src)
    let res := setIgnore res i v.Copy
    let dst := IncArrayIndex dst shape
    reverseLoop ar shape ic axis n (i + 1) res dst

/-- The primitive `reverse` (reverse.go, lines 50-88). -/
def reverse (R : Value) (axis : Int) : Except Err Value :=
  let unpacked : Except Err (Value × Int) :=
    match R with
    | .axis r n => if n.length ≠ 1 then .error .invalidAxis else .ok (r, n.headD 0)
    | _ => .ok (R, axis)
  match unpacked with
  | .error e => .error e
  | .ok (R, axis) =>
    if R.isArray = false then .ok R
    else
      let shape := R.Shape
      let axis := if axis < 0 then (shape.length : Int) + axis else axis
      if axis < 0 ∨ axis ≥ shape.length then .error .axisOutOfRange
      else
        let res := MakeArray R none
        let (ic, _) := NewIdxConverter shape
        let dst := List.replicate shape.length (0 : Int)
        reverseLoop R shape ic axis.toNat res.Size.toNat 0 res dst

/-- Go `int` is 64 bits wide: the result of an addition wraps into `[-2^63, 2^63)`. -/
def wrapInt (x : Int) : Int :=
  (x + 9223372036854775808) % 18446744073709551616 - 9223372036854775808

/-- Modelled from the spec: the function `prod(shape)` whose result `Reshape` hands to
`make` (its declaration is not among the sources): the product of the entries, 1 for the
empty shape, computed in Go `int`, so that every multiplication wraps into 64 bits. -/
def prodInt : List Int → Int
  | [] => 1
  | s :: ss => wrapInt (s * prodInt ss)

/-- The closure `rot` of `rotate`: `(i + n) % size` with Go's truncated remainder, a
negative result moved back into range; the remainder by zero panics. -/
def rot (i n size : Int) : Except Err Int :=
  if size = 0 then .error .panic
  else
    let k := Int.tmod (wrapInt (i + n)) size
    .ok (if k < 0 then size + k else k)

/-- Cyclic refill of `Reshape`: `n` elements are read from `src`, the read position `k`
returning to 0 at the end of `src`. -/
def reshapeLoop {α : Type} (src : List α) (d : α) : Nat → Nat → List α
  | 0, _ => []
  | n + 1, k => src.getD k d :: reshapeLoop src d n (if k + 1 = src.length then 0 else k + 1)

/-- Modelled from the spec: `IntArray.Reshape(shape)`, after its sibling
`ComplexArray.Reshape`: storage of `prod(shape)` elements, a Go `int`, refilled cyclically
from the receiver; reading an empty receiver panics, as does a negative length. -/
def IntArray.Reshape (f : IntArray) (shape : List Int) : Except Err IntArray :=
  if prodInt shape < 0 then .error .panic
  else if 0 < prodInt shape ∧ f.Ints.length = 0 then .error .panic
  else .ok ⟨shape, reshapeLoop f.Ints 0 (prodInt shape).toNat 0⟩

/-- The vector loop of `rotate`, run `m` times from counter `i`. -/
def rotateVecLoop (ar : Value) (n size : Int) : Nat → Int → Value → Except Err Value
  | 0, _, res => .ok res
  | m + 1, i, res => do
    let k ← rot i n size
    let v ← ar.At k
    let res := setIgnore res i v.Copy
    rotateVecLoop ar n size m (i + 1) res

/-- The check that `lshape` is `shape` with `axis` removed (reverse.go, lines 174-182),
from position `i` on. -/
def rotateShapeCheck (shape : List Int) (axis : Int) : List Int → Int → Except Err Unit
  | [], _ => .ok ()
  | l :: ls, i => do
    let k := if i ≥ axis then i + 1 else i
    let sk ← getAt shape k
    if sk ≠ l then .error .nonConformant
    else rotateShapeCheck shape axis ls (i + 1)

/-- The general loop of `rotate`, run `m` times from counter `i`. -/
def rotateLoop (ar : Value) (al : IntArray) (shape lic ric : List Int) (axis : Nat)
    (axsize : Int) : Nat → Int → Value → List Int → Except Err Value
  | 0, _, res, _ => .ok res
  | m + 1, i, res, dst => do
    let idx := dst.take axis ++ dst.drop (axis + 1)
    let n ← getAt al.Ints (Index lic idx)
    let src := dst
    let da ← getAt dst axis
    let k ← rot da n axsize
    let src := src.set axis k
    let v ← ar.At (Index ric src)
    let res := setIgnore res i v.Copy
    let dst := IncArrayIndex dst shape
    rotateLoop ar al shape lic ric axis axsize m (i + 1) res dst

/-- The primitive `rotate` (reverse.go, lines 101-201). -/
def rotate (L R : Value) (axis : Int) : Except Err Value :=
  let unpacked : Except Err (Value × Int) :=
    match R with
    | .axis r n => if n.length ≠ 1 then .error .invalidAxis else .ok (r, n.headD 0)
    | _ => .ok (R, axis)
  match unpacked with
  | .error e => .error e
  | .ok (R, axis) =>
    if R.isArray = false then .ok R
    else
      let shape := R.Shape
      match L with
      | .intArray ld li =>
        let al : IntArray := ⟨ld, li⟩
        let lshape := al.Dims
        if shape.length = 1 then
          if lshape.length ≠ 1 ∨ lshape.headD 0 ≠ 1 then .error .nonConformant
          else do
            let n ← getAt al.Ints 0
            let size := shape.headD 0
            let res := MakeArray R (some [size])
            rotateVecLoop R n size size.toNat 0 res
        else
          let axis := if axis < 0 then (shape.length : Int) + axis else axis
          if axis < 0 ∨ axis ≥ shape.length then .error .axisOutOfRange
          else do
            let al ←
              if lshape.length = 1 ∧ shape.length > 2 then
                al.Reshape (List.replicate (shape.length - 1) (lshape.headD 0))
              else pure al
            let lshape := al.Dims
            if (lshape.length : Int) ≠ (shape.length : Int) - 1 then .error .nonConformant
            else do
              rotateShapeCheck shape axis lshape 0
              let res := MakeArray R none
              let (lic, _) := NewIdxConverter lshape
              let (ric, _) := NewIdxConverter shape
              let dst := List.replicate shape.length (0 : Int)
              let axsize ← getAt shape axis
              rotateLoop R al shape lic ric axis.toNat axsize res.Size.toNat 0 res dst
      | _ => .error .panic

/-! ## Assignment engine (assign.go) -/

/-- A dyadic function value: `f.Call(a, L, R)`. -/
abbrev Function := Value → Value → Except Err Value

/-- Lookup in a Go map kept as an association list. -/
def assocGet {κ β : Type} [DecidableEq κ] : List (κ × β) → κ → Option β
  | [], _ => none
  | (k, v) :: rest, key => if k = key then some v else assocGet rest key

/-- Store `m[key] = v` in a Go map kept as an association list. -/
def assocSet {κ β : Type} [DecidableEq κ] : List (κ × β) → κ → β → List (κ × β)
  | [], key, v => [(key, v)]
  | (k, x) :: rest, key, v =>
    if k = key then (k, v) :: rest else (k, x) :: assocSet rest key v

/-- The interpreter context `Apl` of `apl.go`, reduced to the two fields that assignment
reads and writes: the variable bindings `vars` and the index origin `Origin`. -/
structure Apl where
  vars : List (String × Value)
  Origin : Int

/-- Modelled from the spec: `LookupEnv(name)` returns the value bound to `name`, nil when
there is none. -/
def Apl.LookupEnv (a : Apl) (name : String) : Option Value := assocGet a.vars name

/-- Modelled from the spec: `Assign(name, value)` binds `name` in the current environment;
no prior binding is required and it always succeeds. -/
def Apl.Assign (a : Apl) (name : String) (v : Value) : Apl :=
  { a with vars := assocSet a.vars name v }

/-- Modelled from the spec: `AssignEnv(name, value, env)` binds `name` in the environment
in which it was found. -/
def Apl.AssignEnv (a : Apl) (name : String) (v : Value) : Apl :=
  { a with vars := assocSet a.vars name v }

/-- The integers of a list of boxed values, when all of them are integers. -/
def allInts : List Value → Option (List Int)
  | [] => some []
  | .scalar (.int n) :: vs => (allInts vs).map (fun ns => n :: ns)
  | _ :: _ => none

/-- The strings of a list of boxed values, when all of them are strings. -/
def allStrs : List Value → Option (List String)
  | [] => some []
  | .scalar (.str n) :: vs => (allStrs vs).map (fun ns => n :: ns)
  | _ :: _ => none

/-- Modelled from the spec: `Unify(array, strict)` collapses a mixed array into a uniform
array "when every boxed element shares one element type" and reports `ok`; a uniform
array is returned as it is; otherwise the input is returned with `ok = false`.  The
condition is tested for the integer type first; it holds of a mixed array without
elements, for which the spec names no other outcome. -/
def Unify (A : Value) (_strict : Bool) : Value × Bool :=
  match A with
  | .intArray _ _ => (A, true)
  | .strArray _ _ => (A, true)
  | .mixed d vs =>
    match allInts vs with
    | some ns => (.intArray d ns, true)
    | none =>
      match allStrs vs with
      | some ss => (.strArray d ss, true)
      | none => (A, false)
  | _ => (A, false)

/-- Modelled from the spec: `UnifyArray(array)` is `Unify` without the `ok` flag; the
shape is kept. -/
def UnifyArray (A : Value) : Value := (Unify A false).1

/-- Modelled from the spec: `ToIndexArray` coerces a value to an index descriptor: an
integer becomes a one-element descriptor, a non-empty mixed array of integers the
descriptor of the same shape; nothing else converts. -/
def ToIndexArray (v : Value) : Option IntArray :=
  match v with
  | .scalar (.int n) => some ⟨[1], [n]⟩
  | .mixed _ [] => none
  | .mixed d vs => (allInts vs).map (fun ns => ⟨d, ns⟩)
  | _ => none

/-- The closure `upgrade` of `assignValue`: a mixed array of the same shape that holds
the elements of `ar`; when the shape asks for more elements than `ar` has, the early
return leaves `ar` as it is. -/
def upgrade (ar : Value) : Option Value :=
  let n := (prod ar.Shape).toNat
  if ar.Size < n then none else some (.mixed ar.Shape (ar.elems.take n))

/-- State of the array part of `assignValue`: the array `ar` that `modAssign` writes, and
the storage of the destination as it was left when `upgrade` moved `ar` to new storage
(`none` while `ar` still is the destination's own storage). -/
structure ArState where
  ar : Value
  frozen : Option Value

/-- The destination's storage after the writes so far. -/
def ArState.dst (st : ArState) : Value := st.frozen.getD st.ar

/-- The call `upgrade()` followed by the second `ar.Set(i, v)` of `modAssign`. -/
def upgradeSet (st : ArState) (i : Int) (v : Value) : ArState × Except Err Unit :=
  let st1 : ArState :=
    match upgrade st.ar with
    | some ga => ⟨ga, some st.dst⟩
    | none => st
  match st1.ar.Set i v with
  | .ok ar2 => (⟨ar2, st1.frozen⟩, .ok ())
  | .error e => (st1, .error e)

/-- The closure `modAssign` of `assignValue` (assign.go, lines 165-191). -/
def modAssign (f : Option Function) (st : ArState) (i : Int) (v : Value) :
    ArState × Except Err Unit :=
  if i = -1 then (st, .ok ())
  else
    match f with
    | none =>
      match st.ar.Set i v with
      | .ok ar1 => (⟨ar1, st.frozen⟩, .ok ())
      | .error _ => upgradeSet st i v
    | some f =>
      match ArrayBounds st.ar i with
      | .error e => (st, .error e)
      | .ok _ =>
        match st.ar.At i with
        | .error e => (st, .error e)
        | .ok old =>
          match f old v with
          | .error e => (st, .error e)
          | .ok v1 =>
            match st.ar.Set i v1 with
            | .ok ar1 => (⟨ar1, st.frozen⟩, .ok ())
            | .error _ => upgradeSet st i v1

/-- The scalar loop of `assignValue` (lines 205-209). -/
def assignScalarLoop (f : Option Function) (scalar : Value) :
    List Int → ArState → ArState × Except Err Unit
  | [], st => (st, .ok ())
  | d :: ds, st =>
    match modAssign f st d scalar with
    | (st1, .error e) => (st1, .error e)
    | (st1, .ok _) => assignScalarLoop f scalar ds st1

/-- The pairwise loop of `assignValue` (lines 243-250), from position `i` on. -/
def assignPairLoop (f : Option Function) (src : Value) :
    List Int → Int → ArState → ArState × Except Err Unit
  | [], _, st => (st, .ok ())
  | d :: ds, i, st =>
    match ArrayBounds src i with
    | .error e => (st, .error e)
    | .ok _ =>
      match src.At i with
      | .error e => (st, .error e)
      | .ok x =>
        match modAssign f st d x.Copy with
        | (st1, .error e) => (st1, .error e)
        | (st1, .ok _) => assignPairLoop f src ds (i + 1) st1

/-- The closure `collapse` of `assignValue`: the shape without its axes of size 1. -/
def collapse (s : List Int) : List Int :=
  let n := (s.filter (fun i => i = 1)).length
  if n = 0 then s else s.filter (fun i => i ≠ 1)

/-- The conformance check of `assignValue` (lines 235-242). -/
def conformCheck (ds ss : List Int) : Except Err Unit :=
  if ds.length ≠ ss.length then .error .nonConformant
  else if (List.zip ss ds).any (fun p => p.1 ≠ p.2) then .error .nonConformant
  else .ok ()

/-- The part of `assignValue` for a destination that is an array (lines 147-253): the
result is the destination's storage after the call and the returned value or error. -/
def assignValueArray (dst : Value) (idx : IntArray) (f : Option Function) (R : Value) :
    Value × Except Err (Option Value) :=
  if dst.isArray = false then (dst, .error .notSettable)
  else
    let st0 : ArState := ⟨dst, none⟩
    let scalar : Except Err (Option Value) :=
      if R.isArray then
        if R.Size = 1 then (R.At 0).map (fun v => some v.Copy) else .ok none
      else .ok (some R.Copy)
    match scalar with
    | .error e => (dst, .error e)
    | .ok (some sc) =>
      match assignScalarLoop f sc idx.Ints st0 with
      | (st, .error e) => (st.dst, .error e)
      | (st, .ok _) => (st.dst, .ok (some st.ar))
    | .ok none =>
      match conformCheck (collapse idx.Dims) (collapse R.Shape) with
      | .error e => (dst, .error e)
      | .ok _ =>
        match assignPairLoop f R idx.Ints 0 st0 with
        | (st, .error e) => (st.dst, .error e)
        | (st, .ok _) => (st.dst, .ok (some st.ar))

/-- The backing store `apl.Dict` of objects and tables: key order `K` and mapping `M`. -/
structure Dict where
  K : List Scalar
  M : List (Scalar × Value)

/-- Modelled from the spec: `Dict.Set(key, v)` stores a copy of `v` under `key`; a new key
is appended to the key order. -/
def Dict.Set (d : Dict) (key : Scalar) (v : Value) : Dict :=
  ⟨if (assocGet d.M key).isSome then d.K else d.K ++ [key], assocSet d.M key v.Copy⟩

/-- Modelled from the spec: `Dict.At(key)` is the value stored under `key`, nil when there
is none. -/
def Dict.At (d : Dict) (key : Scalar) : Option Value := assocGet d.M key

/-- Modelled from the spec: `GetDeep(path)` follows a path of positions through nested
lists. -/
def listGetDeep : List Value → List Int → Except Err Value
  | _, [] => .error .indexOutOfRange
  | vs, [i] =>
    match getAt vs i with
    | .ok v => .ok v
    | .error _ => .error .indexOutOfRange
  | vs, i :: j :: rest =>
    match getAt vs i with
    | .ok (.list ws) => listGetDeep ws (j :: rest)
    | _ => .error .indexOutOfRange

/-- Modelled from the spec: `SetDeep(path, v)` stores a copy of `v` at a path of positions
through nested lists. -/
def listSetDeep : List Value → List Int → Value → Except Err (List Value)
  | _, [], _ => .error .indexOutOfRange
  | vs, [i], v =>
    if i < 0 ∨ i ≥ vs.length then .error .indexOutOfRange else .ok (vs.set i.toNat v.Copy)
  | vs, i :: j :: rest, v =>
    match getAt vs i with
    | .ok (.list ws) =>
      match listSetDeep ws (j :: rest) v with
      | .ok ws1 => .ok (vs.set i.toNat (.list ws1))
      | .error e => .error e
    | _ => .error .indexOutOfRange

/-- The function `assignList` (assign.go, lines 503-516): the list after the call and the
error. -/
def assignList (l : List Value) (idx : IntArray) (f : Option Function) (R : Value) :
    List Value × Except Err Unit :=
  let R1 : Except Err Value :=
    match f with
    | none => .ok R
    | some f => do
      let v ← listGetDeep l idx.Ints
      f v R
  match R1 with
  | .error e => (l, .error e)
  | .ok R1 =>
    match listSetDeep l idx.Ints R1 with
    | .ok l1 => (l1, .ok ())
    | .error e => (l, .error e)

/-- The loop of `assignObject` over the selected keys (lines 441-464), from position `i`
on; `keys` is the key order read before the loop. -/
def assignObjectLoop (a : Apl) (f : Option Function) (R : Value) (vectorize : Bool)
    (keys : List Scalar) : List Int → Int → Dict → Dict × Except Err Unit
  | [], _, obj => (obj, .ok ())
  | x :: xs, i, obj =>
    let n := x - a.Origin
    if n < 0 ∨ n ≥ keys.length then (obj, .error .indexOutOfRange)
    else
      match getAt keys n with
      | .error e => (obj, .error e)
      | .ok k =>
        let v : Except Err Value :=
          if vectorize then do
            ArrayBounds R i
            R.At i
          else .ok R
        let v : Except Err Value := do
          let v ← v
          match f with
          | none => pure v
          | some f =>
            match obj.At k with
            | none => .error .panic
            | some old => f old v
        match v with
        | .error e => (obj, .error e)
        | .ok v => assignObjectLoop a f R vectorize keys xs (i + 1) (obj.Set k v)

/-- The part of `assignObject` after the depth test (lines 426-465). -/
def assignObjectFlat (a : Apl) (f : Option Function) (R : Value) (ints : List Int)
    (obj : Dict) : Dict × Except Err Unit :=
  let ints :=
    match ints with
    | [x] => if x < 0 then [-1 - x + a.Origin] else [x]
    | _ => ints
  let vectorize : Except Err Bool :=
    if R.isArray ∧ ints.length > 1 then
      if (ints.length : Int) = R.Size then .ok true else .error .nonConformant
    else .ok false
  match vectorize with
  | .error e => (obj, .error e)
  | .ok vec => assignObjectLoop a f R vec obj.K ints 0 obj

/-- The functions `assignObject` and `assignObjectDepth` (assign.go, lines 423-500): the
object after the call and the error.  `dims` and the list of integers are the `Dims` and
`Ints` of the index descriptor; the recursion through `assignObjectDepth` drops the first
integer.  The value found at the key is mutated in place, so it is stored back into the
object also when the inner call fails. -/
def assignObject (a : Apl) (f : Option Function) (R : Value) :
    List Int → List Int → Dict → Dict × Except Err Unit
  | i0 :: i1 :: rest, dims, obj =>
    if i0 < 0 then
      let k := -1 - i0
      let keys := obj.K
      if k < 0 ∨ k ≥ keys.length then (obj, .error .indexOutOfRange)
      else
        match getAt keys k with
        | .error e => (obj, .error e)
        | .ok key =>
          match obj.At key with
          | none => (obj, .error (.other "assign obj-depth: nil value"))
          | some v =>
            match dims with
            | [] => (obj, .error .panic)
            | d0 :: _ =>
              let ia : IntArray := ⟨[d0 - 1], i1 :: rest⟩
              match v with
              | .table _ _ _ => (obj, .error .unsupportedDepth)
              | .object K M =>
                match assignObject a f R (i1 :: rest) ia.Dims ⟨K, M⟩ with
                | (o1, .ok _) => (obj.Set key (.object o1.K o1.M), .ok ())
                | (o1, .error e) => (⟨obj.K, assocSet obj.M key (.object o1.K o1.M)⟩, .error e)
              | .list l =>
                match assignList l ia f R with
                | (l1, .ok _) => (obj.Set key (.list l1), .ok ())
                | (l1, .error e) => (⟨obj.K, assocSet obj.M key (.list l1)⟩, .error e)
              | .scalar _ => (obj, .error (.other "assign obj-depth: unsupported type"))
              | .axis _ _ => (obj, .error (.other "assign obj-depth: unsupported type"))
              | ar =>
                match assignValueArray ar ia f R with
                | (_, .ok (some nv)) => (obj.Set key nv, .ok ())
                | (ar1, .ok none) => (obj.Set key ar1, .ok ())
                | (ar1, .error e) => (⟨obj.K, assocSet obj.M key ar1⟩, .error e)
    else assignObjectFlat a f R (i0 :: i1 :: rest) obj
  | ints, _, obj => assignObjectFlat a f R ints obj

/-- The type assertion `v.(apl.Uniform)`. -/
def Value.isUniform : Value → Bool
  | .intArray _ _ => true
  | .strArray _ _ => true
  | _ => false

/-- Modelled from the spec: `Reshape(shape)` of an array, after `ComplexArray.Reshape`:
storage of `prod(shape)` elements, a Go `int`, refilled cyclically from the receiver. -/
def Value.Reshape (v : Value) (shape : List Int) : Except Err Value :=
  if prodInt shape < 0 then .error .panic
  else if 0 < prodInt shape ∧ v.Size = 0 then .error .panic
  else
    match v with
    | .intArray _ xs => .ok (.intArray shape (reshapeLoop xs 0 (prodInt shape).toNat 0))
    | .strArray _ xs => .ok (.strArray shape (reshapeLoop xs "" (prodInt shape).toNat 0))
    | .mixed _ xs => .ok (.mixed shape (reshapeLoop xs zeroValue (prodInt shape).toNat 0))
    | _ => .error .panic

/-- Modelled from the spec: conversion of a cell to the element type of a column; it
succeeds when the cell already has that type. -/
def convertTo (col : Value) (val : Value) : Option Value :=
  if col.kind.accepts val then some val else none

/-- State of a table: the `Dict` and the row count. -/
structure Table where
  K : List Scalar
  M : List (Scalar × Value)
  Rows : Int

/-- The slice `xs[:n]`. -/
def sliceTo {α : Type} (xs : List α) (n : Int) : Except Err (List α) :=
  if n < 0 ∨ n > xs.length then .error .panic else .ok (xs.take n.toNat)

/-- The slice `xs[n:]`. -/
def sliceFrom {α : Type} (xs : List α) (n : Int) : Except Err (List α) :=
  if n < 0 ∨ n > xs.length then .error .panic else .ok (xs.drop n.toNat)

/-- The loop that collects the selected column keys (assign.go, lines 262-268): `n` is
`len(keys)`, the bound against which the loop counter is tested. -/
def tableKeysLoop (all : List Scalar) (n : Int) : List Int → Int → Except Err (List Scalar)
  | [], _ => .ok []
  | c :: cs, i =>
    if i < 0 ∨ i ≥ n then .error .indexOutOfRange
    else do
      let k ← getAt all c
      let rest ← tableKeysLoop all n cs (i + 1)
      pure (k :: rest)

/-- The column read `t.At(key).(apl.Uniform)`. -/
def uniformAt (M : List (Scalar × Value)) (key : Scalar) : Except Err Value :=
  match assocGet M key with
  | some v => if v.isUniform then .ok v else .error .panic
  | none => .error .panic

/-- Conversion of column `k` of the array `ar` into a column of the type of `u` (lines
292-303): cell `i` is `ar[i*ncols + k]`. -/
def convertColLoop (ar u : Value) (ncols k : Int) : List Int → Int → Value → Except Err Value
  | [], _, col => .ok col
  | _ :: rs, i, col => do
    let val ← ar.At (i * ncols + k)
    match convertTo u val with
    | none => .error .conversionError
    | some v =>
      let col ← col.Set i v
      convertColLoop ar u ncols k rs (i + 1) col

/-- Conversion of an array `R` into the mapping of a table keyed like the selection
(lines 289-305). -/
def convertArrayLoop (t : Table) (ar : Value) (rows : List Int) (ncols : Int) :
    List Scalar → Int → List (Scalar × Value) → Except Err (List (Scalar × Value))
  | [], _, m => .ok m
  | key :: keys, k, m => do
    let u ← uniformAt t.M key
    let col := MakeArray u (some [(rows.length : Int)])
    let col ← convertColLoop ar u ncols k rows 0 col
    convertArrayLoop t ar rows ncols keys (k + 1) (assocSet m key col)

/-- The loop `left.Set(i, col.At(rows[i]))` (lines 328-330). -/
def gatherLoop (col : Value) : List Int → Int → Value → Except Err Value
  | [], _, left => .ok left
  | r :: rs, i, left => do
    let x ← col.At r
    gatherLoop col rs (i + 1) (setIgnore left i x)

/-- The loop `subcol.Set(i, rc.At(i).Copy())` (lines 394-396). -/
def copyLoop (rc : Value) : List Int → Int → Value → Except Err Value
  | [], _, sub => .ok sub
  | _ :: rs, i, sub => do
    let x ← rc.At i
    copyLoop rc rs (i + 1) (setIgnore sub i x.Copy)

/-- The loop `col.Set(k, newcol.At(i).Copy())` over the selected rows (lines 364-366). -/
def scatterLoop (newcol : Value) : List Int → Int → Value → Except Err Value
  | [], _, col => .ok col
  | k :: ks, i, col => do
    let x ← newcol.At i
    scatterLoop newcol ks (i + 1) (setIgnore col k x.Copy)

/-- The loop `nc.Values[k] = newcol.At(i).Copy()` over the selected rows (lines 355-357). -/
def substLoop (newcol : Value) : List Int → Int → List Value → Except Err (List Value)
  | [], _, vs => .ok vs
  | k :: ks, i, vs => do
    let x ← newcol.At i
    if k < 0 ∨ k ≥ vs.length then .error .panic
    else substLoop newcol ks (i + 1) (vs.set k.toNat x.Copy)

/-- The loop `nc.Values[i] = col.At(i)` (lines 352-354), for `n` positions from `i`. -/
def fillLoop (col : Value) : Nat → Int → Except Err (List Value)
  | 0, _ => .ok []
  | n + 1, i => do
    let x ← col.At i
    let rest ← fillLoop col n (i + 1)
    pure (x :: rest)

/-- The closure `set` of `assignTable` (lines 325-369): the new column. -/
def tableSet (f : Option Function) (rows : List Int) (col newcol : Value) :
    Except Err Value := do
  let newcol ←
    match f with
    | none => pure newcol
    | some f => do
      let left := MakeArray col (some [(rows.length : Int)])
      let left ← gatherLoop col rows 0 left
      let v ← f left newcol
      if v.isArray = false then .error (.other "mod does not return an array")
      else if v.Shape.length ≠ 1 then .error (.other "mod does not return a vector")
      else if v.Shape.headD 0 ≠ rows.length then
        .error (.other "mod returns vector of wrong size")
      else
        match Unify v true with
        | (_, false) => .error (.other "modified vector cannot be unified")
        | (ur, true) => if ur.isUniform then pure ur else .error .panic
  let rs := col.Shape
  if newcol.kind ≠ col.kind then do
    let rs0 ← getAt rs 0
    let vals ← fillLoop col (prod [rs0]).toNat 0
    let vals ← substLoop newcol rows 0 vals
    match Unify (.mixed [rs0] vals) true with
    | (_, false) => .error (.other "cannot unify array")
    | (ur, true) => if ur.isUniform then pure ur else .error .panic
  else scatterLoop newcol rows 0 col

/-- The loop of `assignTable` over the selected keys (lines 385-418), for a right-hand
side `o` that is an object or (`isTable`) a table. -/
def assignTableLoop (f : Option Function) (rows : List Int) (o : Dict) (isTable : Bool) :
    List Scalar → Table → Table × Except Err Unit
  | [], t => (t, .ok ())
  | key :: keys, t =>
    let newcol : Except Err Value := do
      let col ← uniformAt t.M key
      if isTable then do
        let rc ← uniformAt o.M key
        if rc.Shape.length ≠ 1 ∨ rc.Shape.headD 0 ≠ rows.length then
          -- the message reads `s[0]`, which panics on an empty shape
          match rc.Shape with
          | [] => .error .panic
          | _ :: _ => .error (.other "table-update: right table has wrong number of rows")
        else
          let subcol := MakeArray rc (some [(rows.length : Int)])
          let subcol ← copyLoop rc rows 0 subcol
          tableSet f rows col subcol
      else
        match o.At key with
        | none => .error .panic
        | some rv =>
          if rv.isArray then
            .error (.other "table-update: dict contains an array, should be scalar")
          else
            let subcol := Value.mixed [(rows.length : Int)]
              (List.replicate (prod [(rows.length : Int)]).toNat rv.Copy)
            tableSet f rows col (UnifyArray subcol)
    match newcol with
    | .error e => (t, .error e)
    | .ok col =>
      let d := Dict.Set ⟨t.K, t.M⟩ key col
      assignTableLoop f rows o isTable keys ⟨d.K, d.M, t.Rows⟩

/-- The function `assignTable` (assign.go, lines 258-420): the table after the call and
the error. -/
def assignTable (t : Table) (idx : IntArray) (f : Option Function) (R : Value) :
    Table × Except Err Unit :=
  let sel : Except Err (List Int × List Int × List Scalar) := do
    let d0 ← getAt idx.Dims 0
    let rows ← sliceTo idx.Ints d0
    let cols ← sliceFrom idx.Ints d0
    let keys ← tableKeysLoop t.K cols.length cols 0
    pure (rows, cols, keys)
  match sel with
  | .error e => (t, .error e)
  | .ok (rows, cols, keys) =>
    let right : Except Err (Dict × Bool) :=
      if R.isArray then do
        let shape := R.Shape
        let (shape, ar) ←
          if shape.length = 1 ∧ R.Size = rows.length then do
            let sh := [shape.headD 0, 1]
            let ar ← R.Reshape sh
            pure (sh, ar)
          else pure (shape, R)
        if shape.length ≠ 2 then
          .error (.other "table-update: array on the right must have rank 2")
        else if shape.headD 0 ≠ rows.length ∨ shape.getD 1 0 ≠ cols.length then
          .error .nonConformant
        else do
          let m ← convertArrayLoop t ar rows (shape.getD 1 0) keys 0 []
          pure (⟨keys, m⟩, true)
      else
        match R with
        | .object K M => .ok (⟨K, M⟩, false)
        | .table K M _ => .ok (⟨K, M⟩, true)
        | _ => .ok (⟨keys, keys.foldl (fun m k => assocSet m k R.Copy) []⟩, false)
    match right with
    | .error e => (t, .error e)
    | .ok (o, isTable) =>
      if o.K.length ≠ keys.length then (t, .error .keyMismatch)
      else if (List.zip o.K keys).any (fun p => p.1 ≠ p.2) then (t, .error .keyMismatch)
      else assignTableLoop f rows o isTable keys t

/-- The function `assignValue` (assign.go, lines 113-253): the destination after the call (it is
mutated in place) and the returned value or error. -/
def assignValue (a : Apl) (dst : Value) (indexes : Option Value) (f : Option Function)
    (R : Value) : Value × Except Err (Option Value) :=
  match indexes with
  | none =>
    match f with
    | none => (dst, .error .panic)
    | some f =>
      match f dst R with
      | .ok v => (dst, .ok (some v))
      | .error e => (dst, .error e)
  | some ix =>
    let idx : Option IntArray :=
      match ix with
      | .intArray d xs => some ⟨d, xs⟩
      | _ => ToIndexArray ix
    match idx with
    | none => (dst, .error (.other "indexed assignment could not convert to IndexArray"))
    | some idx =>
      match dst with
      | .table K M rows =>
        match assignTable ⟨K, M, rows⟩ idx f R with
        | (t, .ok _) => (.table t.K t.M t.Rows, .ok none)
        | (t, .error e) => (.table t.K t.M t.Rows, .error e)
      | .object K M =>
        match assignObject a f R idx.Ints idx.Dims ⟨K, M⟩ with
        | (o, .ok _) => (.object o.K o.M, .ok none)
        | (o, .error e) => (.object o.K o.M, .error e)
      | .list l =>
        match assignList l idx f R with
        | (l1, .ok _) => (.list l1, .ok none)
        | (l1, .error e) => (.list l1, .error e)
      | _ => assignValueArray dst idx f R

/-- The function `assignScalar` (assign.go, lines 92-110): the context after the call and
the error. -/
def assignScalar (a : Apl) (name : String) (indexes : Option Value) (f : Option Function)
    (R : Value) : Apl × Except Err Unit :=
  if f.isNone ∧ indexes.isNone then (a.Assign name R.Copy, .ok ())
  else
    match a.LookupEnv name with
    | none => (a, .error .undefinedVariable)
    | some w =>
      match assignValue a w indexes f R with
      | (w1, .error e) => (a.AssignEnv name w1, .error e)
      | (_, .ok (some v)) => (a.AssignEnv name v.Copy, .ok ())
      | (w1, .ok none) => (a.AssignEnv name w1, .ok ())

/-- The loop of `assignVector` over the names (lines 70-84), from position `i` on. -/
def assignVectorLoop (mod : Option Function) (ar : Value) (scalar : Option Value) :
    List String → Int → Apl → Apl × Except Err Unit
  | [], _, a => (a, .ok ())
  | name :: names, i, a =>
    let v : Except Err Value :=
      match scalar with
      | some v => .ok v
      | none => do
        ArrayBounds ar i
        ar.At i
    match v with
    | .error e => (a, .error e)
    | .ok v =>
      match assignScalar a name none mod v with
      | (a1, .error e) => (a1, .error e)
      | (a1, .ok _) => assignVectorLoop mod ar scalar names (i + 1) a1

/-- The function `assignVector` (assign.go, lines 49-87): the context after the call and the returned
value or error. -/
def assignVector (a : Apl) (names : List String) (R : Value) (mod : Option Function) :
    Apl × Except Err Value :=
  let ar := if R.isArray then R else UnifyArray (.mixed [1] [R])
  let s := ar.Shape
  if s.length ≠ 1 then
    (a, .error (.other "vector assignment: rank of right argument must be 1"))
  else if s.headD 0 ≠ 1 ∧ s.headD 0 ≠ names.length then (a, .error .nonConformant)
  else
    let scalar : Except Err (Option Value) :=
      if s.headD 0 = 1 then
        if ar.Size < 1 then .error (.other "vector assignment: collapsed dimension")
        else (ar.At 0).map some
      else .ok none
    match scalar with
    | .error e => (a, .error e)
    | .ok scalar =>
      match assignVectorLoop mod ar scalar names 0 a with
      | (a1, .error e) => (a1, .error e)
      | (a1, .ok _) => (a1, .ok R)

/-- Invariant of the array written by `modAssign`: an array of the given shape whose
storage has the `n` elements the shape asks for. -/
def ArState.Inv (shape : List Int) (n : Nat) (st : ArState) : Prop :=
  st.ar.isArray = true ∧ st.ar.Shape = shape ∧ st.ar.elems.length = n ∧ (n : Int) = prod shape

/-- The writes of an indexed assignment as the specification words them, on the boxed
storage: the pairs (offset, value) are taken in order, the sentinel `-1` is skipped, and
the value written is the new value, or `mod(current, new)` when a modifier is given. -/
def writeSeq (f : Option Function) : List (Int × Value) → List Value → Except Err (List Value)
  | [], es => .ok es
  | (d, x) :: ps, es =>
    if d = -1 then writeSeq f ps es
    else
      match f with
      | none => writeSeq f ps (es.set d.toNat x)
      | some g =>
        match es[d.toNat]? with
        | none => .error .indexOutOfRange
        | some old =>
          match g old x with
          | .error e => .error e
          | .ok v => writeSeq f ps (es.set d.toNat v)

/-- The value that the `i`-th name of a vector assignment receives, as the specification
words it: the element `R[i]` of an array, the single element of a one-element vector for
every name, and a non-array `R` itself for every name. -/
def boundValue (R : Value) (i : Nat) : Option Value :=
  if R.isArray = true then
    if R.Shape = [1] then R.elems[0]? else R.elems[i]?
  else some R

/-- Column invariant of a table with `rows` rows: a uniform vector of exactly `rows`
elements. -/
def ColOK (rows : Int) (col : Value) : Prop :=
  col.isUniform = true ∧ col.Shape = [rows] ∧ (col.elems.length : Int) = rows

/-- Table invariant: the keys are unique and every key holds a column of `Rows` elements. -/
def Table.WF (t : Table) : Prop :=
  t.K.Nodup ∧ ∀ key ∈ t.K, ∃ col, assocGet t.M key = some col ∧ ColOK t.Rows col

/-- A list without its entry at position `axis`. -/
def dropAxis (axis : Nat) (c : List Int) : List Int := c.take axis ++ c.drop (axis + 1)

/-- Source multi-index of `rotate`: coordinate `axis` becomes the representative in
`[0, shape[axis])` of `c[axis] + n`, where `n` is the amount found in `L` at `c` without
coordinate `axis`. -/
def rotSrc (shape : List Int) (axis : Nat) (L : IntArray) (c : List Int) : List Int :=
  c.set axis ((c.getD axis 0
    + L.Ints.getD (Index (weights L.Dims) (dropAxis axis c)).toNat 0) % shape.getD axis 0)

/-- The element-wise negation of an amount array. -/
def IntArray.neg (L : IntArray) : IntArray := ⟨L.Dims, L.Ints.map (fun n => -n)⟩

/-- No sum `i + n` or `i - n` with `0 ≤ i < size` leaves the range of a 64-bit `int`. -/
def AmountsFit (L : IntArray) (size : Int) : Prop :=
  ∀ n ∈ L.Ints, n + size ≤ 9223372036854775808 ∧ size - n ≤ 9223372036854775808

/-- A sample modifier: the sum of two integers; for other operands the right operand. -/
def addInts : Function := fun l r =>
  .ok (match l, r with
    | .scalar (.int x), .scalar (.int y) => .scalar (.int (x + y))
    | _, y => y)

/-- A multi-index `c` lies inside `shape`: same rank and `0 ≤ c[j] < shape[j]`. -/
def ValidIdx (shape c : List Int) : Prop :=
  List.Forall₂ (fun s x => 0 ≤ x ∧ x < s) shape c

/-- Source multi-index of `reverse`: coordinate `axis` becomes `shape[axis] - c[axis] - 1`. -/
def revSrc (shape : List Int) (axis : Nat) (c : List Int) : List Int :=
  c.set axis (shape.getD axis 0 - c.getD axis 0 - 1)

/-- Array invariant: shape entries are non-negative and the storage has as many elements
as the shape asks for. -/
def Value.WF (v : Value) : Prop :=
  v.isArray = true ∧ (∀ s ∈ v.Shape, 0 ≤ s) ∧ (v.elems.length : Int) = prod v.Shape

/-- Axis normalisation: a negative axis counts from the last axis. -/
def normAxis (rank : Nat) (axis : Int) : Int :=
  if axis < 0 then (rank : Int) + axis else axis

/-- The writes of a flat object update as the specification words them: the pairs
(index, value) are taken in order, and the key at position `index - Origin` of the key
order `keys` receives the value. -/
def setKeys (a : Apl) (keys : List Scalar) : List (Int × Value) → Dict → Dict
  | [], obj => obj
  | (x, v) :: ps, obj =>
    setKeys a keys ps (obj.Set (keys.getD (x - a.Origin).toNat (.int 0)) v)

/-! ## Complex arrays (complexs.go) -/

/-- Modelled from the spec: the element type of an array of complex numbers.  The
declaration of `Complex` in package numbers is not among the sources; complexs.go converts
it to and from `complex128`, a real and an imaginary part that are 64-bit floating-point
numbers. -/
structure Complex where
  re : Float
  im : Float

/-- Modelled from the spec: an `apl.Value` as a method of `ComplexArray` meets it, which is
a `Complex` or any other value of the interpreter. -/
inductive NumValue where
  | complex (c : Complex)
  | other (v : Value)

/-- The type `ComplexArray` (complexs.go, lines 10-13). -/
structure ComplexArray where
  Dims : List Int
  Cmplx : List Complex

/-- Slice write `xs[i] = x`, which panics outside the bounds. -/
def setAt {α : Type} (xs : List α) (i : Int) (x : α) : Except Err (List α) :=
  if i < 0 ∨ i ≥ xs.length then .error .panic else .ok (xs.set i.toNat x)

/-- The method `ComplexArray.At` (complexs.go, lines 19-24). -/
def ComplexArray.At (f : ComplexArray) (i : Int) : Except Err NumValue :=
  if i < 0 ∨ i ≥ f.Cmplx.length then .error .indexOutOfRange
  else (getAt f.Cmplx i).map NumValue.complex

/-- The method `ComplexArray.Shape`. -/
def ComplexArray.Shape (f : ComplexArray) : List Int := f.Dims

/-- The method `ComplexArray.Size`. -/
def ComplexArray.Size (f : ComplexArray) : Int := f.Cmplx.length

/-- The method `ComplexArray.Set` (complexs.go, lines 38-47): the array after the call
(the storage is shared with the caller) and the returned error. -/
def ComplexArray.Set (f : ComplexArray) (i : Int) (v : NumValue) :
    ComplexArray × Except Err Unit :=
  if i < 0 ∨ i > f.Cmplx.length then (f, .error .indexOutOfRange)
  else
    match v with
    | .complex c =>
      match setAt f.Cmplx i c with
      | .ok xs => (⟨f.Dims, xs⟩, .ok ())
      | .error e => (f, .error e)
    | .other _ => (f, .error .typeMismatch)

/-- The method `ComplexArray.Reshape` (complexs.go, lines 60-74): the length
`prod(shape)` is a Go `int`; `make` panics on a negative length and the read `f.Cmplx[k]`
panics when the receiver is empty. -/
def ComplexArray.Reshape (f : ComplexArray) (shape : List Int) : Except Err ComplexArray :=
  if prodInt shape < 0 then .error .panic
  else if 0 < prodInt shape ∧ f.Cmplx.length = 0 then .error .panic
  else .ok ⟨shape, reshapeLoop f.Cmplx ⟨0, 0⟩ (prodInt shape).toNat 0⟩

/-- Column invariant of a table: every key of the key order holds a uniform vector of
exactly `Rows` elements. -/
def Table.ColsOK (t : Table) : Prop :=
  ∀ key ∈ t.K, ∃ col, assocGet t.M key = some col ∧ ColOK t.Rows col

/-- The amount `L` conforms to an argument of shape `shape` rotated along axis `k`: the
storage of `L` has the size its shape asks for, and either the argument is a vector and
`L` is a single integer, or the axis is valid and the shape of `L` is `shape` without that
axis. -/
def AmountConforms (L : IntArray) (shape : List Int) (k : Int) : Prop :=
  (L.Ints.length : Int) = prod L.Dims ∧
  ((shape.length = 1 ∧ L.Dims = [1]) ∨
    (shape.length ≠ 1 ∧ 0 ≤ normAxis shape.length k ∧ normAxis shape.length k < shape.length ∧
      L.Dims = dropAxis (normAxis shape.length k).toNat shape))

theorem getAt_natCast {α : Type} (xs : List α) (j : Nat) (h : j < xs.length) (d : α) :
    getAt xs (j : Int) = .ok (xs.getD j d) := by
  have h0 : ¬ ((j : Int) < 0) := by omega
  simp [getAt, h0, List.getElem?_eq_getElem h, List.getD_eq_getElem?_getD]

theorem getAt_ok_iff {α : Type} (xs : List α) (i : Int) (x : α) :
    getAt xs i = .ok x ↔ 0 ≤ i ∧ xs[i.toNat]? = some x := by
  unfold getAt
  by_cases h : i < 0
  · simp [h]
  · simp only [h, if_false]
    cases hx : xs[i.toNat]? with
    | none => simp
    | some y =>
      simp only [Except.ok.injEq, Option.some.injEq]
      constructor
      · intro e; exact ⟨by omega, e⟩
      · intro e; exact e.2

theorem validIdx_length {shape c : List Int} (h : ValidIdx shape c) : c.length = shape.length :=
  (List.Forall₂.length_eq h).symm

theorem index_zeros (ws : List Int) (n : Nat) : Index ws (List.replicate n 0) = 0 := by
  induction ws generalizing n with
  | nil => cases n <;> simp [Index, List.replicate]
  | cons w ws ih =>
    cases n with
    | zero => simp [Index]
    | succ n => simp [Index, List.replicate, ih]

theorem index_bounds {shape c : List Int} (h : ValidIdx shape c) :
    0 ≤ Index (weights shape) c ∧ Index (weights shape) c < prod shape := by
  induction h with
  | nil => simp [Index, weights, prod]
  | @cons s x ss xs hx _ ih =>
    simp only [weights, Index, prod]
    obtain ⟨h1, h2⟩ := ih
    obtain ⟨hx0, hxs⟩ := hx
    have hP : 0 ≤ prod ss := by omega
    constructor
    · have := mul_nonneg hP hx0
      omega
    · have h3 : prod ss * (x + 1) ≤ prod ss * s := mul_le_mul_of_nonneg_left (by omega) hP
      have h4 : prod ss * (x + 1) = prod ss * x + prod ss := by ring
      have h5 : prod ss * s = s * prod ss := by ring
      omega

theorem validIdx_zeros_of_valid {shape c : List Int} (h : ValidIdx shape c) :
    ValidIdx shape (List.replicate shape.length 0) := by
  induction h with
  | nil => exact List.Forall₂.nil
  | @cons s x ss xs hx _ ih =>
    simp only [List.length_cons, List.replicate_succ]
    exact List.Forall₂.cons ⟨le_refl 0, by omega⟩ ih

theorem incCarry_spec {shape c : List Int} (h : ValidIdx shape c) :
    ((incCarry c shape).2 = true →
        (incCarry c shape).1 = List.replicate shape.length 0 ∧
        Index (weights shape) c + 1 = prod shape) ∧
    ((incCarry c shape).2 = false →
        ValidIdx shape (incCarry c shape).1 ∧
        Index (weights shape) (incCarry c shape).1 = Index (weights shape) c + 1) := by
  induction h with
  | nil => simp [incCarry, Index, weights, prod]
  | @cons s x ss xs hx hrest ih =>
    obtain ⟨ihT, ihF⟩ := ih
    obtain ⟨hx0, hxs⟩ := hx
    cases hc : (incCarry xs ss).2 with
    | true =>
      obtain ⟨hz, hI⟩ := ihT hc
      by_cases hlt : x + 1 < s
      · simp only [incCarry, hc, if_true, hlt]
        constructor
        · intro h; cases h
        · intro _
          refine ⟨List.Forall₂.cons ⟨by omega, hlt⟩ ?_, ?_⟩
          · rw [hz]; exact validIdx_zeros_of_valid hrest
          · simp only [weights, Index, hz, index_zeros]
            have : prod ss * (x + 1) = prod ss * x + prod ss := by ring
            omega
      · simp only [incCarry, hc, if_true, hlt, if_false]
        constructor
        · intro _
          refine ⟨by simp [hz, List.replicate_succ], ?_⟩
          simp only [weights, Index, prod]
          have hs : s = x + 1 := by omega
          rw [hs]
          have : (x + 1) * prod ss = prod ss * x + prod ss := by ring
          omega
        · intro h; cases h
    | false =>
      obtain ⟨hv, hI⟩ := ihF hc
      simp only [incCarry, hc]
      constructor
      · intro h; cases h
      · intro _
        refine ⟨List.Forall₂.cons ⟨hx0, hxs⟩ hv, ?_⟩
        simp only [weights, Index]
        omega

theorem index_inj {shape c d : List Int} (hc : ValidIdx shape c) (hd : ValidIdx shape d)
    (h : Index (weights shape) c = Index (weights shape) d) : c = d := by
  induction hc generalizing d with
  | nil => cases hd; rfl
  | @cons s x ss xs hx hrest ih =>
    cases hd with
    | @cons _ y _ ys hy hrest2 =>
      simp only [weights, Index] at h
      obtain ⟨a1, a2⟩ := index_bounds hrest
      obtain ⟨b1, b2⟩ := index_bounds hrest2
      have hxy : x = y := by
        by_contra hne
        rcases lt_or_gt_of_ne hne with hlt | hgt
        · have h3 : prod ss * (x + 1) ≤ prod ss * y :=
            mul_le_mul_of_nonneg_left (by omega) (by omega)
          have h4 : prod ss * (x + 1) = prod ss * x + prod ss := by ring
          omega
        · have h3 : prod ss * (y + 1) ≤ prod ss * x :=
            mul_le_mul_of_nonneg_left (by omega) (by omega)
          have h4 : prod ss * (y + 1) = prod ss * y + prod ss := by ring
          omega
      subst hxy
      have : Index (weights ss) xs = Index (weights ss) ys := by omega
      rw [ih hrest2 this]

/-! ## Storage lemmas -/

theorem set_ok (res x : Value) (i : Int) (hacc : res.kind.accepts x = true)
    (h0 : 0 ≤ i) (h1 : i < res.Size) :
    ∃ r, res.Set i x = .ok r ∧ r.elems = res.elems.set i.toNat x ∧
      r.Shape = res.Shape ∧ r.kind = res.kind := by
  have hr : ¬ (i < 0 ∨ i ≥ res.Size) := by omega
  cases res with
  | intArray d xs =>
    cases x with
    | scalar sc =>
      cases sc with
      | int n =>
        exact ⟨.intArray d (xs.set i.toNat n), by simp [Value.Set, hr],
          by simp [Value.elems, List.map_set], rfl, rfl⟩
      | str s => simp [Value.kind, Kind.accepts] at hacc
    | _ => simp [Value.kind, Kind.accepts] at hacc
  | strArray d xs =>
    cases x with
    | scalar sc =>
      cases sc with
      | int n => simp [Value.kind, Kind.accepts] at hacc
      | str s =>
        exact ⟨.strArray d (xs.set i.toNat s), by simp [Value.Set, hr],
          by simp [Value.elems, List.map_set], rfl, rfl⟩
    | _ => simp [Value.kind, Kind.accepts] at hacc
  | mixed d vs =>
    exact ⟨.mixed d (vs.set i.toNat x), by simp [Value.Set, hr], by simp [Value.elems], rfl, rfl⟩
  | scalar sc => cases sc <;> simp [Value.kind, Kind.accepts] at hacc
  | list _ => simp [Value.kind, Kind.accepts] at hacc
  | object _ _ => simp [Value.kind, Kind.accepts] at hacc
  | table _ _ _ => simp [Value.kind, Kind.accepts] at hacc
  | axis _ _ => simp [Value.kind, Kind.accepts] at hacc

theorem makeArray_accepts (A : Value) (sh : Option (List Int)) (x : Value)
    (hx : x ∈ A.elems) : (MakeArray A sh).kind.accepts x = true := by
  cases A with
  | intArray d xs =>
    simp only [Value.elems, List.mem_map] at hx
    obtain ⟨n, _, rfl⟩ := hx
    rfl
  | strArray d xs =>
    simp only [Value.elems, List.mem_map] at hx
    obtain ⟨n, _, rfl⟩ := hx
    rfl
  | mixed d vs => rfl
  | scalar _ => simp [Value.elems] at hx
  | list _ => simp [Value.elems] at hx
  | object _ _ => simp [Value.elems] at hx
  | table _ _ _ => simp [Value.elems] at hx
  | axis _ _ => simp [Value.elems] at hx

theorem makeArray_shape (A : Value) (hA : A.isArray = true) (sh : List Int) :
    (MakeArray A (some sh)).Shape = sh ∧
    (MakeArray A (some sh)).elems.length = (prod sh).toNat ∧
    (MakeArray A (some sh)).isArray = true := by
  cases A <;> simp [Value.isArray] at hA <;>
    simp [MakeArray, NewMixed, Value.Shape, Value.elems, Value.isArray]

theorem makeArray_none (A : Value) : MakeArray A none = MakeArray A (some A.Shape) := rfl

/-- Two arrays of one kind with the same shape and the same boxed storage are equal. -/
theorem eq_of_elems {A B : Value} (hA : A.isArray = true) (hk : B.kind = A.kind)
    (hs : B.Shape = A.Shape) (he : B.elems = A.elems) : B = A := by
  have inj1 : Function.Injective (fun n : Int => Value.scalar (.int n)) := by
    intro a b h; simpa using h
  have inj2 : Function.Injective (fun n : String => Value.scalar (.str n)) := by
    intro a b h; simpa using h
  cases A with
  | intArray d xs =>
    cases B with
    | intArray d2 ys =>
      simp only [Value.Shape] at hs
      simp only [Value.elems] at he
      rw [hs, List.map_injective_iff.mpr inj1 he]
    | scalar sc => cases sc <;> simp [Value.kind] at hk
    | _ => simp [Value.kind] at hk
  | strArray d xs =>
    cases B with
    | strArray d2 ys =>
      simp only [Value.Shape] at hs
      simp only [Value.elems] at he
      rw [hs, List.map_injective_iff.mpr inj2 he]
    | scalar sc => cases sc <;> simp [Value.kind] at hk
    | _ => simp [Value.kind] at hk
  | mixed d xs =>
    cases B with
    | mixed d2 ys =>
      simp only [Value.Shape] at hs
      simp only [Value.elems] at he
      rw [hs, he]
    | scalar sc => cases sc <;> simp [Value.kind] at hk
    | _ => simp [Value.kind] at hk
  | _ => simp [Value.isArray] at hA

theorem makeArray_kind (A : Value) (hA : A.isArray = true) (sh : Option (List Int)) :
    (MakeArray A sh).kind = A.kind := by
  cases A <;> simp [Value.isArray] at hA <;> rfl

theorem revSrc_valid {shape c : List Int} (axis : Nat) (h : ValidIdx shape c) :
    ValidIdx shape (revSrc shape axis c) := by
  unfold revSrc
  induction h generalizing axis with
  | nil => simp [ValidIdx]
  | @cons s x ss xs hx hrest ih =>
    cases axis with
    | zero =>
      simp only [List.set_cons_zero, List.getD_cons_zero]
      exact List.Forall₂.cons ⟨by omega, by omega⟩ hrest
    | succ k =>
      simp only [List.set_cons_succ, List.getD_cons_succ]
      exact List.Forall₂.cons hx (ih k)

theorem revSrc_revSrc {shape c : List Int} (axis : Nat) (h : ValidIdx shape c) :
    revSrc shape axis (revSrc shape axis c) = c := by
  unfold revSrc
  induction h generalizing axis with
  | nil => simp
  | @cons s x ss xs hx hrest ih =>
    cases axis with
    | zero => simp; omega
    | succ k =>
      simp only [List.set_cons_succ, List.getD_cons_succ]
      rw [ih k]

/-! ## The loop of `reverse` -/

theorem reverseLoop_spec (A : Value) (shape : List Int) (axis : Nat)
    (hax : axis < shape.length) (hA : (A.elems.length : Int) = prod shape) :
    ∀ (n k : Nat) (res : Value) (dst : List Int),
      k + n = A.elems.length →
      (0 < n → ValidIdx shape dst ∧ Index (weights shape) dst = k) →
      res.elems.length = A.elems.length →
      (∀ x ∈ A.elems, res.kind.accepts x = true) →
      ∃ res', reverseLoop A shape (weights shape) axis n k res dst = .ok res' ∧
        res'.kind = res.kind ∧ res'.Shape = res.Shape ∧
        res'.elems.length = A.elems.length ∧
        (∀ j, j < k → res'.elems[j]? = res.elems[j]?) ∧
        (∀ j, k ≤ j → j < A.elems.length →
          ∃ c, ValidIdx shape c ∧ Index (weights shape) c = j ∧
            res'.elems[j]? = A.elems[(Index (weights shape) (revSrc shape axis c)).toNat]?) := by
  intro n
  induction n with
  | zero =>
    intro k res dst hk _ hlen _
    refine ⟨res, rfl, rfl, rfl, hlen, fun _ _ => rfl, ?_⟩
    intro j h1 h2
    omega
  | succ n ih =>
    intro k res dst hk hdst hlen hacc
    obtain ⟨hv, hI⟩ := hdst (Nat.succ_pos n)
    have hdl : axis < dst.length := by rw [validIdx_length hv]; exact hax
    have hsv := revSrc_valid axis hv
    obtain ⟨b0, b1⟩ := index_bounds hsv
    -- the element read from the source
    have hlt : (Index (weights shape) (revSrc shape axis dst)).toNat < A.elems.length := by
      omega
    have hAt : A.At (Index (weights shape) (revSrc shape axis dst))
        = .ok (A.elems.get ⟨_, hlt⟩) := by
      unfold Value.At
      rw [getAt_ok_iff]
      exact ⟨b0, List.getElem?_eq_getElem hlt⟩
    have hmem : A.elems.get ⟨_, hlt⟩ ∈ A.elems := List.get_mem _ _ _
    have hk0 : (0 : Int) ≤ (k : Int) := by omega
    have hk1 : (k : Int) < res.Size := by unfold Value.Size; omega
    obtain ⟨r, hr, hre, hrs, hrk⟩ := set_ok res _ (k : Int) (hacc _ hmem) hk0 hk1
    rw [Int.toNat_ofNat] at hre
    have hstep : reverseLoop A shape (weights shape) axis (n + 1) k res dst
        = reverseLoop A shape (weights shape) axis n ((k + 1 : Nat) : Int) r
            (IncArrayIndex dst shape) := by
      have e1 := getAt_natCast shape axis hax 0
      have e2 := getAt_natCast dst axis hdl 0
      have e3 : dst.set axis (shape.getD axis 0 - dst.getD axis 0 - 1)
          = revSrc shape axis dst := rfl
      simp only [reverseLoop, e1, e2, bind, Except.bind, e3, hAt, setIgnore, Value.Copy, hr]
      push_cast
      rfl
    have hnext : 0 < n → ValidIdx shape (IncArrayIndex dst shape) ∧
        Index (weights shape) (IncArrayIndex dst shape) = ((k + 1 : Nat) : Int) := by
      intro hn
      obtain ⟨cT, cF⟩ := incCarry_spec hv
      cases hc : (incCarry dst shape).2 with
      | true =>
        have := (cT hc).2
        omega
      | false =>
        obtain ⟨v1, v2⟩ := cF hc
        refine ⟨v1, ?_⟩
        unfold IncArrayIndex
        rw [v2, hI]
        push_cast
        rfl
    have hrl : r.elems.length = A.elems.length := by rw [hre, List.length_set, hlen]
    obtain ⟨res', h1, h2, h3, h4, h5, h6⟩ :=
      ih (k + 1) r (IncArrayIndex dst shape) (by omega) hnext hrl (by rw [hrk]; exact hacc)
    refine ⟨res', by rw [hstep, h1], by rw [h2, hrk], by rw [h3, hrs], h4, ?_, ?_⟩
    · intro j hj
      rw [h5 j (by omega), hre, List.getElem?_set_ne (by omega)]
    · intro j hj1 hj2
      by_cases hjk : j = k
      · subst hjk
        refine ⟨dst, hv, hI, ?_⟩
        rw [h5 j (by omega), hre, List.getElem?_set_self (by omega)]
        rw [List.getElem?_eq_getElem hlt]
        rfl
      · exact h6 j (by omega) hj2

theorem validIdx_zeros {shape : List Int} (hnn : ∀ s ∈ shape, 0 ≤ s) (hp : 0 < prod shape) :
    ValidIdx shape (List.replicate shape.length 0) := by
  induction shape with
  | nil => exact List.Forall₂.nil
  | cons s ss ih =>
    simp only [prod] at hp
    have hs : 0 ≤ s := hnn s (List.mem_cons_self _ _)
    have hs0 : 0 < s := by
      rcases eq_or_lt_of_le hs with h | h
      · rw [← h] at hp; simp at hp
      · exact h
    have hps : 0 < prod ss := by
      by_contra hcon
      have : s * prod ss ≤ 0 := mul_nonpos_of_nonneg_of_nonpos hs (by omega)
      omega
    simp only [List.length_cons, List.replicate_succ]
    exact List.Forall₂.cons ⟨le_refl 0, hs0⟩
      (ih (fun t ht => hnn t (List.mem_cons_of_mem _ ht)) hps)

theorem isArray_of_kind {A B : Value} (hk : B.kind = A.kind) (hA : A.isArray = true) :
    B.isArray = true := by
  cases A with
  | scalar sc => simp [Value.isArray] at hA
  | intArray _ _ =>
    cases B with
    | scalar sc => cases sc <;> simp [Value.kind] at hk
    | _ => first | rfl | simp [Value.kind] at hk
  | strArray _ _ =>
    cases B with
    | scalar sc => cases sc <;> simp [Value.kind] at hk
    | _ => first | rfl | simp [Value.kind] at hk
  | mixed _ _ =>
    cases B with
    | scalar sc => cases sc <;> simp [Value.kind] at hk
    | _ => first | rfl | simp [Value.kind] at hk
  | _ => simp [Value.isArray] at hA

theorem reverse_unfold (A : Value) (k : Int) (hA : A.isArray = true)
    (h0 : 0 ≤ normAxis A.Shape.length k) (h1 : normAxis A.Shape.length k < A.Shape.length) :
    reverse A k = reverseLoop A A.Shape (weights A.Shape) (normAxis A.Shape.length k).toNat
      (MakeArray A none).Size.toNat 0 (MakeArray A none) (List.replicate A.Shape.length 0) := by
  have hr : ¬ (normAxis A.Shape.length k < 0 ∨ normAxis A.Shape.length k ≥ A.Shape.length) := by
    omega
  unfold normAxis at hr
  cases A <;> simp [Value.isArray] at hA <;>
    simp only [reverse, Value.isArray, NewIdxConverter, normAxis, hr, if_false] <;> rfl

/-- Result of `reverse` on a well-formed array, by flat offset. -/
theorem reverse_spec (A : Value) (k : Int) (hA : A.WF)
    (h0 : 0 ≤ normAxis A.Shape.length k) (h1 : normAxis A.Shape.length k < A.Shape.length) :
    ∃ res, reverse A k = .ok res ∧ res.kind = A.kind ∧ res.Shape = A.Shape ∧
      res.elems.length = A.elems.length ∧
      ∀ j, j < A.elems.length →
        ∃ c, ValidIdx A.Shape c ∧ Index (weights A.Shape) c = j ∧
          res.elems[j]? = A.elems[(Index (weights A.Shape)
            (revSrc A.Shape (normAxis A.Shape.length k).toNat c)).toNat]? := by
  obtain ⟨hArr, hnn, hsz⟩ := hA
  obtain ⟨m1, m2, m3⟩ := makeArray_shape A hArr A.Shape
  rw [← makeArray_none] at m1 m2 m3
  have hlen : (MakeArray A none).elems.length = A.elems.length := by omega
  have hax : (normAxis A.Shape.length k).toNat < A.Shape.length := by omega
  obtain ⟨res, e1, e2, e3, e4, _, e6⟩ :=
    reverseLoop_spec A A.Shape (normAxis A.Shape.length k).toNat hax hsz
      A.elems.length 0 (MakeArray A none) (List.replicate A.Shape.length 0)
      (by omega)
      (fun hn => ⟨validIdx_zeros hnn (by omega), by simp [index_zeros]⟩)
      hlen (fun x hx => makeArray_accepts A none x hx)
  refine ⟨res, ?_, ?_, ?_, e4, fun j hj => e6 j (Nat.zero_le _) hj⟩
  · rw [reverse_unfold A k hArr h0 h1]
    have : (MakeArray A none).Size.toNat = A.elems.length := by
      unfold Value.Size; omega
    rw [this]
    exact e1
  · rw [e2, makeArray_kind A hArr]
  · rw [e3, m1]

/-! ## Claims on `reverse` -/

/-- C1: for every well-formed array `A` and every valid axis `k` (non-negative, or negative
and counted from the last axis), `reverse` succeeds on `A`, succeeds again on its result,
and the second result is `A` itself: same variant, same shape, same element at every flat
offset. -/
theorem reverse_self_inverse (A : Value) (k : Int) (hA : A.WF)
    (h0 : 0 ≤ normAxis A.Shape.length k) (h1 : normAxis A.Shape.length k < A.Shape.length) :
    ∃ B, reverse A k = .ok B ∧ reverse B k = .ok A := by
  obtain ⟨B, b1, b2, b3, b4, b5⟩ := reverse_spec A k hA h0 h1
  obtain ⟨hArr, hnn, hsz⟩ := hA
  have hB : B.WF := ⟨isArray_of_kind b2 hArr, by rw [b3]; exact hnn, by rw [b3, b4]; exact hsz⟩
  obtain ⟨C, c1, c2, c3, c4, c5⟩ :=
    reverse_spec B k hB (by rw [b3]; exact h0) (by rw [b3]; exact h1)
  refine ⟨B, b1, ?_⟩
  rw [c1]
  congr 1
  apply eq_of_elems hArr (by rw [c2, b2]) (by rw [c3, b3])
  apply List.ext_getElem?
  intro j
  by_cases hj : j < A.elems.length
  · obtain ⟨c, v1, v2, v3⟩ := c5 j (by omega)
    rw [b3] at v1 v2 v3
    have hsv := revSrc_valid (normAxis A.Shape.length k).toNat v1
    obtain ⟨i0, i1⟩ := index_bounds hsv
    obtain ⟨d, w1, w2, w3⟩ := b5 (Index (weights A.Shape)
      (revSrc A.Shape (normAxis A.Shape.length k).toNat c)).toNat (by omega)
    have hd : d = revSrc A.Shape (normAxis A.Shape.length k).toNat c := by
      apply index_inj w1 hsv
      rw [w2]
      omega
    rw [v3, w3, hd, revSrc_revSrc _ v1, v2]
    simp
  · rw [List.getElem?_eq_none (by omega), List.getElem?_eq_none (by omega)]

/-- Witness of C1 on a 2 x 3 integer matrix reversed along its last axis. -/
theorem reverse_self_inverse_witness :
    ∃ B, reverse (.intArray [2, 3] [1, 2, 3, 4, 5, 6]) (-1) = .ok B ∧
      reverse B (-1) = .ok (.intArray [2, 3] [1, 2, 3, 4, 5, 6]) :=
  reverse_self_inverse (.intArray [2, 3] [1, 2, 3, 4, 5, 6]) (-1)
    ⟨rfl, by decide, by decide⟩ (by decide) (by decide)

/-- C10: for every well-formed array `A` with shape `s` and every valid axis `k`, `reverse`
returns an array of `A`'s variant and shape `s` whose element at every multi-index `c`
inside `s` is `A`'s element at `c` with coordinate `k` replaced by `s[k] - c[k] - 1`, all
other coordinates unchanged.  `A` is only read: the returned array is built in fresh
storage. -/
theorem reverse_element_mapping (A : Value) (k : Int) (hA : A.WF)
    (h0 : 0 ≤ normAxis A.Shape.length k) (h1 : normAxis A.Shape.length k < A.Shape.length) :
    ∃ res, reverse A k = .ok res ∧ res.kind = A.kind ∧ res.Shape = A.Shape ∧
      res.Size = A.Size ∧
      ∀ c, ValidIdx A.Shape c →
        ∃ v, res.At (Index (weights A.Shape) c) = .ok v ∧
          A.At (Index (weights A.Shape)
            (revSrc A.Shape (normAxis A.Shape.length k).toNat c)) = .ok v := by
  obtain ⟨res, b1, b2, b3, b4, b5⟩ := reverse_spec A k hA h0 h1
  obtain ⟨hArr, hnn, hsz⟩ := hA
  refine ⟨res, b1, b2, b3, by unfold Value.Size; rw [b4], ?_⟩
  intro c hc
  obtain ⟨i0, i1⟩ := index_bounds hc
  obtain ⟨d, w1, w2, w3⟩ := b5 (Index (weights A.Shape) c).toNat (by omega)
  have hd : d = c := by
    apply index_inj w1 hc
    rw [w2]
    omega
  subst hd
  obtain ⟨j0, j1⟩ := index_bounds (revSrc_valid (normAxis A.Shape.length k).toNat hc)
  have hlt : (Index (weights A.Shape)
      (revSrc A.Shape (normAxis A.Shape.length k).toNat d)).toNat < A.elems.length := by omega
  refine ⟨A.elems.get ⟨_, hlt⟩, ?_, ?_⟩
  · unfold Value.At
    rw [getAt_ok_iff]
    refine ⟨i0, ?_⟩
    rw [w3]
    exact List.getElem?_eq_getElem hlt
  · unfold Value.At
    rw [getAt_ok_iff]
    exact ⟨j0, List.getElem?_eq_getElem hlt⟩

/-- Witness of C10 on a 2 x 3 integer matrix reversed along its first axis. -/
theorem reverse_element_mapping_witness :
    ∃ res, reverse (.intArray [2, 3] [1, 2, 3, 4, 5, 6]) 0 = .ok res ∧
      res.kind = Kind.intArray ∧ res.Shape = [2, 3] ∧ res.Size = 6 ∧
      ∀ c, ValidIdx [2, 3] c →
        ∃ v, res.At (Index (weights [2, 3]) c) = .ok v ∧
          (Value.intArray [2, 3] [1, 2, 3, 4, 5, 6]).At
            (Index (weights [2, 3]) (revSrc [2, 3] 0 c)) = .ok v :=
  reverse_element_mapping (.intArray [2, 3] [1, 2, 3, 4, 5, 6]) 0
    ⟨rfl, by decide, by decide⟩ (by decide) (by decide)

/-! ## Indexed assignment into arrays -/

theorem set_mixed_or_error (ar v : Value) (i : Int) (hArr : ar.isArray = true)
    (h0 : 0 ≤ i) (h1 : i < ar.Size) :
    (∃ r, ar.Set i v = .ok r ∧ r.elems = ar.elems.set i.toNat v ∧ r.Shape = ar.Shape ∧
      r.isArray = true) ∨ (∃ e, ar.Set i v = .error e) := by
  cases h : ar.Set i v with
  | error e => exact Or.inr ⟨e, rfl⟩
  | ok r =>
    left
    have hr : ¬ (i < 0 ∨ i ≥ ar.Size) := by omega
    refine ⟨r, rfl, ?_⟩
    cases ar with
    | intArray d xs =>
      cases v with
      | scalar sc =>
        cases sc with
        | int n =>
          simp [Value.Set, hr] at h
          subst h
          simp [Value.elems, List.map_set, Value.Shape, Value.isArray]
        | str s => simp [Value.Set, hr] at h
      | _ => simp [Value.Set, hr] at h
    | strArray d xs =>
      cases v with
      | scalar sc =>
        cases sc with
        | int n => simp [Value.Set, hr] at h
        | str s =>
          simp [Value.Set, hr] at h
          subst h
          simp [Value.elems, List.map_set, Value.Shape, Value.isArray]
      | _ => simp [Value.Set, hr] at h
    | mixed d vs =>
      simp [Value.Set, hr] at h
      subst h
      simp [Value.elems, Value.Shape, Value.isArray]
    | _ => simp [Value.isArray] at hArr

/-- The call `ar.Set(i, v)`, retried after `upgrade()` when it fails, writes `v` at an in-range
offset of a well-formed array and keeps the shape. -/
theorem set_or_upgrade (shape : List Int) (n : Nat) (st : ArState) (i : Int) (v : Value)
    (hInv : st.Inv shape n) (h0 : 0 ≤ i) (h1 : i < n) :
    ∃ st1, (match st.ar.Set i v with
        | .ok ar1 => ((⟨ar1, st.frozen⟩ : ArState), (Except.ok () : Except Err Unit))
        | .error _ => upgradeSet st i v) = (st1, .ok ()) ∧
      st1.Inv shape n ∧ st1.ar.elems = st.ar.elems.set i.toNat v := by
  obtain ⟨hArr, hShape, hLen, hProd⟩ := hInv
  have hi : i < st.ar.Size := by unfold Value.Size; omega
  rcases set_mixed_or_error st.ar v i hArr h0 hi with ⟨r, e1, e2, e3, e4⟩ | ⟨e, he⟩
  · refine ⟨⟨r, st.frozen⟩, by rw [e1], ⟨e4, by rw [e3, hShape], ?_, hProd⟩, e2⟩
    show r.elems.length = n
    rw [e2, List.length_set, hLen]
  · rw [he]
    have hsz : st.ar.Size = (n : Int) := by unfold Value.Size; rw [hLen]
    have hup : upgrade st.ar = some (.mixed shape st.ar.elems) := by
      unfold upgrade
      have h2 : ¬ (st.ar.Size < ((prod st.ar.Shape).toNat : Int)) := by
        rw [hsz, hShape]; omega
      rw [if_neg h2, hShape, List.take_of_length_le (by omega)]
    have hms : (Value.mixed shape st.ar.elems).Size = (n : Int) := by
      show ((st.ar.elems.length : Nat) : Int) = n
      rw [hLen]
    have hr : ¬ (i < 0 ∨ i ≥ (Value.mixed shape st.ar.elems).Size) := by
      rw [hms]; omega
    refine ⟨⟨.mixed shape (st.ar.elems.set i.toNat v), some st.dst⟩, ?_, ?_, rfl⟩
    · simp only [upgradeSet, hup, Value.Set, hr, if_false]
    · refine ⟨rfl, rfl, ?_, hProd⟩
      show (st.ar.elems.set i.toNat v).length = n
      rw [List.length_set, hLen]

theorem modAssign_sentinel (f : Option Function) (st : ArState) (v : Value) :
    modAssign f st (-1) v = (st, .ok ()) := by
  simp [modAssign]

theorem modAssign_none (shape : List Int) (n : Nat) (st : ArState) (i : Int) (v : Value)
    (hInv : st.Inv shape n) (h0 : 0 ≤ i) (h1 : i < n) :
    ∃ st1, modAssign none st i v = (st1, .ok ()) ∧
      st1.Inv shape n ∧ st1.ar.elems = st.ar.elems.set i.toNat v := by
  have hne : i ≠ -1 := by omega
  simp only [modAssign, hne, if_false]
  exact set_or_upgrade shape n st i v hInv h0 h1

theorem modAssign_some (shape : List Int) (n : Nat) (st : ArState) (i : Int) (v : Value)
    (g : Function) (old v1 : Value)
    (hInv : st.Inv shape n) (h0 : 0 ≤ i) (h1 : i < n)
    (hold : st.ar.elems[i.toNat]? = some old) (hg : g old v = .ok v1) :
    ∃ st1, modAssign (some g) st i v = (st1, .ok ()) ∧
      st1.Inv shape n ∧ st1.ar.elems = st.ar.elems.set i.toNat v1 := by
  have hne : i ≠ -1 := by omega
  have hb : ArrayBounds st.ar i = .ok () := by
    have : ¬ (i < 0 ∨ i ≥ st.ar.Size) := by
      unfold Value.Size; rw [hInv.2.2.1]; omega
    simp [ArrayBounds, this]
  have hat : st.ar.At i = .ok old := by
    unfold Value.At
    rw [getAt_ok_iff]
    exact ⟨h0, hold⟩
  simp only [modAssign, hne, if_false, hb, hat, hg]
  exact set_or_upgrade shape n st i v1 hInv h0 h1

/-- One step of the code follows one step of `writeSeq` at an in-range offset. -/
theorem modAssign_refines (shape : List Int) (n : Nat) (f : Option Function) (st : ArState)
    (d : Int) (x : Value) (ps : List (Int × Value)) (es1 : List Value)
    (hInv : st.Inv shape n) (h0 : 0 ≤ d) (h1 : d < n)
    (hw : writeSeq f ((d, x) :: ps) st.ar.elems = .ok es1) :
    ∃ st1, modAssign f st d x = (st1, .ok ()) ∧ st1.Inv shape n ∧
      writeSeq f ps st1.ar.elems = .ok es1 := by
  have hne : d ≠ -1 := by omega
  cases f with
  | none =>
    obtain ⟨st1, e1, e2, e3⟩ := modAssign_none shape n st d x hInv h0 h1
    refine ⟨st1, e1, e2, ?_⟩
    rw [e3]
    simpa only [writeSeq, hne, if_false] using hw
  | some g =>
    have hlt : d.toNat < st.ar.elems.length := by rw [hInv.2.2.1]; omega
    simp only [writeSeq, hne, if_false, List.getElem?_eq_getElem hlt] at hw
    cases hg : g (st.ar.elems[d.toNat]) x with
    | error e => simp only [hg] at hw; cases hw
    | ok v =>
      simp only [hg] at hw
      obtain ⟨st1, e1, e2, e3⟩ := modAssign_some shape n st d x g _ v hInv h0 h1
        (List.getElem?_eq_getElem hlt) hg
      exact ⟨st1, e1, e2, by rw [e3]; exact hw⟩

theorem assignScalarLoop_refines (shape : List Int) (n : Nat) (f : Option Function)
    (sc : Value) :
    ∀ (ds : List Int) (st : ArState) (es1 : List Value),
      st.Inv shape n → (∀ d ∈ ds, d = -1 ∨ (0 ≤ d ∧ d < n)) →
      writeSeq f (ds.map (fun d => (d, sc))) st.ar.elems = .ok es1 →
      ∃ st1, assignScalarLoop f sc ds st = (st1, .ok ()) ∧ st1.Inv shape n ∧
        st1.ar.elems = es1 := by
  intro ds
  induction ds with
  | nil =>
    intro st es1 hInv _ hw
    simp only [List.map_nil, writeSeq, Except.ok.injEq] at hw
    exact ⟨st, rfl, hInv, hw⟩
  | cons d ds ih =>
    intro st es1 hInv hr hw
    rcases hr d (List.mem_cons_self _ _) with hd | ⟨h0, h1⟩
    · subst hd
      simp only [List.map_cons, writeSeq, if_true] at hw
      obtain ⟨st1, e1, e2, e3⟩ := ih st es1 hInv
        (fun d hd => hr d (List.mem_cons_of_mem _ hd)) hw
      exact ⟨st1, by simp only [assignScalarLoop, modAssign_sentinel, e1], e2, e3⟩
    · obtain ⟨st1, e1, e2, e3⟩ := modAssign_refines shape n f st d sc _ es1 hInv h0 h1 hw
      obtain ⟨st2, g1, g2, g3⟩ := ih st1 es1 e2
        (fun d hd => hr d (List.mem_cons_of_mem _ hd)) e3
      exact ⟨st2, by simp only [assignScalarLoop, e1, g1], g2, g3⟩

theorem assignPairLoop_refines (shape : List Int) (n : Nat) (f : Option Function)
    (src : Value) :
    ∀ (ds : List Int) (k : Nat) (st : ArState) (es1 : List Value),
      st.Inv shape n → (∀ d ∈ ds, d = -1 ∨ (0 ≤ d ∧ d < n)) →
      k + ds.length ≤ src.elems.length →
      writeSeq f (ds.zip (src.elems.drop k)) st.ar.elems = .ok es1 →
      ∃ st1, assignPairLoop f src ds k st = (st1, .ok ()) ∧ st1.Inv shape n ∧
        st1.ar.elems = es1 := by
  intro ds
  induction ds with
  | nil =>
    intro k st es1 hInv _ _ hw
    simp only [List.zip_nil_left, writeSeq, Except.ok.injEq] at hw
    exact ⟨st, rfl, hInv, hw⟩
  | cons d ds ih =>
    intro k st es1 hInv hr hk hw
    simp only [List.length_cons] at hk
    have hlt : k < src.elems.length := by omega
    have hb : ArrayBounds src (k : Int) = .ok () := by
      have : ¬ ((k : Int) < 0 ∨ (k : Int) ≥ src.Size) := by unfold Value.Size; omega
      simp [ArrayBounds, this]
    have hat : src.At (k : Int) = .ok (src.elems[k]) := by
      unfold Value.At
      rw [getAt_ok_iff]
      exact ⟨by omega, by simp [List.getElem?_eq_getElem hlt]⟩
    have hdrop : src.elems.drop k = src.elems[k] :: src.elems.drop (k + 1) :=
      List.drop_eq_getElem_cons hlt
    rw [hdrop, List.zip_cons_cons] at hw
    have hcast : ((k : Int) + 1) = ((k + 1 : Nat) : Int) := by push_cast; rfl
    rcases hr d (List.mem_cons_self _ _) with hd | ⟨h0, h1⟩
    · subst hd
      simp only [writeSeq, if_true] at hw
      obtain ⟨st1, e1, e2, e3⟩ := ih (k + 1) st es1 hInv
        (fun d hd => hr d (List.mem_cons_of_mem _ hd)) (by omega) hw
      refine ⟨st1, ?_, e2, e3⟩
      simp only [assignPairLoop, hb, hat, Value.Copy, modAssign_sentinel, hcast, e1]
    · obtain ⟨st1, e1, e2, e3⟩ :=
        modAssign_refines shape n f st d (src.elems[k]) _ es1 hInv h0 h1 hw
      obtain ⟨st2, g1, g2, g3⟩ := ih (k + 1) st1 es1 e2
        (fun d hd => hr d (List.mem_cons_of_mem _ hd)) (by omega) e3
      refine ⟨st2, ?_, g2, g3⟩
      simp only [assignPairLoop, hb, hat, Value.Copy, e1, hcast, g1]

/-! ## Properties of the specified write sequence -/

theorem writeSeq_length (f : Option Function) :
    ∀ (ps : List (Int × Value)) (es es1 : List Value),
      writeSeq f ps es = .ok es1 → es1.length = es.length := by
  intro ps
  induction ps with
  | nil =>
    intro es es1 h
    simp only [writeSeq, Except.ok.injEq] at h
    rw [← h]
  | cons p ps ih =>
    intro es es1 h
    obtain ⟨d, x⟩ := p
    by_cases hd : d = -1
    · simp only [writeSeq, hd, if_true] at h
      exact ih es es1 h
    · cases f with
      | none =>
        simp only [writeSeq, hd, if_false] at h
        rw [ih _ es1 h, List.length_set]
      | some g =>
        simp only [writeSeq, hd, if_false] at h
        cases ho : es[d.toNat]? with
        | none => simp only [ho] at h; cases h
        | some old =>
          simp only [ho] at h
          cases hg : g old x with
          | error e => simp only [hg] at h; cases h
          | ok v =>
            simp only [hg] at h
            rw [ih _ es1 h, List.length_set]

theorem writeSeq_untouched (f : Option Function) :
    ∀ (ps : List (Int × Value)) (es es1 : List Value),
      (∀ p ∈ ps, p.1 = -1 ∨ 0 ≤ p.1) →
      writeSeq f ps es = .ok es1 →
      ∀ j : Nat, (j : Int) ∉ ps.map Prod.fst → es1[j]? = es[j]? := by
  intro ps
  induction ps with
  | nil =>
    intro es es1 _ h j _
    simp only [writeSeq, Except.ok.injEq] at h
    rw [← h]
  | cons p ps ih =>
    intro es es1 hr h j hj
    obtain ⟨d, x⟩ := p
    simp only [List.map_cons, List.mem_cons, not_or] at hj
    have hr2 : ∀ p ∈ ps, p.1 = -1 ∨ 0 ≤ p.1 := fun p hp => hr p (List.mem_cons_of_mem _ hp)
    by_cases hd : d = -1
    · simp only [writeSeq, hd, if_true] at h
      exact ih es es1 hr2 h j hj.2
    · have hd0 : 0 ≤ d := by
        rcases hr (d, x) (List.mem_cons_self _ _) with h1 | h1
        · exact absurd h1 hd
        · exact h1
      have hne : d.toNat ≠ j := by
        intro e
        apply hj.1
        omega
      cases f with
      | none =>
        simp only [writeSeq, hd, if_false] at h
        rw [ih _ es1 hr2 h j hj.2, List.getElem?_set_ne hne]
      | some g =>
        simp only [writeSeq, hd, if_false] at h
        cases ho : es[d.toNat]? with
        | none => simp only [ho] at h; cases h
        | some old =>
          simp only [ho] at h
          cases hg : g old x with
          | error e => simp only [hg] at h; cases h
          | ok v =>
            simp only [hg] at h
            rw [ih _ es1 hr2 h j hj.2, List.getElem?_set_ne hne]

theorem writeSeq_append (f : Option Function) :
    ∀ (ps qs : List (Int × Value)) (es es1 : List Value),
      writeSeq f (ps ++ qs) es = .ok es1 →
      ∃ mid, writeSeq f ps es = .ok mid ∧ writeSeq f qs mid = .ok es1 := by
  intro ps
  induction ps with
  | nil =>
    intro qs es es1 h
    exact ⟨es, rfl, h⟩
  | cons p ps ih =>
    intro qs es es1 h
    obtain ⟨d, x⟩ := p
    by_cases hd : d = -1
    · simp only [List.cons_append, writeSeq, hd, if_true] at h ⊢
      exact ih qs es es1 h
    · cases f with
      | none =>
        simp only [List.cons_append, writeSeq, hd, if_false] at h ⊢
        exact ih qs _ es1 h
      | some g =>
        simp only [List.cons_append, writeSeq, hd, if_false] at h ⊢
        cases ho : es[d.toNat]? with
        | none => simp only [ho] at h; cases h
        | some old =>
          simp only [ho] at h ⊢
          cases hg : g old x with
          | error e => simp only [hg] at h; cases h
          | ok v =>
            simp only [hg] at h ⊢
            exact ih qs _ es1 h

theorem writeSeq_none_ok :
    ∀ (ps : List (Int × Value)) (es : List Value), ∃ es1, writeSeq none ps es = .ok es1 := by
  intro ps
  induction ps with
  | nil => intro es; exact ⟨es, rfl⟩
  | cons p ps ih =>
    intro es
    obtain ⟨d, x⟩ := p
    by_cases hd : d = -1
    · simp only [writeSeq, hd, if_true]; exact ih es
    · simp only [writeSeq, hd, if_false]; exact ih _

/-- The value written by the step `(d, x)` on the storage `mid`. -/
theorem writeSeq_last (f : Option Function) (ps qs : List (Int × Value)) (o : Int)
    (x : Value) (es es1 : List Value)
    (hr : ∀ p ∈ qs, p.1 = -1 ∨ 0 ≤ p.1) (ho0 : 0 ≤ o) (hlt : o.toNat < es.length)
    (hq : o ∉ qs.map Prod.fst)
    (h : writeSeq f (ps ++ (o, x) :: qs) es = .ok es1) :
    ∃ mid, writeSeq f ps es = .ok mid ∧
      match f with
      | none => es1[o.toNat]? = some x
      | some g => ∃ old v, mid[o.toNat]? = some old ∧ g old x = .ok v ∧
          es1[o.toNat]? = some v := by
  obtain ⟨mid, h1, h2⟩ := writeSeq_append f ps _ es es1 h
  refine ⟨mid, h1, ?_⟩
  have hml : mid.length = es.length := writeSeq_length f ps es mid h1
  have hne : o ≠ -1 := by omega
  have hq2 : ((o.toNat : Nat) : Int) ∉ qs.map Prod.fst := by
    rw [Int.toNat_of_nonneg ho0]; exact hq
  cases f with
  | none =>
    simp only [writeSeq, hne, if_false] at h2
    show es1[o.toNat]? = some x
    rw [writeSeq_untouched none qs _ es1 hr h2 o.toNat hq2,
      List.getElem?_set_self (by omega)]
  | some g =>
    simp only [writeSeq, hne, if_false] at h2
    cases hold : mid[o.toNat]? with
    | none => simp only [hold] at h2; cases h2
    | some old =>
      simp only [hold] at h2
      cases hg : g old x with
      | error e => simp only [hg] at h2; cases h2
      | ok v =>
        simp only [hg] at h2
        refine ⟨old, v, rfl, hg, ?_⟩
        rw [writeSeq_untouched (some g) qs _ es1 hr h2 o.toNat hq2,
          List.getElem?_set_self (by omega)]

theorem map_fst_scalar (ds : List Int) (sc : Value) :
    (ds.map (fun d => (d, sc))).map Prod.fst = ds := by
  induction ds with
  | nil => rfl
  | cons d ds ih => simp only [List.map_cons, ih]

theorem scalar_pairs_range (ds : List Int) (sc : Value) (n : Nat)
    (hr : ∀ d ∈ ds, d = -1 ∨ (0 ≤ d ∧ d < n)) :
    ∀ p ∈ ds.map (fun d => (d, sc)), p.1 = -1 ∨ 0 ≤ p.1 := by
  intro p hp
  simp only [List.mem_map] at hp
  obtain ⟨d, hd, rfl⟩ := hp
  rcases hr d hd with h | h
  · exact Or.inl h
  · exact Or.inr h.1

/-- Without a modifier the scalar is found at every named offset. -/
theorem writeSeq_scalar_none (sc : Value) :
    ∀ (ds : List Int) (es : List Value),
      (∀ d ∈ ds, d = -1 ∨ (0 ≤ d ∧ d < es.length)) →
      ∃ es1, writeSeq none (ds.map (fun d => (d, sc))) es = .ok es1 ∧
        ∀ d ∈ ds, d ≠ -1 → es1[d.toNat]? = some sc := by
  intro ds
  induction ds with
  | nil => intro es _; exact ⟨es, rfl, fun d hd => by cases hd⟩
  | cons d ds ih =>
    intro es hr
    have hr2 : ∀ d ∈ ds, d = -1 ∨ (0 ≤ d ∧ d < es.length) :=
      fun d hd => hr d (List.mem_cons_of_mem _ hd)
    by_cases hd : d = -1
    · obtain ⟨es1, e1, e2⟩ := ih es hr2
      refine ⟨es1, by simp only [List.map_cons, writeSeq, hd, if_true]; exact e1, ?_⟩
      intro d' hd' hne
      rcases List.mem_cons.mp hd' with h | h
      · exact absurd (h.trans hd) hne
      · exact e2 d' h hne
    · obtain ⟨h0, h1⟩ : 0 ≤ d ∧ d < es.length := by
        rcases hr d (List.mem_cons_self _ _) with h | h
        · exact absurd h hd
        · exact h
      obtain ⟨es1, e1, e2⟩ := ih (es.set d.toNat sc) (by
        intro d' hd'
        rw [List.length_set]
        exact hr2 d' hd')
      refine ⟨es1, by simp only [List.map_cons, writeSeq, hd, if_false]; exact e1, ?_⟩
      intro d' hd' hne
      by_cases hin : d' ∈ ds
      · exact e2 d' hin hne
      · have hdd : d' = d := by
          rcases List.mem_cons.mp hd' with h | h
          · exact h
          · exact absurd h hin
        subst hdd
        have hu := writeSeq_untouched none _ _ es1
          (scalar_pairs_range ds sc es.length hr2) e1 d'.toNat (by
            rw [map_fst_scalar, Int.toNat_of_nonneg h0]; exact hin)
        rw [hu, List.getElem?_set_self (by omega)]

/-- With a modifier and distinct offsets every named offset holds `mod(old, scalar)`. -/
theorem writeSeq_scalar_some (g : Function) (sc : Value) :
    ∀ (ds : List Int) (es : List Value),
      (ds.filter (fun d => d ≠ -1)).Nodup →
      (∀ d ∈ ds, d = -1 ∨ (0 ≤ d ∧ d < es.length)) →
      (∀ d ∈ ds, d ≠ -1 → ∀ old, es[d.toNat]? = some old → ∃ v, g old sc = .ok v) →
      ∃ es1, writeSeq (some g) (ds.map (fun d => (d, sc))) es = .ok es1 ∧
        ∀ d ∈ ds, d ≠ -1 →
          ∃ old v, es[d.toNat]? = some old ∧ g old sc = .ok v ∧ es1[d.toNat]? = some v := by
  intro ds
  induction ds with
  | nil => intro es _ _ _; exact ⟨es, rfl, fun d hd => by cases hd⟩
  | cons d ds ih =>
    intro es hnd hr hg
    have hr2 : ∀ d ∈ ds, d = -1 ∨ (0 ≤ d ∧ d < es.length) :=
      fun d hd => hr d (List.mem_cons_of_mem _ hd)
    by_cases hd : d = -1
    · have hnd2 : (ds.filter (fun d => d ≠ -1)).Nodup := by
        simpa [List.filter_cons, hd] using hnd
      obtain ⟨es1, e1, e2⟩ := ih es hnd2 hr2
        (fun d' hd' => hg d' (List.mem_cons_of_mem _ hd'))
      refine ⟨es1, by simp only [List.map_cons, writeSeq, hd, if_true]; exact e1, ?_⟩
      intro d' hd' hne
      rcases List.mem_cons.mp hd' with h | h
      · exact absurd (h.trans hd) hne
      · exact e2 d' h hne
    · obtain ⟨h0, h1⟩ : 0 ≤ d ∧ d < es.length := by
        rcases hr d (List.mem_cons_self _ _) with h | h
        · exact absurd h hd
        · exact h
      have hnd' : d ∉ ds.filter (fun d => d ≠ -1) ∧ (ds.filter (fun d => d ≠ -1)).Nodup := by
        simpa [List.filter_cons, hd] using hnd
      have hnotin : d ∉ ds := by
        intro hin
        apply hnd'.1
        simp only [List.mem_filter, decide_eq_true_eq]
        exact ⟨hin, hd⟩
      have hlt : d.toNat < es.length := by omega
      obtain ⟨v, hv⟩ := hg d (List.mem_cons_self _ _) hd _ (List.getElem?_eq_getElem hlt)
      have hother : ∀ d' ∈ ds, d' ≠ -1 → (es.set d.toNat v)[d'.toNat]? = es[d'.toNat]? := by
        intro d' hd' hne'
        apply List.getElem?_set_ne
        intro e
        have h0' : 0 ≤ d' := by
          rcases hr2 d' hd' with h | h
          · exact absurd h hne'
          · exact h.1
        apply hnotin
        have : d = d' := by omega
        rw [this]; exact hd'
      obtain ⟨es1, e1, e2⟩ := ih (es.set d.toNat v) hnd'.2 (by
        intro d' hd'
        rw [List.length_set]
        exact hr2 d' hd') (by
        intro d' hd' hne' old hold
        rw [hother d' hd' hne'] at hold
        exact hg d' (List.mem_cons_of_mem _ hd') hne' old hold)
      refine ⟨es1, ?_, ?_⟩
      · simp only [List.map_cons, writeSeq, hd, if_false, List.getElem?_eq_getElem hlt, hv]
        exact e1
      · intro d' hd' hne
        rcases List.mem_cons.mp hd' with h | h
        · subst h
          refine ⟨_, v, List.getElem?_eq_getElem hlt, hv, ?_⟩
          have hu := writeSeq_untouched (some g) _ _ es1
            (scalar_pairs_range ds sc es.length hr2) e1 d'.toNat (by
              rw [map_fst_scalar, Int.toNat_of_nonneg h0]; exact hnotin)
          rw [hu, List.getElem?_set_self (by omega)]
        · obtain ⟨old, w, a1, a2, a3⟩ := e2 d' h hne
          rw [hother d' h hne] at a1
          exact ⟨old, w, a1, a2, a3⟩

theorem writeSeq_some_ok (g : Function) :
    ∀ (ps : List (Int × Value)) (es : List Value),
      (∀ p ∈ ps, p.1 = -1 ∨ (0 ≤ p.1 ∧ p.1 < es.length)) →
      (∀ p ∈ ps, ∀ old, ∃ v, g old p.2 = .ok v) →
      ∃ es1, writeSeq (some g) ps es = .ok es1 := by
  intro ps
  induction ps with
  | nil => intro es _ _; exact ⟨es, rfl⟩
  | cons p ps ih =>
    intro es hr hg
    obtain ⟨d, x⟩ := p
    have hr2 : ∀ p ∈ ps, p.1 = -1 ∨ (0 ≤ p.1 ∧ p.1 < es.length) :=
      fun p hp => hr p (List.mem_cons_of_mem _ hp)
    have hg2 : ∀ p ∈ ps, ∀ old, ∃ v, g old p.2 = .ok v :=
      fun p hp => hg p (List.mem_cons_of_mem _ hp)
    by_cases hd : d = -1
    · simp only [writeSeq, hd, if_true]
      exact ih es hr2 hg2
    · obtain ⟨h0, h1⟩ : 0 ≤ d ∧ d < es.length := by
        rcases hr (d, x) (List.mem_cons_self _ _) with h | h
        · exact absurd h hd
        · exact h
      have hlt : d.toNat < es.length := by omega
      obtain ⟨v, hv⟩ := hg (d, x) (List.mem_cons_self _ _) (es[d.toNat])
      simp only [writeSeq, hd, if_false, List.getElem?_eq_getElem hlt, hv]
      exact ih _ (by intro p hp; rw [List.length_set]; exact hr2 p hp) hg2

theorem assignValue_array (a : Apl) (dst : Value) (idx : IntArray) (f : Option Function)
    (R : Value) (hArr : dst.isArray = true) :
    assignValue a dst (some (.intArray idx.Dims idx.Ints)) f R
      = assignValueArray dst idx f R := by
  cases dst <;> simp [Value.isArray] at hArr <;> rfl

theorem inv_init (dst : Value) (hdst : dst.WF) :
    ArState.Inv dst.Shape dst.elems.length ⟨dst, none⟩ :=
  ⟨hdst.1, rfl, rfl, hdst.2.2⟩

/-- Scalar path of `assignValue`: the returned array holds the storage that the write
sequence of the single value specifies. -/
theorem assignValue_scalar_path (a : Apl) (dst : Value) (idx : IntArray)
    (f : Option Function) (R sc : Value) (es1 : List Value)
    (hdst : dst.WF)
    (hidx : ∀ d ∈ idx.Ints, d = -1 ∨ (0 ≤ d ∧ d < dst.Size))
    (hR : (R.isArray = false ∧ sc = R) ∨ (R.isArray = true ∧ R.Size = 1 ∧ R.At 0 = .ok sc))
    (hw : writeSeq f (idx.Ints.map (fun d => (d, sc))) dst.elems = .ok es1) :
    ∃ st : ArState, assignValue a dst (some (.intArray idx.Dims idx.Ints)) f R
        = (st.dst, .ok (some st.ar)) ∧
      assignScalarLoop f sc idx.Ints ⟨dst, none⟩ = (st, .ok ()) ∧
      st.ar.isArray = true ∧ st.ar.Shape = dst.Shape ∧ st.ar.elems = es1 := by
  have hidx2 : ∀ d ∈ idx.Ints, d = -1 ∨ (0 ≤ d ∧ d < (dst.elems.length : Int)) := hidx
  obtain ⟨st, e1, e2, e3⟩ := assignScalarLoop_refines dst.Shape dst.elems.length f sc
    idx.Ints ⟨dst, none⟩ es1 (inv_init dst hdst) hidx2 hw
  refine ⟨st, ?_, e1, e2.1, e2.2.1, e3⟩
  rw [assignValue_array a dst idx f R hdst.1]
  rcases hR with ⟨h1, h2⟩ | ⟨h1, h2, h3⟩
  · subst h2
    simp only [assignValueArray, hdst.1, h1, Value.Copy]
    simp only [Bool.false_eq_true, if_false]
    rw [e1]
    simp
  · simp only [assignValueArray, hdst.1, h1, h2, h3, Value.Copy, Except.map]
    simp only [if_true]
    rw [e1]
    simp

theorem at_of_elems (A : Value) (d : Int) (v : Value) (h0 : 0 ≤ d)
    (h : A.elems[d.toNat]? = some v) : A.At d = .ok v := by
  unfold Value.At
  rw [getAt_ok_iff]
  exact ⟨h0, h⟩

theorem at_congr (A B : Value) (d : Int) (h : A.elems[d.toNat]? = B.elems[d.toNat]?) :
    A.At d = B.At d := by
  unfold Value.At getAt
  rw [h]

/-- C3: scalar broadcast in indexed assignment.  For every well-formed target array, every
index descriptor whose entries are in-range flat offsets or the sentinel `-1`, and every
right-hand side that is a non-array value or an array of exactly one element (a modifier,
when given, returning a value on that single value), `assignValue` succeeds with an array
of the target's shape; without a modifier every offset named by a non-sentinel entry
holds the single value; with a modifier and distinct offsets it holds
`mod(old, value)`; every offset that no entry names holds its original element, and the
sentinel `-1` writes nothing. -/
theorem assignValue_scalar_broadcast (a : Apl) (dst : Value) (idx : IntArray)
    (f : Option Function) (R sc : Value)
    (hdst : dst.WF)
    (hidx : ∀ d ∈ idx.Ints, d = -1 ∨ (0 ≤ d ∧ d < dst.Size))
    (hR : (R.isArray = false ∧ sc = R) ∨ (R.isArray = true ∧ R.Size = 1 ∧ R.At 0 = .ok sc))
    (hg : ∀ g, f = some g → ∀ old, ∃ v, g old sc = .ok v) :
    ∃ res, (assignValue a dst (some (.intArray idx.Dims idx.Ints)) f R).2 = .ok (some res) ∧
      res.isArray = true ∧ res.Shape = dst.Shape ∧ res.Size = dst.Size ∧
      (f = none → ∀ d ∈ idx.Ints, d ≠ -1 → res.At d = .ok sc) ∧
      (∀ g, f = some g → (idx.Ints.filter (fun d => d ≠ -1)).Nodup →
        ∀ d ∈ idx.Ints, d ≠ -1 →
          ∃ old v, dst.At d = .ok old ∧ g old sc = .ok v ∧ res.At d = .ok v) ∧
      (∀ j, 0 ≤ j → j ∉ idx.Ints → res.At j = dst.At j) ∧
      (∀ st v, modAssign f st (-1) v = (st, .ok ())) := by
  have hidx2 : ∀ d ∈ idx.Ints, d = -1 ∨ (0 ≤ d ∧ d < (dst.elems.length : Int)) := hidx
  have hrange := scalar_pairs_range idx.Ints sc dst.elems.length hidx2
  have hex : ∃ es1, writeSeq f (idx.Ints.map (fun d => (d, sc))) dst.elems = .ok es1 := by
    cases f with
    | none => exact writeSeq_none_ok _ _
    | some g =>
      apply writeSeq_some_ok g
      · intro p hp
        simp only [List.mem_map] at hp
        obtain ⟨d, hd, rfl⟩ := hp
        exact hidx2 d hd
      · intro p hp old
        simp only [List.mem_map] at hp
        obtain ⟨d, hd, rfl⟩ := hp
        exact hg g rfl old
  obtain ⟨es1, hw⟩ := hex
  obtain ⟨st, e1, _, e3, e4, e5⟩ :=
    assignValue_scalar_path a dst idx f R sc es1 hdst hidx hR hw
  have hlen : es1.length = dst.elems.length := writeSeq_length f _ _ _ hw
  refine ⟨st.ar, by rw [e1], e3, e4, by unfold Value.Size; rw [e5, hlen], ?_, ?_, ?_,
    fun st v => modAssign_sentinel f st v⟩
  · intro hf d hd hne
    subst hf
    obtain ⟨es2, w1, w2⟩ := writeSeq_scalar_none sc idx.Ints dst.elems hidx2
    rw [hw] at w1
    cases w1
    have h0 : 0 ≤ d := by
      rcases hidx d hd with h | h
      · exact absurd h hne
      · exact h.1
    exact at_of_elems _ d sc h0 (by rw [e5]; exact w2 d hd hne)
  · intro g hf hnd d hd hne
    subst hf
    obtain ⟨es2, w1, w2⟩ := writeSeq_scalar_some g sc idx.Ints dst.elems hnd hidx2
      (fun d _ _ old _ => hg g rfl old)
    rw [hw] at w1
    cases w1
    have h0 : 0 ≤ d := by
      rcases hidx d hd with h | h
      · exact absurd h hne
      · exact h.1
    obtain ⟨old, v, a1, a2, a3⟩ := w2 d hd hne
    exact ⟨old, v, at_of_elems _ d old h0 a1, a2, at_of_elems _ d v h0 (by rw [e5]; exact a3)⟩
  · intro j h0 hj
    apply at_congr
    rw [e5]
    have := writeSeq_untouched f _ _ es1 hrange hw j.toNat (by
      rw [map_fst_scalar, Int.toNat_of_nonneg h0]; exact hj)
    exact this

/-- Witness of C3: 9 added by a modifier at offsets 0 and 2 of a 4-vector, one sentinel. -/
theorem assignValue_scalar_broadcast_witness :
    ∃ res, (assignValue ⟨[], 1⟩ (.intArray [4] [1, 2, 3, 4])
        (some (.intArray [3] [0, -1, 2])) (some addInts) (.scalar (.int 9))).2
        = .ok (some res) ∧
      res.isArray = true ∧ res.Shape = [4] ∧ res.Size = 4 ∧
      (some addInts = none → ∀ d ∈ [(0 : Int), -1, 2], d ≠ -1 →
        res.At d = .ok (.scalar (.int 9))) ∧
      (∀ g, some addInts = some g →
        (([(0 : Int), -1, 2]).filter (fun d => d ≠ -1)).Nodup →
        ∀ d ∈ [(0 : Int), -1, 2], d ≠ -1 →
          ∃ old v, (Value.intArray [4] [1, 2, 3, 4]).At d = .ok old ∧
            g old (.scalar (.int 9)) = .ok v ∧ res.At d = .ok v) ∧
      (∀ j, 0 ≤ j → j ∉ [(0 : Int), -1, 2] →
        res.At j = (Value.intArray [4] [1, 2, 3, 4]).At j) ∧
      (∀ st v, modAssign (some addInts) st (-1) v = (st, .ok ())) :=
  assignValue_scalar_broadcast ⟨[], 1⟩ (.intArray [4] [1, 2, 3, 4]) ⟨[3], [0, -1, 2]⟩
    (some addInts) (.scalar (.int 9)) (.scalar (.int 9)) ⟨rfl, by decide, by decide⟩
    (by decide) (Or.inl ⟨rfl, rfl⟩)
    (fun g h old => by
      cases h
      exact ⟨_, rfl⟩)

/-- Evaluation: 9 added at offsets 0 and 2 of 1 2 3 4 gives 10 2 12 4. -/
theorem eval_assignValue_scalar_mod :
    (assignValue ⟨[], 1⟩ (.intArray [4] [1, 2, 3, 4])
      (some (.intArray [3] [0, -1, 2])) (some addInts) (.scalar (.int 9))).2
    = .ok (some (.intArray [4] [10, 2, 12, 4])) := by rfl

theorem prod_filter_ne_one (s : List Int) : prod (s.filter (fun i => i ≠ 1)) = prod s := by
  induction s with
  | nil => rfl
  | cons x xs ih =>
    by_cases hx : x = 1
    · rw [List.filter_cons_of_neg (by simp [hx]), ih, hx]
      simp [prod]
    · rw [List.filter_cons_of_pos (by simp [hx])]
      simp only [prod, ih]

theorem prod_collapse (s : List Int) : prod (collapse s) = prod s := by
  unfold collapse
  by_cases h : (s.filter (fun i => i = 1)).length = 0
  · simp only [h, if_true]
  · simp only [h, if_false]
    exact prod_filter_ne_one s

theorem conformCheck_self (s : List Int) : conformCheck s s = .ok () := by
  have : (List.zip s s).any (fun p => decide (p.1 ≠ p.2)) = false := by
    induction s with
    | nil => rfl
    | cons x xs ih =>
      rw [List.zip_cons_cons, List.any_cons, ih]
      simp
  simp only [conformCheck, ne_eq, not_true_eq_false, if_false]
  rw [this]
  simp

/-- Pairwise path of `assignValue`: the returned array holds the storage that the write
sequence of the pairs (offset, element of `R`) specifies. -/
theorem assignValue_pair_path (a : Apl) (dst : Value) (idx : IntArray)
    (f : Option Function) (R : Value) (es1 : List Value)
    (hdst : dst.WF)
    (hidx : ∀ d ∈ idx.Ints, d = -1 ∨ (0 ≤ d ∧ d < dst.Size))
    (hidxWF : (idx.Ints.length : Int) = prod idx.Dims)
    (hR : R.WF) (hR1 : R.Size ≠ 1)
    (hconf : collapse idx.Dims = collapse R.Shape)
    (hw : writeSeq f (idx.Ints.zip R.elems) dst.elems = .ok es1) :
    ∃ st : ArState, assignValue a dst (some (.intArray idx.Dims idx.Ints)) f R
        = (st.dst, .ok (some st.ar)) ∧
      st.ar.isArray = true ∧ st.ar.Shape = dst.Shape ∧ st.ar.elems = es1 := by
  have hidx2 : ∀ d ∈ idx.Ints, d = -1 ∨ (0 ≤ d ∧ d < (dst.elems.length : Int)) := hidx
  have hlen : idx.Ints.length = R.elems.length := by
    have h1 := prod_collapse idx.Dims
    have h2 := prod_collapse R.Shape
    rw [hconf] at h1
    have h3 := hR.2.2
    omega
  obtain ⟨st, e1, e2, e3⟩ := assignPairLoop_refines dst.Shape dst.elems.length f R
    idx.Ints 0 ⟨dst, none⟩ es1 (inv_init dst hdst) hidx2 (by omega)
    (by rw [List.drop_zero]; exact hw)
  refine ⟨st, ?_, e2.1, e2.2.1, e3⟩
  rw [assignValue_array a dst idx f R hdst.1]
  simp only [assignValueArray, hdst.1, hR.1, hR1, if_true, if_false, hconf, conformCheck_self]
  simp only [Nat.cast_zero] at e1
  rw [e1]
  simp

/-- C4: pairwise indexed assignment.  For every well-formed target array, every
well-formed index descriptor with in-range or `-1` entries and every well-formed array `R`
of size other than 1 whose shape conforms to the descriptor's (equal after dropping the
axes of size 1), a modifier, when given, returning a value on every call, `assignValue`
succeeds with an array of the target's shape whose storage is the result of taking the
pairs `(idx[i], R[i])` in increasing `i`: `-1` is skipped, otherwise offset `idx[i]`
becomes `R[i]`, or `mod(current element, R[i])` with a modifier.  Hence the write of the
last pair that names an offset is the one that remains, and an offset that no entry names
keeps its element. -/
theorem assignValue_pairwise (a : Apl) (dst : Value) (idx : IntArray)
    (f : Option Function) (R : Value)
    (hdst : dst.WF)
    (hidx : ∀ d ∈ idx.Ints, d = -1 ∨ (0 ≤ d ∧ d < dst.Size))
    (hidxWF : (idx.Ints.length : Int) = prod idx.Dims)
    (hR : R.WF) (hR1 : R.Size ≠ 1)
    (hconf : collapse idx.Dims = collapse R.Shape)
    (hg : ∀ g, f = some g → ∀ old x, ∃ v, g old x = .ok v) :
    ∃ res es1, (assignValue a dst (some (.intArray idx.Dims idx.Ints)) f R).2
        = .ok (some res) ∧
      res.isArray = true ∧ res.Shape = dst.Shape ∧
      writeSeq f (idx.Ints.zip R.elems) dst.elems = .ok es1 ∧ res.elems = es1 ∧
      (∀ ps o x qs, idx.Ints.zip R.elems = ps ++ (o, x) :: qs → o ≠ -1 →
        o ∉ qs.map Prod.fst →
        ∃ mid, writeSeq f ps dst.elems = .ok mid ∧
          match f with
          | none => res.At o = .ok x
          | some g => ∃ old v, mid[o.toNat]? = some old ∧ g old x = .ok v ∧
              res.At o = .ok v) ∧
      (∀ j, 0 ≤ j → j ∉ idx.Ints → res.At j = dst.At j) := by
  have hidx2 : ∀ d ∈ idx.Ints, d = -1 ∨ (0 ≤ d ∧ d < (dst.elems.length : Int)) := hidx
  have hlen : idx.Ints.length = R.elems.length := by
    have h1 := prod_collapse idx.Dims
    have h2 := prod_collapse R.Shape
    rw [hconf] at h1
    have h3 := hR.2.2
    omega
  have hrange : ∀ p ∈ idx.Ints.zip R.elems, p.1 = -1 ∨ (0 ≤ p.1 ∧ p.1 < (dst.elems.length : Int)) := by
    intro p hp
    obtain ⟨d, x⟩ := p
    exact hidx2 d (List.of_mem_zip hp).1
  have hrange0 : ∀ p ∈ idx.Ints.zip R.elems, p.1 = -1 ∨ 0 ≤ p.1 := by
    intro p hp
    rcases hrange p hp with h | h
    · exact Or.inl h
    · exact Or.inr h.1
  have hex : ∃ es1, writeSeq f (idx.Ints.zip R.elems) dst.elems = .ok es1 := by
    cases f with
    | none => exact writeSeq_none_ok _ _
    | some g => exact writeSeq_some_ok g _ _ hrange (fun p _ old => hg g rfl old p.2)
  obtain ⟨es1, hw⟩ := hex
  obtain ⟨st, e1, e3, e4, e5⟩ :=
    assignValue_pair_path a dst idx f R es1 hdst hidx hidxWF hR hR1 hconf hw
  refine ⟨st.ar, es1, by rw [e1], e3, e4, hw, e5, ?_, ?_⟩
  · intro ps o x qs hsplit hne hq
    have hmem : (o, x) ∈ idx.Ints.zip R.elems := by rw [hsplit]; simp
    obtain ⟨h0, h1⟩ : 0 ≤ o ∧ o < (dst.elems.length : Int) := by
      rcases hrange (o, x) hmem with h | h
      · exact absurd h hne
      · exact h
    have hrq : ∀ p ∈ qs, p.1 = -1 ∨ 0 ≤ p.1 := by
      intro p hp
      apply hrange0 p
      rw [hsplit]
      simp [hp]
    rw [hsplit] at hw
    obtain ⟨mid, m1, m2⟩ := writeSeq_last f ps qs o x dst.elems es1 hrq h0 (by omega) hq hw
    refine ⟨mid, m1, ?_⟩
    cases f with
    | none => exact at_of_elems _ o x h0 (by rw [e5]; exact m2)
    | some g =>
      obtain ⟨old, v, a1, a2, a3⟩ := m2
      exact ⟨old, v, a1, a2, at_of_elems _ o v h0 (by rw [e5]; exact a3)⟩
  · intro j h0 hj
    apply at_congr
    rw [e5]
    exact writeSeq_untouched f _ _ es1 hrange0 hw j.toNat (by
      rw [List.map_fst_zip _ _ (by omega), Int.toNat_of_nonneg h0]; exact hj)

/-- Witness of C4: offset 2 is named twice, the middle entry is the sentinel. -/
theorem assignValue_pairwise_witness :
    ∃ res es1, (assignValue ⟨[], 1⟩ (.intArray [4] [1, 2, 3, 4])
        (some (.intArray [3] [2, -1, 2])) none (.intArray [3] [7, 8, 9])).2
        = .ok (some res) ∧
      res.isArray = true ∧ res.Shape = [4] ∧
      writeSeq none (([(2 : Int), -1, 2]).zip (Value.intArray [3] [7, 8, 9]).elems)
        (Value.intArray [4] [1, 2, 3, 4]).elems = .ok es1 ∧ res.elems = es1 ∧
      (∀ ps o x qs, ([(2 : Int), -1, 2]).zip (Value.intArray [3] [7, 8, 9]).elems
          = ps ++ (o, x) :: qs → o ≠ -1 → o ∉ qs.map Prod.fst →
        ∃ mid, writeSeq none ps (Value.intArray [4] [1, 2, 3, 4]).elems = .ok mid ∧
          match (none : Option Function) with
          | none => res.At o = .ok x
          | some g => ∃ old v, mid[o.toNat]? = some old ∧ g old x = .ok v ∧
              res.At o = .ok v) ∧
      (∀ j, 0 ≤ j → j ∉ [(2 : Int), -1, 2] →
        res.At j = (Value.intArray [4] [1, 2, 3, 4]).At j) :=
  assignValue_pairwise ⟨[], 1⟩ (.intArray [4] [1, 2, 3, 4]) ⟨[3], [2, -1, 2]⟩ none
    (.intArray [3] [7, 8, 9]) ⟨rfl, by decide, by decide⟩ (by decide) (by decide)
    ⟨rfl, by decide, by decide⟩ (by decide) (by decide) (fun g h => by cases h)

/-- Evaluation: the pairs (2, 7), (-1, 8), (2, 9) written into 1 2 3 4 give 1 2 9 4. -/
theorem eval_assignValue_pairwise : (assignValue ⟨[], 1⟩ (.intArray [4] [1, 2, 3, 4])
    (some (.intArray [3] [2, -1, 2])) none (.intArray [3] [7, 8, 9])).2
    = .ok (some (.intArray [4] [1, 2, 9, 4])) := by rfl

/-! ## Upgrade of a uniform array -/

theorem upgrade_wf (U : Value) (hU : U.WF) : upgrade U = some (.mixed U.Shape U.elems) := by
  obtain ⟨_, _, hsz⟩ := hU
  unfold upgrade
  have h2 : ¬ (U.Size < ((prod U.Shape).toNat : Int)) := by
    unfold Value.Size; omega
  rw [if_neg h2, List.take_of_length_le (by omega)]

theorem mixed_set (d : List Int) (es : List Value) (i : Int) (v : Value)
    (h0 : 0 ≤ i) (h1 : i < es.length) :
    (Value.mixed d es).Set i v = .ok (.mixed d (es.set i.toNat v)) := by
  have hr : ¬ (i < 0 ∨ i ≥ (Value.mixed d es).Size) := by
    show ¬ (i < 0 ∨ i ≥ ((es.length : Nat) : Int))
    omega
  simp only [Value.Set, hr, if_false]

/-- First write of a value that the array rejects: the array is converted once, the
destination's own storage is left as it was. -/
theorem assignValue_first_upgrade (a : Apl) (U : Value) (i : Int) (v : Value)
    (hU : U.WF) (h0 : 0 ≤ i) (h1 : i < U.Size) (hv : v.isArray = false)
    (hrej : U.Set i v = .error .typeMismatch) :
    assignValue a U (some (.intArray [1] [i])) none v
      = (U, .ok (some (.mixed U.Shape (U.elems.set i.toNat v)))) := by
  have hne : i ≠ -1 := by omega
  have hpath := assignValue_array a U ⟨[1], [i]⟩ none v hU.1
  simp only at hpath
  rw [hpath]
  have hset : (Value.mixed U.Shape U.elems).Set i v
      = .ok (.mixed U.Shape (U.elems.set i.toNat v)) :=
    mixed_set U.Shape U.elems i v h0 h1
  have hm : modAssign none ⟨U, none⟩ i v
      = (⟨.mixed U.Shape (U.elems.set i.toNat v), some U⟩, .ok ()) := by
    unfold modAssign
    rw [if_neg hne]
    show (match U.Set i v with
      | .ok ar1 => ((⟨ar1, none⟩ : ArState), (Except.ok () : Except Err Unit))
      | .error _ => upgradeSet ⟨U, none⟩ i v) = _
    rw [hrej]
    show upgradeSet ⟨U, none⟩ i v = _
    unfold upgradeSet
    show (match (match upgrade U with
        | some ga => (⟨ga, some U⟩ : ArState)
        | none => ⟨U, none⟩).ar.Set i v with
      | .ok ar2 => ((⟨ar2, (match upgrade U with
          | some ga => (⟨ga, some U⟩ : ArState)
          | none => ⟨U, none⟩).frozen⟩ : ArState), (Except.ok () : Except Err Unit))
      | .error e => ((match upgrade U with
          | some ga => (⟨ga, some U⟩ : ArState)
          | none => ⟨U, none⟩), .error e)) = _
    rw [upgrade_wf U hU]
    show (match (Value.mixed U.Shape U.elems).Set i v with
      | .ok ar2 => ((⟨ar2, some U⟩ : ArState), (Except.ok () : Except Err Unit))
      | .error e => (⟨Value.mixed U.Shape U.elems, some U⟩, .error e)) = _
    rw [hset]
  have hsc : (if v.isArray = true then
        (if v.Size = 1 then (v.At 0).map (fun x => some x.Copy) else .ok none)
      else (.ok (some v.Copy) : Except Err (Option Value))) = .ok (some v) := by
    rw [hv]; rfl
  unfold assignValueArray
  rw [if_neg (by rw [hU.1]; decide)]
  simp only [hsc, assignScalarLoop, hm]
  rfl

/-- A write into a mixed array happens in its own storage. -/
theorem assignValue_mixed_in_place (a : Apl) (d : List Int) (es : List Value) (j : Int)
    (w : Value) (h0 : 0 ≤ j) (h1 : j < es.length) (hw : w.isArray = false) :
    assignValue a (.mixed d es) (some (.intArray [1] [j])) none w
      = (.mixed d (es.set j.toNat w), .ok (some (.mixed d (es.set j.toNat w)))) := by
  have hne : j ≠ -1 := by omega
  have hpath := assignValue_array a (.mixed d es) ⟨[1], [j]⟩ none w rfl
  simp only at hpath
  rw [hpath]
  have hm : modAssign none ⟨.mixed d es, none⟩ j w
      = (⟨.mixed d (es.set j.toNat w), none⟩, .ok ()) := by
    unfold modAssign
    rw [if_neg hne]
    show (match (Value.mixed d es).Set j w with
      | .ok ar1 => ((⟨ar1, none⟩ : ArState), (Except.ok () : Except Err Unit))
      | .error _ => upgradeSet ⟨.mixed d es, none⟩ j w) = _
    rw [mixed_set d es j w h0 h1]
  have hsc : (if w.isArray = true then
        (if w.Size = 1 then (w.At 0).map (fun x => some x.Copy) else .ok none)
      else (.ok (some w.Copy) : Except Err (Option Value))) = .ok (some w) := by
    rw [hw]; rfl
  unfold assignValueArray
  rw [if_neg (by simp [Value.isArray])]
  simp only [hsc, assignScalarLoop, hm]
  rfl

theorem getAt_set_ne {α : Type} (es : List α) (i j : Int) (v : α) (h0 : 0 ≤ i)
    (hne : j ≠ i) : getAt (es.set i.toNat v) j = getAt es j := by
  unfold getAt
  by_cases hj : j < 0
  · simp [hj]
  · simp only [hj, if_false]
    rw [List.getElem?_set_ne (by omega)]

theorem getAt_set_self {α : Type} (es : List α) (i : Int) (v : α) (h0 : 0 ≤ i)
    (h1 : i < es.length) : getAt (es.set i.toNat v) i = .ok v := by
  rw [getAt_ok_iff]
  exact ⟨h0, List.getElem?_set_self (by omega)⟩

/-- C5 (as amended): for every well-formed uniform array `U`, every in-range offset `i` and
every non-array value `v` that `U.Set` rejects because of its type, indexed assignment of
`v` at offset `i` with no modifier succeeds, leaves the storage of `U` as it was and
returns a mixed array with `U`'s shape whose element at `i` is `v` and whose element at
every other offset is `U`'s; assigning a further non-array value at an in-range offset of
that mixed array succeeds in place: the array returned is the destination's own storage,
still mixed, changed at that offset only. -/
theorem assignValue_upgrade_once (a : Apl) (U : Value) (i : Int) (v : Value)
    (hU : U.WF) (hUni : U.isUniform = true) (h0 : 0 ≤ i) (h1 : i < U.Size)
    (hv : v.isArray = false) (hrej : U.Set i v = .error .typeMismatch) :
    ∃ M, assignValue a U (some (.intArray [1] [i])) none v = (U, .ok (some M)) ∧
      M.kind = Kind.mixed ∧ M.Shape = U.Shape ∧ M.At i = .ok v ∧
      (∀ j, j ≠ i → M.At j = U.At j) ∧
      (∀ w j, w.isArray = false → 0 ≤ j → j < U.Size →
        ∃ M2, assignValue a M (some (.intArray [1] [j])) none w = (M2, .ok (some M2)) ∧
          M2.kind = Kind.mixed ∧ M2.Shape = U.Shape ∧ M2.At j = .ok w ∧
          ∀ l, l ≠ j → M2.At l = M.At l) := by
  have _ := hUni
  have h1' : i < (U.elems.length : Int) := h1
  refine ⟨.mixed U.Shape (U.elems.set i.toNat v),
    assignValue_first_upgrade a U i v hU h0 h1 hv hrej, rfl, rfl, ?_, ?_, ?_⟩
  · exact getAt_set_self U.elems i v h0 h1'
  · intro j hj
    exact getAt_set_ne U.elems i j v h0 hj
  · intro w j hw hj0 hj1
    have hj1' : j < ((U.elems.set i.toNat v).length : Int) := by
      rw [List.length_set]; exact hj1
    refine ⟨.mixed U.Shape ((U.elems.set i.toNat v).set j.toNat w),
      assignValue_mixed_in_place a U.Shape _ j w hj0 hj1' hw, rfl, rfl, ?_, ?_⟩
    · exact getAt_set_self _ j w hj0 hj1'
    · intro l hl
      exact getAt_set_ne _ j l w hj0 hl

/-- Witness of C5 (as amended): a string written into an integer vector. -/
theorem assignValue_upgrade_once_witness :
    ∃ M, assignValue ⟨[], 1⟩ (.intArray [3] [1, 2, 3]) (some (.intArray [1] [1])) none
        (.scalar (.str "x")) = (.intArray [3] [1, 2, 3], .ok (some M)) ∧
      M.kind = Kind.mixed ∧ M.Shape = [3] ∧ M.At 1 = .ok (.scalar (.str "x")) ∧
      (∀ j, j ≠ 1 → M.At j = (Value.intArray [3] [1, 2, 3]).At j) ∧
      (∀ w j, w.isArray = false → 0 ≤ j → j < 3 →
        ∃ M2, assignValue ⟨[], 1⟩ M (some (.intArray [1] [j])) none w
            = (M2, .ok (some M2)) ∧
          M2.kind = Kind.mixed ∧ M2.Shape = [3] ∧ M2.At j = .ok w ∧
          ∀ l, l ≠ j → M2.At l = M.At l) :=
  assignValue_upgrade_once ⟨[], 1⟩ (.intArray [3] [1, 2, 3]) 1 (.scalar (.str "x"))
    ⟨rfl, by decide, by decide⟩ rfl (by decide) (by decide) rfl rfl

/-- Counterexample to C5 as stated: a two-element string array is a value that the
integer vector's `Set` rejects because of its type, yet its indexed assignment at offset 0
fails as non-conformant instead of returning a mixed array. -/
theorem assignValue_upgrade_array_counterexample :
    (Value.intArray [2] [1, 2]).Set 0 (.strArray [2] ["a", "b"]) = .error .typeMismatch ∧
    (assignValue ⟨[], 1⟩ (.intArray [2] [1, 2]) (some (.intArray [1] [0])) none
      (.strArray [2] ["a", "b"])).2 = .error .nonConformant :=
  ⟨by rfl, by rfl⟩

/-- C2, at the failing input: rotating the vector 10 20 30 by 2^63 - 1 adds the offset in
64-bit arithmetic, which wraps; the result 20 20 30 is no rotation of the argument, and
rotating it by -(2^63 - 1) gives 30 20 20, not the argument. -/
theorem rotate_round_trip_overflow :
    rotate (.intArray [1] [9223372036854775807]) (.intArray [3] [10, 20, 30]) (-1)
      = .ok (.intArray [3] [20, 20, 30]) ∧
    rotate (.intArray [1] [-9223372036854775807]) (.intArray [3] [20, 20, 30]) (-1)
      = .ok (.intArray [3] [30, 20, 20]) :=
  ⟨by rfl, by rfl⟩

/-! ## Vector assignment -/

theorem assocGet_assocSet_self {κ β : Type} [DecidableEq κ] (m : List (κ × β)) (k : κ)
    (v : β) : assocGet (assocSet m k v) k = some v := by
  induction m with
  | nil => simp [assocSet, assocGet]
  | cons p m ih =>
    obtain ⟨k1, x⟩ := p
    by_cases h : k1 = k
    · simp [assocSet, assocGet, h]
    · simp [assocSet, assocGet, h, ih]

theorem assocGet_assocSet_ne {κ β : Type} [DecidableEq κ] (m : List (κ × β)) (k k2 : κ)
    (v : β) (hne : k2 ≠ k) : assocGet (assocSet m k v) k2 = assocGet m k2 := by
  induction m with
  | nil =>
    have : ¬ k = k2 := fun e => hne e.symm
    simp [assocSet, assocGet, this]
  | cons p m ih =>
    obtain ⟨k1, x⟩ := p
    have hkk : ¬ k = k2 := fun e => hne e.symm
    by_cases h : k1 = k
    · subst h
      simp [assocSet, assocGet, hkk]
    · by_cases h2 : k1 = k2
      · subst h2
        simp [assocSet, assocGet, h]
      · simp [assocSet, assocGet, h, h2, ih]

theorem lookup_assign_self (a : Apl) (name : String) (v : Value) :
    (a.Assign name v).LookupEnv name = some v :=
  assocGet_assocSet_self a.vars name v

theorem lookup_assign_ne (a : Apl) (name other : String) (v : Value) (hne : other ≠ name) :
    (a.Assign name v).LookupEnv other = a.LookupEnv other :=
  assocGet_assocSet_ne a.vars name other v hne

theorem assignScalar_plain (a : Apl) (name : String) (v : Value) :
    assignScalar a name none none v = (a.Assign name v, .ok ()) := by
  simp [assignScalar, Value.Copy]

theorem assignVectorLoop_scalar (ar v : Value) :
    ∀ (names : List String) (i : Int) (a : Apl),
      assignVectorLoop none ar (some v) names i a
        = (names.foldl (fun a n => a.Assign n v) a, .ok ()) := by
  intro names
  induction names with
  | nil => intro i a; rfl
  | cons n ns ih =>
    intro i a
    simp only [assignVectorLoop, assignScalar_plain, List.foldl_cons]
    exact ih (i + 1) (a.Assign n v)

theorem assignVectorLoop_array (ar : Value) :
    ∀ (names : List String) (k : Nat) (a : Apl),
      k + names.length ≤ ar.elems.length →
      assignVectorLoop none ar none names k a
        = ((names.zip (ar.elems.drop k)).foldl (fun a p => a.Assign p.1 p.2) a, .ok ()) := by
  intro names
  induction names with
  | nil => intro k a _; rfl
  | cons n ns ih =>
    intro k a hk
    simp only [List.length_cons] at hk
    have hlt : k < ar.elems.length := by omega
    have hb : ArrayBounds ar (k : Int) = .ok () := by
      have : ¬ ((k : Int) < 0 ∨ (k : Int) ≥ ar.Size) := by unfold Value.Size; omega
      simp [ArrayBounds, this]
    have hat : ar.At (k : Int) = .ok (ar.elems[k]) := by
      unfold Value.At
      rw [getAt_ok_iff]
      exact ⟨by omega, by simp [List.getElem?_eq_getElem hlt]⟩
    have hcast : ((k : Int) + 1) = ((k + 1 : Nat) : Int) := by push_cast; rfl
    rw [List.drop_eq_getElem_cons hlt, List.zip_cons_cons, List.foldl_cons]
    simp only [assignVectorLoop, hb, hat, bind, Except.bind, assignScalar_plain, hcast]
    exact ih (k + 1) (a.Assign n ar.elems[k]) (by omega)

theorem lookup_foldl_scalar (v : Value) :
    ∀ (names : List String) (a : Apl) (name : String), name ∈ names →
      (names.foldl (fun a n => a.Assign n v) a).LookupEnv name = some v := by
  intro names
  induction names with
  | nil => intro a name h; cases h
  | cons n ns ih =>
    intro a name h
    rw [List.foldl_cons]
    by_cases hin : name ∈ ns
    · exact ih _ name hin
    · have hn : name = n := by
        rcases List.mem_cons.mp h with h1 | h1
        · exact h1
        · exact absurd h1 hin
      subst hn
      have hkeep : ∀ (ms : List String) (b : Apl), name ∉ ms →
          (ms.foldl (fun a n => a.Assign n v) b).LookupEnv name = b.LookupEnv name := by
        intro ms
        induction ms with
        | nil => intro b _; rfl
        | cons m ms ih2 =>
          intro b hm
          rw [List.foldl_cons, ih2 _ (fun h => hm (List.mem_cons_of_mem _ h)),
            lookup_assign_ne _ _ _ _ (fun e => hm (by rw [e]; exact List.mem_cons_self _ _))]
      rw [hkeep ns _ hin, lookup_assign_self]

theorem lookup_foldl_pairs_keep :
    ∀ (ps : List (String × Value)) (a : Apl) (name : String), name ∉ ps.map Prod.fst →
      (ps.foldl (fun a p => a.Assign p.1 p.2) a).LookupEnv name = a.LookupEnv name := by
  intro ps
  induction ps with
  | nil => intro a name _; rfl
  | cons p ps ih =>
    intro a name h
    simp only [List.map_cons, List.mem_cons, not_or] at h
    rw [List.foldl_cons, ih _ name h.2, lookup_assign_ne _ _ _ _ h.1]

theorem lookup_foldl_pairs :
    ∀ (ps : List (String × Value)) (a : Apl), (ps.map Prod.fst).Nodup →
      ∀ p ∈ ps, (ps.foldl (fun a p => a.Assign p.1 p.2) a).LookupEnv p.1 = some p.2 := by
  intro ps
  induction ps with
  | nil => intro a _ p h; cases h
  | cons q ps ih =>
    intro a hnd p hp
    simp only [List.map_cons, List.nodup_cons] at hnd
    rw [List.foldl_cons]
    rcases List.mem_cons.mp hp with h | h
    · subst h
      rw [lookup_foldl_pairs_keep ps _ _ hnd.1, lookup_assign_self]
    · exact ih _ hnd.2 p h

theorem unifyArray_single (R : Value) :
    (UnifyArray (.mixed [1] [R])).isArray = true ∧
    (UnifyArray (.mixed [1] [R])).Shape = [1] ∧
    (UnifyArray (.mixed [1] [R])).elems = [R] := by
  cases R with
  | scalar sc => cases sc <;> exact ⟨rfl, rfl, rfl⟩
  | _ => exact ⟨rfl, rfl, rfl⟩

theorem assignVector_bad (a : Apl) (names : List String) (R : Value) (m : Int)
    (hArr : R.isArray = true) (hs : R.Shape = [m]) (h1 : m ≠ 1) (hn : m ≠ names.length) :
    assignVector a names R none = (a, .error .nonConformant) := by
  simp [assignVector, hArr, hs, h1, hn]

theorem assignVector_one (a : Apl) (names : List String) (ar R : Value) (v : Value)
    (har : ar = if R.isArray then R else UnifyArray (.mixed [1] [R]))
    (hs : ar.Shape = [1]) (he : ar.elems = [v]) :
    assignVector a names R none = (names.foldl (fun a n => a.Assign n v) a, .ok R) := by
  have hsz : ¬ (ar.Size < 1) := by unfold Value.Size; rw [he]; simp
  have hat : ar.At 0 = .ok v := by
    unfold Value.At
    rw [he]
    rfl
  unfold assignVector
  rw [← har]
  simp only [hs, List.length_cons, List.length_nil, List.headD_cons, ne_eq,
    not_true_eq_false, false_and, if_false, if_true, hsz, hat, Except.map,
    assignVectorLoop_scalar]

theorem assignVector_many (a : Apl) (names : List String) (R : Value) (m : Int)
    (hR : R.WF) (hs : R.Shape = [m]) (h1 : m ≠ 1) (hn : m = names.length) :
    assignVector a names R none
      = ((names.zip R.elems).foldl (fun a p => a.Assign p.1 p.2) a, .ok R) := by
  have hlen : (R.elems.length : Int) = names.length := by
    have := hR.2.2
    rw [hs] at this
    simp only [prod, mul_one] at this
    omega
  have hloop := assignVectorLoop_array R names 0 a (by omega)
  simp only [Nat.cast_zero, List.drop_zero] at hloop
  unfold assignVector
  simp only [hR.1, if_true, hs, List.length_cons, List.length_nil, List.headD_cons, ne_eq,
    not_true_eq_false, if_false, h1, hn, not_false_eq_true, and_false, true_and]
  rw [hn] at h1
  simp only [h1, if_false, hloop]

/-- C6: vector assignment conformance.  For every list of `n` names, no modifier and
every well-formed rank-1 array `R` of length `m`, `assignVector` succeeds if and only if
`m` is 1 or `n`; for every other length it fails with the non-conformant error and the
context is returned unchanged: no binding is created or changed. -/
theorem assignVector_conformance (a : Apl) (names : List String) (R : Value) (m : Int)
    (hR : R.WF) (hs : R.Shape = [m]) :
    ((∃ a1 v, assignVector a names R none = (a1, .ok v)) ↔ (m = 1 ∨ m = names.length)) ∧
    (¬ (m = 1 ∨ m = names.length) →
      assignVector a names R none = (a, .error .nonConformant)) := by
  have hbad : ¬ (m = 1 ∨ m = names.length) →
      assignVector a names R none = (a, .error .nonConformant) := by
    intro h
    simp only [not_or] at h
    exact assignVector_bad a names R m hR.1 hs h.1 h.2
  refine ⟨⟨?_, ?_⟩, hbad⟩
  · rintro ⟨a1, v, h⟩
    by_contra hc
    rw [hbad hc] at h
    cases h
  · intro h
    by_cases h1 : m = 1
    · subst h1
      have hlen : R.elems.length = 1 := by
        have := hR.2.2
        rw [hs] at this
        simp only [prod, mul_one] at this
        omega
      obtain ⟨v, hv⟩ : ∃ v, R.elems = [v] := List.length_eq_one.mp hlen
      exact ⟨_, R, assignVector_one a names R R v (by rw [hR.1]; rfl) hs hv⟩
    · have hn : m = names.length := by
        rcases h with h | h
        · exact absurd h h1
        · exact h
      exact ⟨_, R, assignVector_many a names R m hR hs h1 hn⟩

/-- Witness of C6: the names x, y, z with right-hand sides of length 2, 1 and 3. -/
theorem assignVector_conformance_witness :
    (((∃ a1 v, assignVector ⟨[], 1⟩ ["x", "y", "z"] (.intArray [2] [1, 2]) none
        = (a1, .ok v)) ↔ ((2 : Int) = 1 ∨ (2 : Int) = (["x", "y", "z"] : List String).length)) ∧
      (¬ ((2 : Int) = 1 ∨ (2 : Int) = (["x", "y", "z"] : List String).length) →
        assignVector ⟨[], 1⟩ ["x", "y", "z"] (.intArray [2] [1, 2]) none
          = (⟨[], 1⟩, .error .nonConformant))) ∧
    (assignVector ⟨[], 1⟩ ["x", "y", "z"] (.intArray [1] [7]) none).2
      = .ok (.intArray [1] [7]) ∧
    (assignVector ⟨[], 1⟩ ["x", "y", "z"] (.intArray [3] [7, 8, 9]) none).2
      = .ok (.intArray [3] [7, 8, 9]) :=
  ⟨assignVector_conformance ⟨[], 1⟩ ["x", "y", "z"] (.intArray [2] [1, 2]) 2
    ⟨rfl, by decide, by decide⟩ rfl, by rfl, by rfl⟩

/-- C7: vector assignment result.  For every list of `n` distinct names and no modifier,
when `R` is a well-formed rank-1 array of length `n` (`n` not 1), or a well-formed rank-1
array of length 1, or not an array, `assignVector` succeeds and returns `R` itself, and
afterwards the `i`-th name is bound to a copy of `R[i]` in the first case, to a copy of the
single element in the second and to a copy of `R` in the third. -/
theorem assignVector_result (a : Apl) (names : List String) (R : Value)
    (hnd : names.Nodup)
    (hcase : (R.WF ∧ R.Shape = [(names.length : Int)] ∧ names.length ≠ 1) ∨
      (R.WF ∧ R.Shape = [1]) ∨ R.isArray = false) :
    ∃ a1, assignVector a names R none = (a1, .ok R) ∧
      ∀ i (h : i < names.length), ∃ v, boundValue R i = some v ∧
        a1.LookupEnv (names.get ⟨i, h⟩) = some v.Copy := by
  rcases hcase with ⟨hR, hs, h1⟩ | ⟨hR, hs⟩ | hR
  · have h1' : (names.length : Int) ≠ 1 := by omega
    refine ⟨_, assignVector_many a names R _ hR hs h1' rfl, ?_⟩
    intro i h
    have hlen : R.elems.length = names.length := by
      have := hR.2.2
      rw [hs] at this
      simp only [prod, mul_one] at this
      omega
    have hlt : i < R.elems.length := by omega
    have hne : ¬ (R.Shape = [1]) := by
      rw [hs]
      intro e
      simp only [List.cons.injEq, and_true] at e
      exact h1' e
    refine ⟨R.elems[i], ?_, ?_⟩
    · simp only [boundValue, hR.1, if_true, hne, if_false, List.getElem?_eq_getElem hlt]
    · have hmem : (names.get ⟨i, h⟩, R.elems[i]) ∈ names.zip R.elems := by
        rw [List.mem_iff_getElem]
        refine ⟨i, by simp [List.length_zip, hlen, h], ?_⟩
        simp [List.getElem_zip]
      exact lookup_foldl_pairs (names.zip R.elems) a
        (by rw [List.map_fst_zip _ _ (by omega)]; exact hnd) _ hmem
  · have hlen : R.elems.length = 1 := by
      have := hR.2.2
      rw [hs] at this
      simp only [prod, mul_one] at this
      omega
    obtain ⟨v, hv⟩ : ∃ v, R.elems = [v] := List.length_eq_one.mp hlen
    refine ⟨_, assignVector_one a names R R v (by rw [hR.1]; rfl) hs hv, ?_⟩
    intro i h
    refine ⟨v, by simp [boundValue, hR.1, hs, hv], ?_⟩
    exact lookup_foldl_scalar v names a _ (List.get_mem _ _ _)
  · obtain ⟨_, u2, u3⟩ := unifyArray_single R
    refine ⟨_, assignVector_one a names (UnifyArray (.mixed [1] [R])) R R
      (by rw [hR]; rfl) u2 u3, ?_⟩
    intro i h
    refine ⟨R, by simp [boundValue, hR], ?_⟩
    exact lookup_foldl_scalar R names a _ (List.get_mem _ _ _)

/-- Witness of C7: the names x, y, z bound from the vector 7 8 9. -/
theorem assignVector_result_witness :
    ∃ a1, assignVector ⟨[], 1⟩ ["x", "y", "z"] (.intArray [3] [7, 8, 9]) none
        = (a1, .ok (.intArray [3] [7, 8, 9])) ∧
      ∀ i (h : i < (["x", "y", "z"] : List String).length),
        ∃ v, boundValue (.intArray [3] [7, 8, 9]) i = some v ∧
          a1.LookupEnv ((["x", "y", "z"] : List String).get ⟨i, h⟩) = some v.Copy :=
  assignVector_result ⟨[], 1⟩ ["x", "y", "z"] (.intArray [3] [7, 8, 9]) (by decide)
    (Or.inl ⟨⟨rfl, by decide, by decide⟩, rfl, by decide⟩)

/-- Evaluation: x, y, z bound from the vector 7 8 9. -/
theorem eval_assignVector_vector :
    (assignVector ⟨[], 1⟩ ["x", "y", "z"] (.intArray [3] [7, 8, 9]) none).1.vars
    = [("x", .scalar (.int 7)), ("y", .scalar (.int 8)), ("z", .scalar (.int 9))] := by rfl

/-- Evaluation: x, y, z bound from the scalar 5. -/
theorem eval_assignVector_scalar :
    (assignVector ⟨[], 1⟩ ["x", "y", "z"] (.scalar (.int 5)) none).1.vars
    = [("x", .scalar (.int 5)), ("y", .scalar (.int 5)), ("z", .scalar (.int 5))] := by rfl

/-! ## Object update -/

theorem dict_set_existing (d : Dict) (key : Scalar) (v : Value)
    (h : (d.At key).isSome = true) :
    (d.Set key v).K = d.K ∧ (d.Set key v).At key = some v ∧
    ∀ k2, k2 ≠ key → (d.Set key v).At k2 = d.At k2 := by
  unfold Dict.At at h
  refine ⟨by simp [Dict.Set, h], ?_, ?_⟩
  · exact assocGet_assocSet_self d.M key v
  · intro k2 hne
    exact assocGet_assocSet_ne d.M key k2 v hne

/-- One selected key, no modifier: the flat part of `assignObject` stores `R` under it. -/
theorem assignObjectFlat_single (a : Apl) (R : Value) (j : Int) (obj : Dict) (ik : Scalar)
    (hn : 0 ≤ (if j < 0 then -1 - j else j - a.Origin))
    (hik : obj.K[(if j < 0 then -1 - j else j - a.Origin).toNat]? = some ik) :
    assignObjectFlat a none R [j] obj = (obj.Set ik R, .ok ()) := by
  have hlt : (if j < 0 then -1 - j else j - a.Origin).toNat < obj.K.length := by
    by_contra hc
    rw [List.getElem?_eq_none (by omega)] at hik
    cases hik
  by_cases hj : j < 0
  · simp only [hj, if_true] at hn hik hlt
    have hr : ¬ (-1 - j + a.Origin - a.Origin < 0 ∨
        -1 - j + a.Origin - a.Origin ≥ (obj.K.length : Int)) := by omega
    have hg : getAt obj.K (-1 - j + a.Origin - a.Origin) = .ok ik := by
      rw [getAt_ok_iff]
      have : -1 - j + a.Origin - a.Origin = -1 - j := by omega
      rw [this]
      exact ⟨hn, hik⟩
    simp only [assignObjectFlat, hj, if_true, List.length_cons, List.length_nil,
      assignObjectLoop, hr, if_false, hg]
    simp [bind, Except.bind, pure, Except.pure]
  · simp only [hj, if_false] at hn hik hlt
    have hr : ¬ (j - a.Origin < 0 ∨ j - a.Origin ≥ (obj.K.length : Int)) := by omega
    have hg : getAt obj.K (j - a.Origin) = .ok ik := by
      rw [getAt_ok_iff]
      exact ⟨hn, hik⟩
    simp only [assignObjectFlat, hj, if_false, List.length_cons, List.length_nil,
      assignObjectLoop, hr, hg]
    simp [bind, Except.bind, pure, Except.pure]

/-- C9: depth object update.  For every object whose value at key position `k` is itself
an object, a depth index with a non-empty shape whose first entry is `-1-k` and whose
second entry `j` selects an existing key of the inner object (position `j - Origin`, or
position `-1-j` when `j` is negative), a value `v` and no modifier, `assignObject`
succeeds; afterwards the outer key still holds an object, which maps the selected inner
key to `v` and every other inner key to its old value; every other outer key keeps its
value, and the key order of both objects is unchanged. -/
theorem assignObject_depth (a : Apl) (obj inner : Dict) (dims : List Int) (k : Nat)
    (j : Int) (key ik : Scalar) (v : Value)
    (hdims : dims ≠ [])
    (hkey : obj.K[k]? = some key)
    (hinner : obj.At key = some (.object inner.K inner.M))
    (hn : 0 ≤ (if j < 0 then -1 - j else j - a.Origin))
    (hik : inner.K[(if j < 0 then -1 - j else j - a.Origin).toNat]? = some ik)
    (hpresent : (inner.At ik).isSome = true) :
    ∃ obj1 inner1 : Dict,
      assignObject a none v [-1 - (k : Int), j] dims obj = (obj1, .ok ()) ∧
      obj1.K = obj.K ∧
      obj1.At key = some (.object inner1.K inner1.M) ∧
      inner1.K = inner.K ∧ inner1.At ik = some v ∧
      (∀ k2, k2 ≠ ik → inner1.At k2 = inner.At k2) ∧
      (∀ k2, k2 ≠ key → obj1.At k2 = obj.At k2) := by
  have hlt : k < obj.K.length := by
    by_contra hc
    rw [List.getElem?_eq_none (by omega)] at hkey
    cases hkey
  obtain ⟨d0, drest, hd⟩ : ∃ d0 drest, dims = d0 :: drest := by
    cases dims with
    | nil => exact absurd rfl hdims
    | cons d0 drest => exact ⟨d0, drest, rfl⟩
  subst hd
  have hneg : -1 - (k : Int) < 0 := by omega
  have hkk : -1 - (-1 - (k : Int)) = (k : Int) := by omega
  have hr : ¬ ((k : Int) < 0 ∨ (k : Int) ≥ (obj.K.length : Int)) := by omega
  have hg : getAt obj.K (k : Int) = .ok key := by
    rw [getAt_ok_iff]
    exact ⟨by omega, by simpa using hkey⟩
  have hflat := assignObjectFlat_single a v j inner ik hn hik
  have hsome : (obj.At key).isSome = true := by rw [hinner]; rfl
  obtain ⟨s1, s2, s3⟩ := dict_set_existing inner ik v hpresent
  obtain ⟨t1, t2, t3⟩ := dict_set_existing obj key
    (.object (inner.Set ik v).K (inner.Set ik v).M) hsome
  refine ⟨obj.Set key (.object (inner.Set ik v).K (inner.Set ik v).M), inner.Set ik v,
    ?_, t1, t2, s1, s2, s3, t3⟩
  have hin : assignObject a none v [j] [d0 - 1] ⟨inner.K, inner.M⟩
      = (inner.Set ik v, .ok ()) := by
    have : assignObject a none v [j] [d0 - 1] ⟨inner.K, inner.M⟩
        = assignObjectFlat a none v [j] ⟨inner.K, inner.M⟩ := by
      simp [assignObject]
    rw [this]
    exact hflat
  have hflat2 : assignObjectFlat a none v [j] ⟨inner.K, inner.M⟩
      = (inner.Set ik v, .ok ()) := hflat
  simp only [assignObject, hneg, if_true, hkk, hr, if_false, hg, hinner, hflat2]

/-- Witness of C9: the object (p: (q: 5)) updated at p, then q, with 7 (index origin 1). -/
theorem assignObject_depth_witness :
    ∃ obj1 inner1 : Dict,
      assignObject ⟨[], 1⟩ none (.scalar (.int 7)) [-1 - ((0 : Nat) : Int), 1] [2]
        ⟨[.str "p"], [(.str "p", .object [.str "q"] [(.str "q", .scalar (.int 5))])]⟩
        = (obj1, .ok ()) ∧
      obj1.K = [.str "p"] ∧
      obj1.At (.str "p") = some (.object inner1.K inner1.M) ∧
      inner1.K = [.str "q"] ∧ inner1.At (.str "q") = some (.scalar (.int 7)) ∧
      (∀ k2, k2 ≠ .str "q" →
        inner1.At k2 = (⟨[.str "q"], [(.str "q", .scalar (.int 5))]⟩ : Dict).At k2) ∧
      (∀ k2, k2 ≠ .str "p" → obj1.At k2 =
        (⟨[.str "p"], [(.str "p", .object [.str "q"] [(.str "q", .scalar (.int 5))])]⟩
          : Dict).At k2) :=
  assignObject_depth ⟨[], 1⟩
    ⟨[.str "p"], [(.str "p", .object [.str "q"] [(.str "q", .scalar (.int 5))])]⟩
    ⟨[.str "q"], [(.str "q", .scalar (.int 5))]⟩ [2] 0 1 (.str "p") (.str "q")
    (.scalar (.int 7)) (by decide) rfl rfl (by decide) rfl rfl

/-- Evaluation: the object (p: (q: 5)) updated through `assignValue` at p, then q. -/
theorem eval_assignValue_object_depth : (assignValue ⟨[], 1⟩
    (.object [.str "p"] [(.str "p", .object [.str "q"] [(.str "q", .scalar (.int 5))])])
    (some (.intArray [2] [-1, 1])) none (.scalar (.int 7))).1
    = .object [.str "p"] [(.str "p", .object [.str "q"] [(.str "q", .scalar (.int 7))])] := by
  rfl

/-! ## Table update -/

theorem uniform_kind_ne_mixed (c : Value) (hc : c.isUniform = true) :
    Kind.mixed ≠ c.kind := by
  cases c <;> simp [Value.isUniform] at hc <;> simp [Value.kind]

theorem isUniform_of_kind {A B : Value} (hk : B.kind = A.kind) (hA : A.isUniform = true) :
    B.isUniform = true := by
  cases A with
  | intArray _ _ =>
    cases B with
    | scalar sc => cases sc <;> simp [Value.kind] at hk
    | _ => first | rfl | simp [Value.kind] at hk
  | strArray _ _ =>
    cases B with
    | scalar sc => cases sc <;> simp [Value.kind] at hk
    | _ => first | rfl | simp [Value.kind] at hk
  | _ => simp [Value.isUniform] at hA

/-- Evaluation: a table without rows, the empty row selection, column 0 and the
integer 9; the call succeeds and the table is as it was. -/
theorem eval_assignTable_norows :
    assignTable ⟨[.str "a"], [(.str "a", .intArray [0] [])], 0⟩ ⟨[0, 1], [0]⟩ none
        (.scalar (.int 9))
      = (⟨[.str "a"], [(.str "a", .intArray [0] [])], 0⟩, .ok ()) := by rfl

/-! ## Rotation within the range of `int` -/

theorem wrapInt_id (x : Int) (h0 : -9223372036854775808 ≤ x) (h1 : x < 9223372036854775808) :
    wrapInt x = x := by
  unfold wrapInt
  rw [Int.emod_eq_of_lt (by omega) (by omega)]
  omega

theorem tmod_neg_bounds (x size : Int) (hx : x < 0) (hs : 0 < size) :
    -size < Int.tmod x size ∧ Int.tmod x size ≤ 0 := by
  obtain ⟨m, rfl⟩ : ∃ m, x = Int.negSucc m := Int.eq_negSucc_of_lt_zero hx
  obtain ⟨s, rfl⟩ : ∃ s : Nat, size = (s : Int) := Int.eq_ofNat_of_zero_le (le_of_lt hs)
  have hs1 : 0 < s := by omega
  have hm := Nat.mod_lt (m + 1) hs1
  show -(s : Int) < -((((m + 1) % s : Nat)) : Int) ∧ -((((m + 1) % s : Nat)) : Int) ≤ 0
  omega

/-- Without overflow `rot` is the remainder in `[0, size)`. -/
theorem rot_eq (i n size : Int) (hs : 0 < size)
    (h0 : -9223372036854775808 ≤ i + n) (h1 : i + n < 9223372036854775808) :
    rot i n size = .ok ((i + n) % size) := by
  have key : (if Int.tmod (i + n) size < 0 then size + Int.tmod (i + n) size
      else Int.tmod (i + n) size) = (i + n) % size := by
    have hdecomp := Int.tdiv_add_tmod (i + n) size
    by_cases hx : 0 ≤ i + n
    · have hk := Int.tmod_nonneg size hx
      have : ¬ (Int.tmod (i + n) size < 0) := by omega
      simp only [this, if_false]
      exact Int.tmod_eq_emod hx (le_of_lt hs)
    · obtain ⟨b0, b1⟩ := tmod_neg_bounds (i + n) size (by omega) hs
      by_cases hk : Int.tmod (i + n) size < 0
      · simp only [hk, if_true]
        have : i + n = (size + Int.tmod (i + n) size) + size * ((i + n).tdiv size - 1) := by
          have : size * ((i + n).tdiv size - 1) = size * (i + n).tdiv size - size := by ring
          omega
        conv_rhs => rw [this]
        rw [Int.add_mul_emod_self_left, Int.emod_eq_of_lt (by omega) (by omega)]
      · simp only [hk, if_false]
        have : i + n = Int.tmod (i + n) size + size * ((i + n).tdiv size) := by omega
        conv_rhs => rw [this]
        rw [Int.add_mul_emod_self_left, Int.emod_eq_of_lt (by omega) (by omega)]
  unfold rot
  rw [if_neg (by omega), wrapInt_id _ h0 h1]
  simp only [key]

theorem validIdx_getD {shape c : List Int} (axis : Nat) (h : ValidIdx shape c)
    (hax : axis < shape.length) :
    0 ≤ c.getD axis 0 ∧ c.getD axis 0 < shape.getD axis 0 := by
  induction h generalizing axis with
  | nil => simp at hax
  | @cons s x ss xs hx _ ih =>
    cases axis with
    | zero => simpa using hx
    | succ k =>
      simp only [List.getD_cons_succ]
      exact ih k (by simpa using hax)

theorem validIdx_set {shape c : List Int} (axis : Nat) (v : Int) (h : ValidIdx shape c)
    (h0 : 0 ≤ v) (h1 : v < shape.getD axis 0) : ValidIdx shape (c.set axis v) := by
  induction h generalizing axis with
  | nil => simp [ValidIdx]
  | @cons s x ss xs hx hrest ih =>
    cases axis with
    | zero =>
      simp only [List.set_cons_zero]
      exact List.Forall₂.cons ⟨h0, by simpa using h1⟩ hrest
    | succ k =>
      simp only [List.set_cons_succ]
      exact List.Forall₂.cons hx (ih k (by simpa using h1))

theorem dropAxis_valid {shape c : List Int} (axis : Nat) (h : ValidIdx shape c) :
    ValidIdx (dropAxis axis shape) (dropAxis axis c) := by
  unfold dropAxis ValidIdx
  exact List.rel_append (List.forall₂_take axis h) (List.forall₂_drop (axis + 1) h)

theorem dropAxis_set (axis : Nat) (c : List Int) (v : Int) :
    dropAxis axis (c.set axis v) = dropAxis axis c := by
  unfold dropAxis
  induction c generalizing axis with
  | nil => simp
  | cons x xs ih =>
    cases axis with
    | zero => simp
    | succ k =>
      simp only [List.set_cons_succ, List.take_succ_cons, List.drop_succ_cons,
        List.cons_append]
      rw [ih k]

theorem dropAxis_length (axis : Nat) (c : List Int) (h : axis < c.length) :
    (dropAxis axis c).length + 1 = c.length := by
  unfold dropAxis
  simp only [List.length_append, List.length_take, List.length_drop]
  omega

theorem getAt_inrange {α : Type} (xs : List α) (i : Int) (d : α) (h0 : 0 ≤ i)
    (h1 : i < xs.length) : getAt xs i = .ok (xs.getD i.toNat d) ∧ xs.getD i.toNat d ∈ xs := by
  have hlt : i.toNat < xs.length := by omega
  refine ⟨?_, ?_⟩
  · rw [getAt_ok_iff]
    exact ⟨h0, by simp [List.getD_eq_getElem?_getD, List.getElem?_eq_getElem hlt]⟩
  · simp only [List.getD_eq_getElem?_getD, List.getElem?_eq_getElem hlt, Option.getD_some]
    exact List.getElem_mem _

theorem rotSrc_valid {shape c : List Int} (axis : Nat) (L : IntArray)
    (h : ValidIdx shape c) (hax : axis < shape.length) :
    ValidIdx shape (rotSrc shape axis L c) := by
  obtain ⟨d0, d1⟩ := validIdx_getD axis h hax
  have hs : 0 < shape.getD axis 0 := by omega
  exact validIdx_set axis _ h (Int.emod_nonneg _ (by omega)) (Int.emod_lt_of_pos _ hs)

theorem rotateLoop_spec (A : Value) (L : IntArray) (shape : List Int) (axis : Nat)
    (hax : axis < shape.length) (hA : (A.elems.length : Int) = prod shape)
    (hLd : L.Dims = dropAxis axis shape) (hLw : (L.Ints.length : Int) = prod L.Dims)
    (hfit : AmountsFit L (shape.getD axis 0)) :
    ∀ (n k : Nat) (res : Value) (dst : List Int),
      k + n = A.elems.length →
      (0 < n → ValidIdx shape dst ∧ Index (weights shape) dst = k) →
      res.elems.length = A.elems.length →
      (∀ x ∈ A.elems, res.kind.accepts x = true) →
      ∃ res1, rotateLoop A L shape (weights L.Dims) (weights shape) axis
          (shape.getD axis 0) n k res dst = .ok res1 ∧
        res1.kind = res.kind ∧ res1.Shape = res.Shape ∧
        res1.elems.length = A.elems.length ∧
        (∀ j, j < k → res1.elems[j]? = res.elems[j]?) ∧
        (∀ j, k ≤ j → j < A.elems.length →
          ∃ c, ValidIdx shape c ∧ Index (weights shape) c = j ∧
            res1.elems[j]? = A.elems[(Index (weights shape) (rotSrc shape axis L c)).toNat]?) := by
  intro n
  induction n with
  | zero =>
    intro k res dst hk _ hlen _
    refine ⟨res, rfl, rfl, rfl, hlen, fun _ _ => rfl, ?_⟩
    intro j h1 h2
    omega
  | succ n ih =>
    intro k res dst hk hdst hlen hacc
    obtain ⟨hv, hI⟩ := hdst (Nat.succ_pos n)
    have hdl : axis < dst.length := by rw [validIdx_length hv]; exact hax
    -- the amount
    have hiv : ValidIdx L.Dims (dropAxis axis dst) := by
      rw [hLd]; exact dropAxis_valid axis hv
    obtain ⟨i0, i1⟩ := index_bounds hiv
    obtain ⟨hn1, hn2⟩ := getAt_inrange L.Ints (Index (weights L.Dims) (dropAxis axis dst)) 0
      i0 (by omega)
    obtain ⟨f1, f2⟩ := hfit _ hn2
    -- the rotated coordinate
    obtain ⟨d0, d1⟩ := validIdx_getD axis hv hax
    have hs : 0 < shape.getD axis 0 := by omega
    have hrot := rot_eq (dst.getD axis 0)
      (L.Ints.getD (Index (weights L.Dims) (dropAxis axis dst)).toNat 0) (shape.getD axis 0)
      hs (by omega) (by omega)
    have hsv := rotSrc_valid axis L hv hax
    obtain ⟨b0, b1⟩ := index_bounds hsv
    have hlt : (Index (weights shape) (rotSrc shape axis L dst)).toNat < A.elems.length := by
      omega
    have hAt : A.At (Index (weights shape) (rotSrc shape axis L dst))
        = .ok (A.elems.get ⟨_, hlt⟩) := by
      unfold Value.At
      rw [getAt_ok_iff]
      exact ⟨b0, List.getElem?_eq_getElem hlt⟩
    have hmem : A.elems.get ⟨_, hlt⟩ ∈ A.elems := List.get_mem _ _ _
    have hk0 : (0 : Int) ≤ (k : Int) := by omega
    have hk1 : (k : Int) < res.Size := by unfold Value.Size; omega
    obtain ⟨r, hr, hre, hrs, hrk⟩ := set_ok res _ (k : Int) (hacc _ hmem) hk0 hk1
    rw [Int.toNat_ofNat] at hre
    have hstep : rotateLoop A L shape (weights L.Dims) (weights shape) axis
          (shape.getD axis 0) (n + 1) k res dst
        = rotateLoop A L shape (weights L.Dims) (weights shape) axis
          (shape.getD axis 0) n ((k + 1 : Nat) : Int) r (IncArrayIndex dst shape) := by
      have e2 := getAt_natCast dst axis hdl 0
      have e3 : dst.set axis ((dst.getD axis 0
          + L.Ints.getD (Index (weights L.Dims) (dropAxis axis dst)).toNat 0)
            % shape.getD axis 0) = rotSrc shape axis L dst := rfl
      have e4 : dst.take axis ++ dst.drop (axis + 1) = dropAxis axis dst := rfl
      simp only [rotateLoop, e4, hn1, e2, hrot, bind, Except.bind, e3, hAt, setIgnore,
        Value.Copy, hr]
      push_cast
      rfl
    have hnext : 0 < n → ValidIdx shape (IncArrayIndex dst shape) ∧
        Index (weights shape) (IncArrayIndex dst shape) = ((k + 1 : Nat) : Int) := by
      intro hn
      obtain ⟨cT, cF⟩ := incCarry_spec hv
      cases hc : (incCarry dst shape).2 with
      | true =>
        have := (cT hc).2
        omega
      | false =>
        obtain ⟨v1, v2⟩ := cF hc
        refine ⟨v1, ?_⟩
        unfold IncArrayIndex
        rw [v2, hI]
        push_cast
        rfl
    have hrl : r.elems.length = A.elems.length := by rw [hre, List.length_set, hlen]
    obtain ⟨res1, h1, h2, h3, h4, h5, h6⟩ :=
      ih (k + 1) r (IncArrayIndex dst shape) (by omega) hnext hrl (by rw [hrk]; exact hacc)
    refine ⟨res1, by rw [hstep, h1], by rw [h2, hrk], by rw [h3, hrs], h4, ?_, ?_⟩
    · intro j hj
      rw [h5 j (by omega), hre, List.getElem?_set_ne (by omega)]
    · intro j hj1 hj2
      by_cases hjk : j = k
      · subst hjk
        refine ⟨dst, hv, hI, ?_⟩
        rw [h5 j (by omega), hre, List.getElem?_set_self (by omega)]
        rw [List.getElem?_eq_getElem hlt]
        rfl
      · exact h6 j (by omega) hj2

theorem rotateShapeCheck_ok (shape : List Int) (axis : Nat) :
    ∀ (ls : List Int) (i : Nat),
      (∀ p (hp : p < ls.length),
        shape[(if axis ≤ i + p then i + p + 1 else i + p)]? = some (ls.get ⟨p, hp⟩)) →
      rotateShapeCheck shape (axis : Int) ls (i : Int) = .ok () := by
  intro ls
  induction ls with
  | nil => intro i _; rfl
  | cons l ls ih =>
    intro i h
    have h0 := h 0 (by simp)
    simp only [Nat.add_zero, List.get_cons_zero] at h0
    have hcast : ((i : Int) + 1) = ((i + 1 : Nat) : Int) := by push_cast; rfl
    have hg : getAt shape (if (i : Int) ≥ (axis : Int) then (i : Int) + 1 else (i : Int))
        = .ok l := by
      rw [getAt_ok_iff]
      by_cases hc : axis ≤ i
      · have hc2 : (i : Int) ≥ (axis : Int) := by omega
        simp only [hc, if_true] at h0
        simp only [hc2, if_true]
        exact ⟨by omega, by rw [hcast, Int.toNat_ofNat]; exact h0⟩
      · have hc2 : ¬ ((i : Int) ≥ (axis : Int)) := by omega
        simp only [hc, if_false] at h0
        simp only [hc2, if_false]
        exact ⟨by omega, by rw [Int.toNat_ofNat]; exact h0⟩
    have hrest := ih (i + 1) (by
      intro p hp
      have := h (p + 1) (by simp; omega)
      simp only [List.get_cons_succ] at this
      have e : i + (p + 1) = i + 1 + p := by omega
      rw [e] at this
      exact this)
    simp only [rotateShapeCheck, bind, Except.bind]
    rw [hg]
    simp only [ne_eq, not_true_eq_false, if_false, hcast]
    exact hrest

theorem dropAxis_get (shape : List Int) (axis : Nat) (hax : axis < shape.length) :
    ∀ p (hp : p < (dropAxis axis shape).length),
      shape[(if axis ≤ 0 + p then 0 + p + 1 else 0 + p)]?
        = some ((dropAxis axis shape).get ⟨p, hp⟩) := by
  intro p hp
  have hlen := dropAxis_length axis shape hax
  simp only [Nat.zero_add]
  have hget : (dropAxis axis shape)[p]? = some ((dropAxis axis shape).get ⟨p, hp⟩) :=
    List.getElem?_eq_getElem hp
  rw [← hget]
  unfold dropAxis
  by_cases hc : axis ≤ p
  · simp only [hc, if_true]
    rw [List.getElem?_append_right (by simp; omega)]
    simp only [List.length_take, List.getElem?_drop]
    congr 1
    omega
  · simp only [hc, if_false]
    rw [List.getElem?_append_left (by simp; omega)]
    rw [List.getElem?_take_of_lt (by omega)]

/-- Result of `rotate` on a well-formed array of rank other than 1, by flat offset, when
no offset addition overflows. -/
theorem rotate_spec (A : Value) (L : IntArray) (k : Int) (hA : A.WF)
    (hrank : A.Shape.length ≠ 1)
    (h0 : 0 ≤ normAxis A.Shape.length k) (h1 : normAxis A.Shape.length k < A.Shape.length)
    (hLd : L.Dims = dropAxis (normAxis A.Shape.length k).toNat A.Shape)
    (hLw : (L.Ints.length : Int) = prod L.Dims)
    (hfit : AmountsFit L (A.Shape.getD (normAxis A.Shape.length k).toNat 0)) :
    ∃ res, rotate (.intArray L.Dims L.Ints) A k = .ok res ∧ res.kind = A.kind ∧
      res.Shape = A.Shape ∧ res.elems.length = A.elems.length ∧
      ∀ j, j < A.elems.length →
        ∃ c, ValidIdx A.Shape c ∧ Index (weights A.Shape) c = j ∧
          res.elems[j]? = A.elems[(Index (weights A.Shape)
            (rotSrc A.Shape (normAxis A.Shape.length k).toNat L c)).toNat]? := by
  obtain ⟨hArr, hnn, hsz⟩ := hA
  obtain ⟨m1, m2, m3⟩ := makeArray_shape A hArr A.Shape
  rw [← makeArray_none] at m1 m2 m3
  have hlen : (MakeArray A none).elems.length = A.elems.length := by omega
  have hax : (normAxis A.Shape.length k).toNat < A.Shape.length := by omega
  obtain ⟨res, e1, e2, e3, e4, _, e6⟩ :=
    rotateLoop_spec A L A.Shape (normAxis A.Shape.length k).toNat hax hsz hLd hLw hfit
      A.elems.length 0 (MakeArray A none) (List.replicate A.Shape.length 0)
      (by omega)
      (fun hn => ⟨validIdx_zeros hnn (by omega), by simp [index_zeros]⟩)
      hlen (fun x hx => makeArray_accepts A none x hx)
  refine ⟨res, ?_, by rw [e2, makeArray_kind A hArr], by rw [e3, m1], e4,
    fun j hj => e6 j (Nat.zero_le _) hj⟩
  have hdl := dropAxis_length (normAxis A.Shape.length k).toNat A.Shape hax
  rw [← hLd] at hdl
  have hcheck : rotateShapeCheck A.Shape (normAxis A.Shape.length k) L.Dims 0 = .ok () := by
    have := rotateShapeCheck_ok A.Shape (normAxis A.Shape.length k).toNat L.Dims 0 (by
      rw [hLd]
      exact dropAxis_get A.Shape _ hax)
    rw [Int.toNat_of_nonneg h0] at this
    exact this
  have hgs : getAt A.Shape (normAxis A.Shape.length k)
      = .ok (A.Shape.getD (normAxis A.Shape.length k).toNat 0) := by
    have := getAt_natCast A.Shape (normAxis A.Shape.length k).toNat hax 0
    rw [Int.toNat_of_nonneg h0] at this
    exact this
  have hsize : (MakeArray A none).Size.toNat = A.elems.length := by
    unfold Value.Size; omega
  have hr : ¬ (normAxis A.Shape.length k < 0 ∨ normAxis A.Shape.length k ≥ A.Shape.length) := by
    omega
  have hresh : ¬ (L.Dims.length = 1 ∧ A.Shape.length > 2) := by omega
  have hrk : ¬ ((L.Dims.length : Int) ≠ (A.Shape.length : Int) - 1) := by
    simp only [ne_eq, not_not]; omega
  unfold normAxis at hr hcheck hgs e1
  cases A <;> simp [Value.isArray] at hArr <;>
    simp only [rotate, Value.isArray, hrank, if_false, NewIdxConverter, hr, hresh, hrk, hcheck,
      hgs, hsize, bind, Except.bind, pure, Except.pure, Bool.true_eq_false, normAxis] <;>
    exact e1

theorem set_getD_self (c : List Int) (axis : Nat) : c.set axis (c.getD axis 0) = c := by
  induction c generalizing axis with
  | nil => simp
  | cons x xs ih =>
    cases axis with
    | zero => simp
    | succ k => simp only [List.set_cons_succ, List.getD_cons_succ, ih k]

theorem getD_set_self (c : List Int) (axis : Nat) (v : Int) (h : axis < c.length) :
    (c.set axis v).getD axis 0 = v := by
  induction c generalizing axis with
  | nil => simp at h
  | cons x xs ih =>
    cases axis with
    | zero => simp
    | succ k =>
      simp only [List.set_cons_succ, List.getD_cons_succ]
      exact ih k (by simpa using h)

theorem neg_getD (xs : List Int) (i : Nat) :
    (xs.map (fun n => -n)).getD i 0 = -(xs.getD i 0) := by
  simp only [List.getD_eq_getElem?_getD, List.getElem?_map]
  cases xs[i]? <;> simp

theorem amountsFit_neg (L : IntArray) (size : Int) (h : AmountsFit L size) :
    AmountsFit L.neg size := by
  intro n hn
  simp only [IntArray.neg, List.mem_map] at hn
  obtain ⟨m, hm, rfl⟩ := hn
  obtain ⟨a1, a2⟩ := h m hm
  constructor <;> omega

/-- Rotating a multi-index by the negated amounts and then by the amounts gives it back. -/
theorem rotSrc_inverse {shape c : List Int} (axis : Nat) (L : IntArray)
    (h : ValidIdx shape c) (hax : axis < shape.length) :
    rotSrc shape axis L (rotSrc shape axis L.neg c) = c := by
  obtain ⟨d0, d1⟩ := validIdx_getD axis h hax
  have hcl : axis < c.length := by rw [validIdx_length h]; exact hax
  unfold rotSrc
  rw [dropAxis_set, getD_set_self _ _ _ hcl, List.set_set]
  have hd : L.neg.Dims = L.Dims := rfl
  have hi : L.neg.Ints = L.Ints.map (fun n => -n) := rfl
  rw [hd, hi, neg_getD, Int.emod_add_emod]
  have : c.getD axis 0 + -(L.Ints.getD (Index (weights L.Dims) (dropAxis axis c)).toNat 0)
      + L.Ints.getD (Index (weights L.Dims) (dropAxis axis c)).toNat 0 = c.getD axis 0 := by
    omega
  rw [this, Int.emod_eq_of_lt d0 d1]
  exact set_getD_self c axis

/-- Round trip of `rotate` for an array of rank other than 1, when no offset addition
leaves the range of `int`: rotating by `L` and then by the negated `L` gives the array
back. -/
theorem rotate_round_trip_in_range (A : Value) (L : IntArray) (k : Int) (hA : A.WF)
    (hrank : A.Shape.length ≠ 1)
    (h0 : 0 ≤ normAxis A.Shape.length k) (h1 : normAxis A.Shape.length k < A.Shape.length)
    (hLd : L.Dims = dropAxis (normAxis A.Shape.length k).toNat A.Shape)
    (hLw : (L.Ints.length : Int) = prod L.Dims)
    (hfit : AmountsFit L (A.Shape.getD (normAxis A.Shape.length k).toNat 0)) :
    ∃ B, rotate (.intArray L.Dims L.Ints) A k = .ok B ∧
      rotate (.intArray L.neg.Dims L.neg.Ints) B k = .ok A := by
  obtain ⟨B, b1, b2, b3, b4, b5⟩ := rotate_spec A L k hA hrank h0 h1 hLd hLw hfit
  obtain ⟨hArr, hnn, hsz⟩ := hA
  have hB : B.WF := ⟨isArray_of_kind b2 hArr, by rw [b3]; exact hnn, by rw [b3, b4]; exact hsz⟩
  have hLw2 : (L.neg.Ints.length : Int) = prod L.neg.Dims := by
    simp only [IntArray.neg, List.length_map]
    exact hLw
  obtain ⟨C, c1, c2, c3, c4, c5⟩ :=
    rotate_spec B L.neg k hB (by rw [b3]; exact hrank) (by rw [b3]; exact h0)
      (by rw [b3]; exact h1) (by rw [b3]; exact hLd) hLw2
      (by rw [b3]; exact amountsFit_neg L _ hfit)
  refine ⟨B, b1, ?_⟩
  rw [c1]
  congr 1
  apply eq_of_elems hArr (by rw [c2, b2]) (by rw [c3, b3])
  apply List.ext_getElem?
  intro j
  have hax : (normAxis A.Shape.length k).toNat < A.Shape.length := by omega
  by_cases hj : j < A.elems.length
  · obtain ⟨c, v1, v2, v3⟩ := c5 j (by omega)
    rw [b3] at v1 v2 v3
    have hsv := rotSrc_valid (normAxis A.Shape.length k).toNat L.neg v1 hax
    obtain ⟨i0, i1⟩ := index_bounds hsv
    obtain ⟨d, w1, w2, w3⟩ := b5 (Index (weights A.Shape)
      (rotSrc A.Shape (normAxis A.Shape.length k).toNat L.neg c)).toNat (by omega)
    have hd : d = rotSrc A.Shape (normAxis A.Shape.length k).toNat L.neg c := by
      apply index_inj w1 hsv
      rw [w2]
      omega
    rw [v3, w3, hd, rotSrc_inverse _ L v1 hax, v2]
    simp
  · rw [List.getElem?_eq_none (by omega), List.getElem?_eq_none (by omega)]

theorem rotateVecLoop_spec (A : Value) (n size : Int)
    (hA : (A.elems.length : Int) = size)
    (hfit : n + size ≤ 9223372036854775808 ∧ size - n ≤ 9223372036854775808) :
    ∀ (m k : Nat) (res : Value),
      k + m = A.elems.length →
      res.elems.length = A.elems.length →
      (∀ x ∈ A.elems, res.kind.accepts x = true) →
      ∃ res1, rotateVecLoop A n size m k res = .ok res1 ∧
        res1.kind = res.kind ∧ res1.Shape = res.Shape ∧
        res1.elems.length = A.elems.length ∧
        (∀ j, j < k → res1.elems[j]? = res.elems[j]?) ∧
        (∀ j, k ≤ j → j < A.elems.length →
          res1.elems[j]? = A.elems[(((j : Int) + n) % size).toNat]?) := by
  intro m
  induction m with
  | zero =>
    intro k res hk hlen _
    refine ⟨res, rfl, rfl, rfl, hlen, fun _ _ => rfl, ?_⟩
    intro j h1 h2
    omega
  | succ m ih =>
    intro k res hk hlen hacc
    have hs : 0 < size := by omega
    have hrot := rot_eq (k : Int) n size hs (by omega) (by omega)
    have b0 : 0 ≤ ((k : Int) + n) % size := Int.emod_nonneg _ (by omega)
    have b1 : ((k : Int) + n) % size < size := Int.emod_lt_of_pos _ hs
    have hlt : (((k : Int) + n) % size).toNat < A.elems.length := by omega
    have hAt : A.At (((k : Int) + n) % size) = .ok (A.elems.get ⟨_, hlt⟩) := by
      unfold Value.At
      rw [getAt_ok_iff]
      exact ⟨b0, List.getElem?_eq_getElem hlt⟩
    have hmem : A.elems.get ⟨_, hlt⟩ ∈ A.elems := List.get_mem _ _ _
    have hk0 : (0 : Int) ≤ (k : Int) := by omega
    have hk1 : (k : Int) < res.Size := by unfold Value.Size; omega
    obtain ⟨r, hr, hre, hrs, hrk⟩ := set_ok res _ (k : Int) (hacc _ hmem) hk0 hk1
    rw [Int.toNat_ofNat] at hre
    have hstep : rotateVecLoop A n size (m + 1) k res
        = rotateVecLoop A n size m ((k + 1 : Nat) : Int) r := by
      simp only [rotateVecLoop, hrot, bind, Except.bind, hAt, setIgnore, Value.Copy, hr]
      push_cast
      rfl
    have hrl : r.elems.length = A.elems.length := by rw [hre, List.length_set, hlen]
    obtain ⟨res1, h1, h2, h3, h4, h5, h6⟩ :=
      ih (k + 1) r (by omega) hrl (by rw [hrk]; exact hacc)
    refine ⟨res1, by rw [hstep, h1], by rw [h2, hrk], by rw [h3, hrs], h4, ?_, ?_⟩
    · intro j hj
      rw [h5 j (by omega), hre, List.getElem?_set_ne (by omega)]
    · intro j hj1 hj2
      by_cases hjk : j = k
      · subst hjk
        rw [h5 j (by omega), hre, List.getElem?_set_self (by omega)]
        rw [List.getElem?_eq_getElem hlt]
        rfl
      · exact h6 j (by omega) hj2

/-- Result of `rotate` on a well-formed vector, by offset, when no offset addition
overflows. -/
theorem rotate_vec_spec (A : Value) (n size k : Int) (hA : A.WF) (hs : A.Shape = [size])
    (hfit : n + size ≤ 9223372036854775808 ∧ size - n ≤ 9223372036854775808) :
    ∃ res, rotate (.intArray [1] [n]) A k = .ok res ∧ res.kind = A.kind ∧
      res.Shape = A.Shape ∧ res.elems.length = A.elems.length ∧
      ∀ j, j < A.elems.length →
        res.elems[j]? = A.elems[(((j : Int) + n) % size).toNat]? := by
  obtain ⟨hArr, hnn, hsz⟩ := hA
  have hlen0 : (A.elems.length : Int) = size := by
    rw [hs] at hsz
    simp only [prod, mul_one] at hsz
    exact hsz
  obtain ⟨m1, m2, m3⟩ := makeArray_shape A hArr [size]
  have hp : (prod [size]).toNat = A.elems.length := by
    simp only [prod, mul_one]; omega
  rw [hp] at m2
  obtain ⟨res, e1, e2, e3, e4, _, e6⟩ :=
    rotateVecLoop_spec A n size hlen0 hfit A.elems.length 0 (MakeArray A (some [size]))
      (by omega) m2 (fun x hx => makeArray_accepts A _ x hx)
  refine ⟨res, ?_, by rw [e2, makeArray_kind A hArr], by rw [e3, m1, hs], e4,
    fun j hj => e6 j (Nat.zero_le _) hj⟩
  have hsz2 : size.toNat = A.elems.length := by omega
  cases A <;> simp [Value.isArray] at hArr <;>
    (simp only [Value.Shape] at hs
     subst hs
     simp only [rotate, Value.isArray, Value.Shape, List.length_cons, List.length_nil,
       if_true, List.headD_cons, ne_eq, not_true_eq_false, or_self, if_false, getAt,
       Int.lt_irrefl, Int.toNat_zero, List.getElem?_cons_zero, bind, Except.bind, hsz2,
       Bool.true_eq_false, Nat.zero_add]
     exact e1)

/-- Round trip of `rotate` for a vector, when no offset addition leaves the range of
`int`: rotating by `n` and then by `-n` gives the vector back. -/
theorem rotate_vec_round_trip_in_range (A : Value) (n size k : Int) (hA : A.WF)
    (hs : A.Shape = [size])
    (hfit : n + size ≤ 9223372036854775808 ∧ size - n ≤ 9223372036854775808) :
    ∃ B, rotate (.intArray [1] [n]) A k = .ok B ∧ rotate (.intArray [1] [-n]) B k = .ok A := by
  obtain ⟨B, b1, b2, b3, b4, b5⟩ := rotate_vec_spec A n size k hA hs hfit
  obtain ⟨hArr, hnn, hsz⟩ := hA
  have hB : B.WF := ⟨isArray_of_kind b2 hArr, by rw [b3]; exact hnn, by rw [b3, b4]; exact hsz⟩
  obtain ⟨C, c1, c2, c3, c4, c5⟩ :=
    rotate_vec_spec B (-n) size k hB (by rw [b3]; exact hs) (by omega)
  have hlen0 : (A.elems.length : Int) = size := by
    rw [hs] at hsz
    simp only [prod, mul_one] at hsz
    exact hsz
  refine ⟨B, b1, ?_⟩
  rw [c1]
  congr 1
  apply eq_of_elems hArr (by rw [c2, b2]) (by rw [c3, b3])
  apply List.ext_getElem?
  intro j
  by_cases hj : j < A.elems.length
  · have hsp : 0 < size := by omega
    have i0 : 0 ≤ ((j : Int) + -n) % size := Int.emod_nonneg _ (by omega)
    have i1 : ((j : Int) + -n) % size < size := Int.emod_lt_of_pos _ hsp
    rw [c5 j (by omega), b5 _ (by omega), Int.toNat_of_nonneg i0, Int.emod_add_emod]
    have : (j : Int) + -n + n = (j : Int) := by omega
    rw [this, Int.emod_eq_of_lt (by omega) (by omega)]
    simp
  · rw [List.getElem?_eq_none (by omega), List.getElem?_eq_none (by omega)]

/-! ## Rotation: element mapping, amounts and axis -/

/-- Result of `rotate` on a well-formed array of rank other than 1, by multi-index, when
no offset addition overflows. -/
theorem rotate_index_spec (A : Value) (L : IntArray) (k : Int) (hA : A.WF)
    (hrank : A.Shape.length ≠ 1)
    (h0 : 0 ≤ normAxis A.Shape.length k) (h1 : normAxis A.Shape.length k < A.Shape.length)
    (hLd : L.Dims = dropAxis (normAxis A.Shape.length k).toNat A.Shape)
    (hLw : (L.Ints.length : Int) = prod L.Dims)
    (hfit : AmountsFit L (A.Shape.getD (normAxis A.Shape.length k).toNat 0)) :
    ∃ res, rotate (.intArray L.Dims L.Ints) A k = .ok res ∧ res.kind = A.kind ∧
      res.Shape = A.Shape ∧ res.Size = A.Size ∧
      ∀ c, ValidIdx A.Shape c →
        ∃ v, res.At (Index (weights A.Shape) c) = .ok v ∧
          A.At (Index (weights A.Shape)
            (rotSrc A.Shape (normAxis A.Shape.length k).toNat L c)) = .ok v := by
  obtain ⟨res, b1, b2, b3, b4, b5⟩ := rotate_spec A L k hA hrank h0 h1 hLd hLw hfit
  obtain ⟨hArr, hnn, hsz⟩ := hA
  have hax : (normAxis A.Shape.length k).toNat < A.Shape.length := by omega
  refine ⟨res, b1, b2, b3, by unfold Value.Size; rw [b4], ?_⟩
  intro c hc
  obtain ⟨i0, i1⟩ := index_bounds hc
  obtain ⟨d, w1, w2, w3⟩ := b5 (Index (weights A.Shape) c).toNat (by omega)
  have hd : d = c := by
    apply index_inj w1 hc
    rw [w2]
    omega
  subst hd
  obtain ⟨j0, j1⟩ := index_bounds (rotSrc_valid (normAxis A.Shape.length k).toNat L hc hax)
  have hlt : (Index (weights A.Shape)
      (rotSrc A.Shape (normAxis A.Shape.length k).toNat L d)).toNat < A.elems.length := by omega
  refine ⟨A.elems.get ⟨_, hlt⟩, ?_, ?_⟩
  · unfold Value.At
    rw [getAt_ok_iff]
    refine ⟨i0, ?_⟩
    rw [w3]
    exact List.getElem?_eq_getElem hlt
  · unfold Value.At
    rw [getAt_ok_iff]
    exact ⟨j0, List.getElem?_eq_getElem hlt⟩

/-- A vector is rotated only by an amount of shape `[1]`: every other shape of `L` is
rejected as non-conformant. -/
theorem rotate_vec_bad_amount (A : Value) (ld li : List Int) (k : Int)
    (hA : A.isArray = true) (hrank : A.Shape.length = 1) (hL : ld ≠ [1]) :
    rotate (.intArray ld li) A k = .error .nonConformant := by
  have hbad : ld.length ≠ 1 ∨ ld.headD 0 ≠ 1 := by
    match ld, hL with
    | [], _ => left; simp
    | [x], h =>
      right
      intro hx
      simp only [List.headD_cons] at hx
      exact h (by rw [hx])
    | _ :: _ :: _, _ => left; simp
  cases A <;> simp [Value.isArray] at hA <;>
    simp only [rotate, Value.isArray, hrank, if_true, hbad, Bool.true_eq_false, if_false]

/-- For an argument of rank other than 1 `rotate` tests the axis before it looks at the
shape of `L`. -/
theorem rotate_axis_check (A : Value) (ld li : List Int) (k : Int)
    (hA : A.isArray = true) (hrank : A.Shape.length ≠ 1)
    (hax : normAxis A.Shape.length k < 0 ∨ normAxis A.Shape.length k ≥ A.Shape.length) :
    rotate (.intArray ld li) A k = .error .axisOutOfRange := by
  unfold normAxis at hax
  cases A <;> simp [Value.isArray] at hA <;>
    simp only [rotate, Value.isArray, hrank, if_false, hax, if_true, Bool.true_eq_false]

/-- The primitive `reverse` rejects exactly the axes outside `[0, rank)`. -/
theorem reverse_axis_check (A : Value) (k : Int) (hA : A.WF) :
    ((normAxis A.Shape.length k < 0 ∨ normAxis A.Shape.length k ≥ A.Shape.length) →
      reverse A k = .error .axisOutOfRange) ∧
    ((0 ≤ normAxis A.Shape.length k ∧ normAxis A.Shape.length k < A.Shape.length) →
      ∃ res, reverse A k = .ok res) := by
  constructor
  · intro hax
    obtain ⟨hArr, _, _⟩ := hA
    unfold normAxis at hax
    cases A <;> simp [Value.isArray] at hArr <;>
      simp only [reverse, Value.isArray, if_false, hax, if_true, Bool.true_eq_false]
  · intro ⟨h0, h1⟩
    obtain ⟨res, e, _⟩ := reverse_spec A k hA h0 h1
    exact ⟨res, e⟩

theorem rotateShapeCheck_cases (shape : List Int) (axis : Nat) :
    ∀ (ls : List Int) (i : Nat), i + ls.length + 1 ≤ shape.length →
      (rotateShapeCheck shape (axis : Int) ls (i : Int) = .ok () ∧
        ∀ p (hp : p < ls.length),
          shape[(if axis ≤ i + p then i + p + 1 else i + p)]? = some (ls.get ⟨p, hp⟩)) ∨
      rotateShapeCheck shape (axis : Int) ls (i : Int) = .error .nonConformant := by
  intro ls
  induction ls with
  | nil =>
    intro i _
    left
    exact ⟨rfl, fun p hp => absurd hp (Nat.not_lt_zero _)⟩
  | cons l ls ih =>
    intro i hi
    simp only [List.length_cons] at hi
    have hcast : ((i : Int) + 1) = ((i + 1 : Nat) : Int) := by push_cast; rfl
    have hk : (if axis ≤ i then i + 1 else i) < shape.length := by
      by_cases hc : axis ≤ i <;> simp only [hc, if_true, if_false] <;> omega
    have hg : getAt shape (if (i : Int) ≥ (axis : Int) then (i : Int) + 1 else (i : Int))
        = .ok (shape.get ⟨_, hk⟩) := by
      rw [getAt_ok_iff]
      by_cases hc : axis ≤ i
      · have hc2 : (i : Int) ≥ (axis : Int) := by omega
        simp only [hc2, if_true]
        refine ⟨by omega, ?_⟩
        rw [hcast, Int.toNat_ofNat]
        simp only [hc, if_true]
        exact List.getElem?_eq_getElem _
      · have hc2 : ¬ ((i : Int) ≥ (axis : Int)) := by omega
        simp only [hc2, if_false]
        refine ⟨by omega, ?_⟩
        rw [Int.toNat_ofNat]
        simp only [hc, if_false]
        exact List.getElem?_eq_getElem _
    by_cases hne : shape.get ⟨_, hk⟩ = l
    · rcases ih (i + 1) (by omega) with ⟨e1, e2⟩ | e1
      · left
        refine ⟨?_, ?_⟩
        · simp only [rotateShapeCheck, bind, Except.bind]
          rw [hg]
          simp only [hne, ne_eq, not_true_eq_false, if_false, hcast]
          exact e1
        · intro p hp
          cases p with
          | zero =>
            simp only [Nat.add_zero, List.get_cons_zero]
            rw [← hne]
            exact List.getElem?_eq_getElem _
          | succ q =>
            have := e2 q (by simpa using hp)
            have e : i + 1 + q = i + (q + 1) := by omega
            rw [e] at this
            simpa using this
      · right
        simp only [rotateShapeCheck, bind, Except.bind]
        rw [hg]
        simp only [hne, ne_eq, not_true_eq_false, if_false, hcast]
        exact e1
    · right
      simp only [rotateShapeCheck, bind, Except.bind]
      rw [hg]
      simp only [ne_eq, hne, not_false_eq_true, if_true]

/-- Outside the block that extends `L`, `rotate` rejects every amount array whose shape is
not the argument's shape without the axis. -/
theorem rotate_bad_shape (A : Value) (ld li : List Int) (k : Int)
    (hA : A.isArray = true) (hrank : A.Shape.length ≠ 1)
    (h0 : 0 ≤ normAxis A.Shape.length k) (h1 : normAxis A.Shape.length k < A.Shape.length)
    (hnb : ¬ (ld.length = 1 ∧ A.Shape.length > 2))
    (hL : ld ≠ dropAxis (normAxis A.Shape.length k).toNat A.Shape) :
    rotate (.intArray ld li) A k = .error .nonConformant := by
  have hax : (normAxis A.Shape.length k).toNat < A.Shape.length := by omega
  have hr : ¬ (normAxis A.Shape.length k < 0 ∨ normAxis A.Shape.length k ≥ A.Shape.length) := by
    omega
  have hdl := dropAxis_length (normAxis A.Shape.length k).toNat A.Shape hax
  by_cases hlen : (ld.length : Int) = (A.Shape.length : Int) - 1
  · have hc := rotateShapeCheck_cases A.Shape (normAxis A.Shape.length k).toNat ld 0 (by omega)
    rw [Int.toNat_of_nonneg h0] at hc
    rcases hc with ⟨_, e2⟩ | e1
    · exfalso
      apply hL
      apply List.ext_getElem?
      intro p
      by_cases hp : p < ld.length
      · have hp2 : p < (dropAxis (normAxis A.Shape.length k).toNat A.Shape).length := by omega
        have a1 := e2 p hp
        have a2 := dropAxis_get A.Shape _ hax p hp2
        rw [List.getElem?_eq_getElem hp, List.getElem?_eq_getElem hp2]
        rw [a1] at a2
        exact a2
      · rw [List.getElem?_eq_none (by omega), List.getElem?_eq_none (by omega)]
    · have hrk : ¬ ((ld.length : Int) ≠ (A.Shape.length : Int) - 1) := by
        simp only [ne_eq, not_not]; exact hlen
      simp only [Nat.cast_zero] at e1
      unfold normAxis at hr e1
      cases A <;> simp [Value.isArray] at hA <;>
        simp only [rotate, Value.isArray, hrank, if_false, hr, hnb, hrk, e1,
          bind, Except.bind, pure, Except.pure, Bool.true_eq_false, Nat.cast_zero]
  · have hrk : (ld.length : Int) ≠ (A.Shape.length : Int) - 1 := hlen
    unfold normAxis at hr
    cases A <;> simp [Value.isArray] at hA <;>
      simp only [rotate, Value.isArray, hrank, if_false, hr, hnb, hrk,
        bind, Except.bind, pure, Except.pure, Bool.true_eq_false, ne_eq, not_false_eq_true,
        if_true]

/-- C11: the element mapping of `rotate` at an amount near the end of the range of `int`.
The vector 10 20 30 rotated by `2^63 - 1` comes back as 20 20 30: the element at offset 1
is 20, whereas the element of the vector at offset `(1 + (2^63 - 1)) mod 3 = 2` is 30. -/
theorem rotate_element_mapping_overflow :
    rotate (.intArray [1] [9223372036854775807]) (.intArray [3] [10, 20, 30]) (-1)
      = .ok (.intArray [3] [20, 20, 30]) ∧
    (Value.intArray [3] [10, 20, 30]).At ((1 + 9223372036854775807) % 3)
      = .ok (.scalar (.int 30)) := ⟨by rfl, by rfl⟩

/-- C12: a single amount is not repeated to conform.  On a 2 x 3 matrix and on a
2 x 2 x 2 array `rotate` rejects the one-element amount `[1]` as non-conformant, while the
amount array of the matrix's shape without the axis whose entries all are 1 rotates each
row by one. -/
theorem rotate_single_amount_rejected :
    rotate (.intArray [1] [1]) (.intArray [2, 3] [1, 2, 3, 4, 5, 6]) (-1)
      = .error .nonConformant ∧
    rotate (.intArray [2] [1, 1]) (.intArray [2, 3] [1, 2, 3, 4, 5, 6]) (-1)
      = .ok (.intArray [2, 3] [2, 3, 1, 5, 6, 4]) ∧
    rotate (.intArray [1] [1]) (.intArray [2, 2, 2] [1, 2, 3, 4, 5, 6, 7, 8]) (-1)
      = .error .nonConformant := ⟨by rfl, by rfl, by rfl⟩

/-- C13: an amount vector of two entries is accepted for a 2 x 2 x 2 array.  Its shape
`[2]` is neither `[1]` nor the array's shape without axis 0, which is `[2, 2]`; `rotate`
reshapes it to `[2, 2]` and succeeds with the same result as for the amount array
`[2, 2]` holding 0 1 0 1. -/
theorem rotate_vector_amount_accepted :
    rotate (.intArray [2] [0, 1]) (.intArray [2, 2, 2] [1, 2, 3, 4, 5, 6, 7, 8]) 0
      = .ok (.intArray [2, 2, 2] [1, 6, 3, 8, 5, 2, 7, 4]) ∧
    dropAxis 0 [2, 2, 2] = [2, 2] ∧
    rotate (.intArray [2, 2] [0, 1, 0, 1]) (.intArray [2, 2, 2] [1, 2, 3, 4, 5, 6, 7, 8]) 0
      = .ok (.intArray [2, 2, 2] [1, 6, 3, 8, 5, 2, 7, 4]) := ⟨by rfl, by rfl, by rfl⟩

/-- C14: the axis of a vector argument is not validated by `rotate`.  With axis 5, which
is outside `[0, 1)`, `rotate` returns the vector 10 20 30 rotated by one, while `reverse`
fails on the same vector and axis with the axis-out-of-range error. -/
theorem rotate_vector_axis_unchecked :
    rotate (.intArray [1] [1]) (.intArray [3] [10, 20, 30]) 5
      = .ok (.intArray [3] [20, 30, 10]) ∧
    normAxis (Value.intArray [3] [10, 20, 30]).Shape.length 5 = 5 ∧
    reverse (.intArray [3] [10, 20, 30]) 5 = .error .axisOutOfRange :=
  ⟨by rfl, by rfl, by rfl⟩

/-! ## Conformance of indexed assignment and assignment to names -/

/-- The closure `collapse` returns the shape without its entries equal to 1. -/
theorem collapse_eq_filter (s : List Int) : collapse s = s.filter (fun i => i ≠ 1) := by
  unfold collapse
  by_cases h : (s.filter (fun i => i = 1)).length = 0
  · simp only [h, if_true]
    symm
    rw [List.filter_eq_self]
    intro x hx
    have hnil : s.filter (fun i => i = 1) = [] := List.length_eq_zero.mp h
    rw [List.filter_eq_nil_iff] at hnil
    have := hnil x hx
    simpa using this
  · simp only [h, if_false]

theorem zip_any_ne_false :
    ∀ (ss ds : List Int), ss.length = ds.length →
      (List.zip ss ds).any (fun p => decide (p.1 ≠ p.2)) = false → ss = ds := by
  intro ss
  induction ss with
  | nil =>
    intro ds hl _
    cases ds with
    | nil => rfl
    | cons d ds => simp at hl
  | cons x xs ih =>
    intro ds hl h
    cases ds with
    | nil => simp at hl
    | cons d ds =>
      rw [List.zip_cons_cons, List.any_cons] at h
      simp only [Bool.or_eq_false_iff, decide_eq_false_iff_not, ne_eq, not_not] at h
      rw [h.1, ih ds (by simpa using hl) h.2]

/-- The conformance check of `assignValue` fails for every pair of different shapes. -/
theorem conformCheck_ne (ds ss : List Int) (h : ds ≠ ss) :
    conformCheck ds ss = .error .nonConformant := by
  unfold conformCheck
  by_cases hl : ds.length = ss.length
  · have hany : (List.zip ss ds).any (fun p => decide (p.1 ≠ p.2)) = true := by
      by_contra hc
      have hf : (List.zip ss ds).any (fun p => decide (p.1 ≠ p.2)) = false := by
        simpa using hc
      exact h (zip_any_ne_false ss ds hl.symm hf).symm
    simp only [hl, ne_eq, not_true_eq_false, if_false]
    rw [hany]
    simp
  · simp only [ne_eq, hl, not_false_eq_true, if_true]

/-- C15: conformance of an indexed assignment.  For every target array, every index
descriptor and every array `R` whose size is not 1: when the descriptor's shape without
its entries equal to 1 differs from `R`'s shape without its entries equal to 1,
`assignValue` fails with the non-conformant error, returns no value and leaves the
target as it was; when the two are equal, the conformance check succeeds and
`assignValue` goes on to the pairwise writes. -/
theorem assignValue_conformance (a : Apl) (dst : Value) (idx : IntArray)
    (f : Option Function) (R : Value)
    (hdst : dst.isArray = true) (hR : R.isArray = true) (hR1 : R.Size ≠ 1) :
    (idx.Dims.filter (fun i => i ≠ 1) ≠ R.Shape.filter (fun i => i ≠ 1) →
      assignValue a dst (some (.intArray idx.Dims idx.Ints)) f R
        = (dst, .error .nonConformant)) ∧
    (idx.Dims.filter (fun i => i ≠ 1) = R.Shape.filter (fun i => i ≠ 1) →
      conformCheck (collapse idx.Dims) (collapse R.Shape) = .ok () ∧
      assignValue a dst (some (.intArray idx.Dims idx.Ints)) f R
        = (match assignPairLoop f R idx.Ints 0 ⟨dst, none⟩ with
          | (st, .error e) => (st.dst, .error e)
          | (st, .ok _) => (st.dst, .ok (some st.ar)))) := by
  constructor
  · intro hne
    rw [← collapse_eq_filter, ← collapse_eq_filter] at hne
    rw [assignValue_array a dst idx f R hdst]
    simp only [assignValueArray, hdst, hR, hR1, if_true, if_false,
      conformCheck_ne _ _ hne, Bool.true_eq_false]
  · intro heq
    rw [← collapse_eq_filter, ← collapse_eq_filter] at heq
    refine ⟨by rw [heq]; exact conformCheck_self _, ?_⟩
    rw [assignValue_array a dst idx f R hdst]
    simp only [assignValueArray, hdst, hR, hR1, if_true, if_false, heq, conformCheck_self,
      Bool.true_eq_false]

/-- Witness of C15: a descriptor of two offsets and a right-hand side of three elements do
not conform; the target 1 2 3 4 is left as it was. -/
theorem assignValue_conformance_witness :
    assignValue ⟨[], 1⟩ (.intArray [4] [1, 2, 3, 4]) (some (.intArray [2] [0, 1])) none
        (.intArray [3] [7, 8, 9])
      = (.intArray [4] [1, 2, 3, 4], .error .nonConformant) :=
  (assignValue_conformance ⟨[], 1⟩ (.intArray [4] [1, 2, 3, 4]) ⟨[2], [0, 1]⟩ none
    (.intArray [3] [7, 8, 9]) rfl rfl (by decide)).1 (by decide)

/-- C16: `assignScalar` on names.  With neither indexes nor a modifier the call succeeds
for every context, bound or unbound name, and binds the name to a copy of `R`, every other
name keeping its binding; with indexes or a modifier and a name without binding the call
fails with the undefined-variable error and the context is the one before the call. -/
theorem assignScalar_names (a : Apl) (name : String) (indexes : Option Value)
    (f : Option Function) (R : Value) :
    (assignScalar a name none none R = (a.Assign name R.Copy, .ok ()) ∧
      (a.Assign name R.Copy).LookupEnv name = some R.Copy ∧
      ∀ other, other ≠ name → (a.Assign name R.Copy).LookupEnv other = a.LookupEnv other) ∧
    ((indexes.isSome = true ∨ f.isSome = true) → a.LookupEnv name = none →
      assignScalar a name indexes f R = (a, .error .undefinedVariable)) := by
  refine ⟨⟨assignScalar_plain a name R, lookup_assign_self a name R.Copy,
    fun other hne => lookup_assign_ne a name other R.Copy hne⟩, ?_⟩
  intro h hl
  have hc : ¬ (f.isNone = true ∧ indexes.isNone = true) := by
    intro ⟨h1, h2⟩
    rcases h with h | h
    · cases indexes <;> simp at h h2
    · cases f <;> simp at h h1
  simp only [assignScalar, hc, if_false, hl]

/-- Witness of C16: an indexed assignment to the unbound name `y`. -/
theorem assignScalar_names_witness :
    assignScalar ⟨[("x", .scalar (.int 1))], 1⟩ "y" (some (.intArray [1] [0])) none
        (.scalar (.int 5))
      = (⟨[("x", .scalar (.int 1))], 1⟩, .error .undefinedVariable) :=
  (assignScalar_names ⟨[("x", .scalar (.int 1))], 1⟩ "y" (some (.intArray [1] [0])) none
    (.scalar (.int 5))).2 (Or.inl rfl) (by rfl)

/-! ## Vectorised object update -/

theorem zip_replicate_eq_map (R : Value) :
    ∀ xs : List Int, xs.zip (List.replicate xs.length R) = xs.map (fun x => (x, R)) := by
  intro xs
  induction xs with
  | nil => rfl
  | cons x xs ih =>
    simp only [List.length_cons, List.replicate_succ, List.zip_cons_cons, List.map_cons, ih]

/-- The loop of `assignObject` without a modifier, on in-range selections: the values are
stored in the order of the selection. -/
theorem assignObjectLoop_none (a : Apl) (R : Value) (vec : Bool) (keys : List Scalar) :
    ∀ (xs : List Int) (i : Nat) (obj : Dict),
      (∀ x ∈ xs, 0 ≤ x - a.Origin ∧ x - a.Origin < keys.length) →
      (vec = true → i + xs.length ≤ R.elems.length) →
      assignObjectLoop a none R vec keys xs (i : Int) obj =
        (setKeys a keys
          (xs.zip (if vec = true then R.elems.drop i else List.replicate xs.length R)) obj,
          .ok ()) := by
  intro xs
  induction xs with
  | nil =>
    intro i obj _ _
    simp [assignObjectLoop, setKeys]
  | cons x xs ih =>
    intro i obj hin hvec
    obtain ⟨n0, n1⟩ := hin x (List.mem_cons_self _ _)
    have hr : ¬ (x - a.Origin < 0 ∨ x - a.Origin ≥ (keys.length : Int)) := by omega
    have hg := (getAt_inrange keys (x - a.Origin) (.int 0) n0 n1).1
    have hcast : ((i : Int) + 1) = ((i + 1 : Nat) : Int) := by push_cast; rfl
    have hrest := ih (i + 1) (obj.Set (keys.getD (x - a.Origin).toNat (.int 0))
      (if vec = true then R.elems.getD i zeroValue else R))
      (fun y hy => hin y (List.mem_cons_of_mem _ hy))
      (fun hv => by have := hvec hv; simp only [List.length_cons] at this; omega)
    cases vec with
    | false =>
      simp only [assignObjectLoop, hr, if_false, hg, bind, Except.bind, pure, Except.pure,
        hcast, Bool.false_eq_true]
      simp only [Bool.false_eq_true, if_false] at hrest
      rw [hrest]
      rfl
    | true =>
      have hlt : i < R.elems.length := by
        have := hvec rfl
        simp only [List.length_cons] at this
        omega
      have hb : ArrayBounds R (i : Int) = .ok () := by
        unfold ArrayBounds Value.Size
        have : ¬ ((i : Int) < 0 ∨ (i : Int) ≥ (R.elems.length : Int)) := by omega
        simp only [this, if_false]
      have hat : R.At (i : Int) = .ok (R.elems.getD i zeroValue) := by
        unfold Value.At
        exact getAt_natCast R.elems i hlt zeroValue
      simp only [assignObjectLoop, hr, if_false, hg, bind, Except.bind, pure, Except.pure,
        hcast, if_true, hb, hat]
      simp only [if_true] at hrest
      rw [hrest]
      rw [List.drop_eq_getElem_cons hlt]
      have hgd : R.elems.getD i zeroValue = R.elems[i] := by
        simp only [List.getD_eq_getElem?_getD, List.getElem?_eq_getElem hlt, Option.getD_some]
      rw [hgd]
      rfl

/-- A selection without negative entries is handled by the flat part of `assignObject`. -/
theorem assignObject_flat (a : Apl) (f : Option Function) (R : Value) (ints dims : List Int)
    (obj : Dict) (h : ∀ x ∈ ints, 0 ≤ x) :
    assignObject a f R ints dims obj = assignObjectFlat a f R ints obj := by
  match ints, h with
  | [], _ => simp [assignObject]
  | [x], _ => simp [assignObject]
  | i0 :: i1 :: rest, h =>
    have : ¬ (i0 < 0) := by
      have := h i0 (List.mem_cons_self _ _)
      omega
    simp only [assignObject, this, if_false]


/-- The flat part of `assignObject` on a selection without negative entries. -/
theorem assignObjectFlat_nonneg (a : Apl) (f : Option Function) (R : Value) (ints : List Int)
    (obj : Dict) (h : ∀ x ∈ ints, 0 ≤ x) :
    assignObjectFlat a f R ints obj =
      (if R.isArray = true ∧ ints.length > 1 then
        if (ints.length : Int) = R.Size then assignObjectLoop a f R true obj.K ints 0 obj
        else (obj, .error .nonConformant)
      else assignObjectLoop a f R false obj.K ints 0 obj) := by
  rcases ints with _ | ⟨x, _ | ⟨y, rest⟩⟩
  · simp [assignObjectFlat]
  · have : ¬ (x < 0) := by
      have := h x (List.mem_cons_self _ _)
      omega
    simp [assignObjectFlat, this]
  · simp only [assignObjectFlat]
    by_cases h1 : R.isArray = true ∧ (x :: y :: rest).length > 1
    · by_cases h2 : ((x :: y :: rest).length : Int) = R.Size
      · simp only [h1, h2, and_self, if_true]
      · simp only [h1, h2, and_self, if_true, if_false]
    · simp only [h1, if_false]

/-- C17: vectorisation of a flat object update.  For every object, every list of
non-negative key indices that are in range of the key order, and every right-hand side
`R` with no modifier: if `R` is an array and more than one index is given, `assignObject`
succeeds when `R`'s size equals the number of indices, and the key selected by the `i`-th
index then receives `R`'s `i`-th element, and it fails with the non-conformant error,
writing nothing, when the size differs; in every other case (`R` not an array, or at most
one index) it succeeds and every selected key receives `R` itself. -/
theorem assignObject_vectorise (a : Apl) (obj : Dict) (ints dims : List Int) (R : Value)
    (hin : ∀ x ∈ ints, 0 ≤ x ∧ 0 ≤ x - a.Origin ∧ x - a.Origin < obj.K.length) :
    (R.isArray = true → 1 < ints.length → (ints.length : Int) = R.Size →
      assignObject a none R ints dims obj
        = (setKeys a obj.K (ints.zip R.elems) obj, .ok ())) ∧
    (R.isArray = true → 1 < ints.length → (ints.length : Int) ≠ R.Size →
      assignObject a none R ints dims obj = (obj, .error .nonConformant)) ∧
    ((R.isArray = false ∨ ints.length ≤ 1) →
      assignObject a none R ints dims obj
        = (setKeys a obj.K (ints.map (fun x => (x, R))) obj, .ok ())) := by
  have hflat := assignObject_flat a none R ints dims obj (fun x hx => (hin x hx).1)
  have hin2 : ∀ x ∈ ints, 0 ≤ x - a.Origin ∧ x - a.Origin < obj.K.length :=
    fun x hx => (hin x hx).2
  rw [hflat, assignObjectFlat_nonneg a none R ints obj (fun x hx => (hin x hx).1)]
  refine ⟨?_, ?_, ?_⟩
  · intro hR hlen hsz
    have hv : R.isArray = true ∧ ints.length > 1 := ⟨hR, hlen⟩
    have hl := assignObjectLoop_none a R true obj.K ints 0 obj hin2 (fun _ => by
      unfold Value.Size at hsz
      omega)
    simp only [Nat.cast_zero, if_true, List.drop_zero] at hl
    simp only [hv, and_self, if_true, hsz]
    exact hl
  · intro hR hlen hsz
    have hv : R.isArray = true ∧ ints.length > 1 := ⟨hR, hlen⟩
    simp only [hv, and_self, if_true, hsz, if_false]
  · intro hc
    have hv : ¬ (R.isArray = true ∧ ints.length > 1) := by
      intro ⟨h1, h2⟩
      rcases hc with hc | hc
      · rw [h1] at hc; cases hc
      · omega
    have hl := assignObjectLoop_none a R false obj.K ints 0 obj hin2 (fun h => by cases h)
    simp only [Nat.cast_zero, Bool.false_eq_true, if_false, zip_replicate_eq_map] at hl
    simp only [hv, if_false]
    exact hl

/-- Witness of C17: two keys and a right-hand side of two elements. -/
theorem assignObject_vectorise_witness :
    assignObject ⟨[], 1⟩ none (.intArray [2] [7, 8]) [1, 2] [2]
        ⟨[.str "a", .str "b"], [(.str "a", .scalar (.int 1)), (.str "b", .scalar (.int 2))]⟩
      = (⟨[.str "a", .str "b"],
          [(.str "a", .scalar (.int 7)), (.str "b", .scalar (.int 8))]⟩, .ok ()) :=
  (assignObject_vectorise ⟨[], 1⟩
    ⟨[.str "a", .str "b"], [(.str "a", .scalar (.int 1)), (.str "b", .scalar (.int 2))]⟩
    [1, 2] [2] (.intArray [2] [7, 8]) (by decide)).1 rfl (by decide) (by decide)

/-- Counterexample to C17 as stated, on two inputs: with two indices and a right-hand side of
three elements `assignObject` returns the non-conformant error and writes nothing; with
one index and a right-hand side of one element the key receives the one-element array
itself, not its element. -/
theorem assignObject_size_mismatch_counterexample :
    assignObject ⟨[], 1⟩ none (.intArray [3] [7, 8, 9]) [1, 2] [2]
        ⟨[.str "a", .str "b"], [(.str "a", .scalar (.int 1)), (.str "b", .scalar (.int 2))]⟩
      = (⟨[.str "a", .str "b"],
          [(.str "a", .scalar (.int 1)), (.str "b", .scalar (.int 2))]⟩,
        .error .nonConformant) ∧
    assignObject ⟨[], 1⟩ none (.intArray [1] [7]) [1] [1]
        ⟨[.str "a", .str "b"], [(.str "a", .scalar (.int 1)), (.str "b", .scalar (.int 2))]⟩
      = (⟨[.str "a", .str "b"],
          [(.str "a", .intArray [1] [7]), (.str "b", .scalar (.int 2))]⟩, .ok ()) :=
  ⟨by rfl, by rfl⟩

/-! ## Complex arrays -/

/-- The method `Set` of `ComplexArray` by cases: it stores a `Complex` at an offset inside
the bounds, reports an offset below 0 or above the size, reports a value that is no
`Complex` at an offset up to the size, and panics for a `Complex` at the offset equal to
the size. -/
theorem complexArray_set_cases (f : ComplexArray) (i : Int) (v : NumValue) :
    ((0 ≤ i ∧ i < f.Size) → ∀ c, v = .complex c →
      f.Set i v = (⟨f.Dims, f.Cmplx.set i.toNat c⟩, .ok ())) ∧
    ((i < 0 ∨ f.Size < i) → f.Set i v = (f, .error .indexOutOfRange)) ∧
    ((0 ≤ i ∧ i ≤ f.Size) → ∀ w, v = .other w → f.Set i v = (f, .error .typeMismatch)) ∧
    (i = f.Size → ∀ c, v = .complex c → f.Set i v = (f, .error .panic)) := by
  unfold ComplexArray.Size
  refine ⟨?_, ?_, ?_, ?_⟩
  · intro ⟨h0, h1⟩ c hv
    subst hv
    have hr : ¬ (i < 0 ∨ i > (f.Cmplx.length : Int)) := by omega
    have hr2 : ¬ (i < 0 ∨ i ≥ (f.Cmplx.length : Int)) := by omega
    simp only [ComplexArray.Set, setAt, hr, hr2, if_false]
  · intro h
    have hr : i < 0 ∨ i > (f.Cmplx.length : Int) := by omega
    simp only [ComplexArray.Set, hr, if_true]
  · intro ⟨h0, h1⟩ w hv
    subst hv
    have hr : ¬ (i < 0 ∨ i > (f.Cmplx.length : Int)) := by omega
    simp only [ComplexArray.Set, hr, if_false]
  · intro h c hv
    subst hv
    have hr : ¬ (i < 0 ∨ i > (f.Cmplx.length : Int)) := by omega
    have hr2 : i < 0 ∨ i ≥ (f.Cmplx.length : Int) := by omega
    simp only [ComplexArray.Set, setAt, hr, hr2, if_false, if_true]

/-- C18: the method `Set` of `ComplexArray` at the offset equal to the size.  On the
array of the two numbers 1+2i and 3+4i the call `Set(2, 5+6i)` passes the bounds test and
panics in the store outside the bounds instead of returning an error, while `At(2)`
returns the index-out-of-range error. -/
theorem complexArray_set_at_size :
    ComplexArray.Set ⟨[2], [⟨1, 2⟩, ⟨3, 4⟩]⟩ 2 (.complex ⟨5, 6⟩)
      = (⟨[2], [⟨1, 2⟩, ⟨3, 4⟩]⟩, .error .panic) ∧
    (ComplexArray.mk [2] [⟨1, 2⟩, ⟨3, 4⟩]).Size = 2 ∧
    (∃ e, ComplexArray.At ⟨[2], [⟨1, 2⟩, ⟨3, 4⟩]⟩ 2 = .error e ∧ e = .indexOutOfRange) :=
  ⟨by rfl, by rfl, ⟨_, by rfl, rfl⟩⟩

/-- Evaluation: the two numbers 1+2i and 3+4i reshaped to a 3-vector. -/
theorem eval_complexArray_reshape :
    (ComplexArray.Reshape ⟨[2], [⟨1, 2⟩, ⟨3, 4⟩]⟩ [3])
      = .ok ⟨[3], [⟨1, 2⟩, ⟨3, 4⟩, ⟨1, 2⟩]⟩ := by rfl

/-! ## Table invariant -/

/-- A successful `Set` keeps the variant, the shape and the number of elements. -/
theorem set_keeps (v x res : Value) (i : Int) (h : v.Set i x = .ok res) :
    res.kind = v.kind ∧ res.Shape = v.Shape ∧ res.elems.length = v.elems.length := by
  unfold Value.Set at h
  by_cases hr : i < 0 ∨ i ≥ v.Size
  · simp only [hr, if_true] at h
    cases h
  · simp only [hr, if_false] at h
    cases v with
    | intArray d xs =>
      cases x with
      | scalar sc =>
        cases sc with
        | int n =>
          simp only [Except.ok.injEq] at h
          subst h
          simp [Value.kind, Value.Shape, Value.elems]
        | str s => simp at h
      | _ => simp at h
    | strArray d xs =>
      cases x with
      | scalar sc =>
        cases sc with
        | int n => simp at h
        | str s =>
          simp only [Except.ok.injEq] at h
          subst h
          simp [Value.kind, Value.Shape, Value.elems]
      | _ => simp at h
    | mixed d vs =>
      simp only [Except.ok.injEq] at h
      subst h
      simp [Value.kind, Value.Shape, Value.elems]
    | _ => simp at h

theorem setIgnore_colOK (r : Int) (col x : Value) (k : Int) (h : ColOK r col) :
    ColOK r (setIgnore col k x) := by
  unfold setIgnore
  cases hs : col.Set k x with
  | error e => exact h
  | ok res =>
    obtain ⟨k1, k2, k3⟩ := set_keeps col x res k hs
    exact ⟨isUniform_of_kind k1 h.1, by rw [k2]; exact h.2.1, by rw [k3]; exact h.2.2⟩

theorem scatterLoop_colOK (r : Int) (newcol : Value) :
    ∀ (ks : List Int) (i : Int) (col res : Value), ColOK r col →
      scatterLoop newcol ks i col = .ok res → ColOK r res := by
  intro ks
  induction ks with
  | nil =>
    intro i col res h e
    simp only [scatterLoop, Except.ok.injEq] at e
    subst e
    exact h
  | cons k ks ih =>
    intro i col res h e
    simp only [scatterLoop, bind, Except.bind] at e
    cases hx : newcol.At i with
    | error err => rw [hx] at e; cases e
    | ok x =>
      rw [hx] at e
      exact ih (i + 1) _ res (setIgnore_colOK r col x.Copy k h) e

theorem substLoop_length (newcol : Value) :
    ∀ (ks : List Int) (i : Int) (vs res : List Value),
      substLoop newcol ks i vs = .ok res → res.length = vs.length := by
  intro ks
  induction ks with
  | nil =>
    intro i vs res e
    simp only [substLoop, Except.ok.injEq] at e
    rw [← e]
  | cons k ks ih =>
    intro i vs res e
    simp only [substLoop, bind, Except.bind] at e
    cases hx : newcol.At i with
    | error err => rw [hx] at e; cases e
    | ok x =>
      rw [hx] at e
      by_cases hr : k < 0 ∨ k ≥ (vs.length : Int)
      · simp only [hr, if_true] at e
        cases e
      · simp only [hr, if_false] at e
        rw [ih (i + 1) _ res e, List.length_set]

theorem fillLoop_length (col : Value) :
    ∀ (n : Nat) (i : Int) (vs : List Value), fillLoop col n i = .ok vs → vs.length = n := by
  intro n
  induction n with
  | zero =>
    intro i vs e
    simp only [fillLoop, Except.ok.injEq] at e
    rw [← e]
    rfl
  | succ n ih =>
    intro i vs e
    simp only [fillLoop, bind, Except.bind, pure, Except.pure] at e
    cases hx : col.At i with
    | error err => rw [hx] at e; cases e
    | ok x =>
      rw [hx] at e
      cases hrest : fillLoop col n (i + 1) with
      | error err => rw [hrest] at e; cases e
      | ok rest =>
        rw [hrest] at e
        simp only [Except.ok.injEq] at e
        rw [← e, List.length_cons, ih (i + 1) rest hrest]

theorem allInts_length : ∀ (vs : List Value) (ns : List Int),
    allInts vs = some ns → ns.length = vs.length := by
  intro vs
  induction vs with
  | nil =>
    intro ns e
    simp only [allInts, Option.some.injEq] at e
    subst e
    rfl
  | cons v vs ih =>
    intro ns e
    cases v with
    | scalar sc =>
      cases sc with
      | int n =>
        simp only [allInts, Option.map_eq_some'] at e
        obtain ⟨ms, e1, e2⟩ := e
        rw [← e2, List.length_cons, List.length_cons, ih ms e1]
      | str s => simp [allInts] at e
    | _ => simp [allInts] at e

theorem allStrs_length : ∀ (vs : List Value) (ns : List String),
    allStrs vs = some ns → ns.length = vs.length := by
  intro vs
  induction vs with
  | nil =>
    intro ns e
    simp only [allStrs, Option.some.injEq] at e
    subst e
    rfl
  | cons v vs ih =>
    intro ns e
    cases v with
    | scalar sc =>
      cases sc with
      | str n =>
        simp only [allStrs, Option.map_eq_some'] at e
        obtain ⟨ms, e1, e2⟩ := e
        rw [← e2, List.length_cons, List.length_cons, ih ms e1]
      | int s => simp [allStrs] at e
    | _ => simp [allStrs] at e

/-- A mixed vector that `Unify` collapses becomes a uniform vector of the same length. -/
theorem unify_mixed_colOK (r : Int) (vals : List Value) (ur : Value) (s : Bool)
    (h : Unify (.mixed [r] vals) s = (ur, true)) (hl : (vals.length : Int) = r) :
    ColOK r ur := by
  cases vals with
  | nil =>
    simp only [Unify, allInts, Prod.mk.injEq, and_true] at h
    subst h
    exact ⟨rfl, rfl, hl⟩
  | cons v vs =>
    simp only [Unify] at h
    cases hi : allInts (v :: vs) with
    | some ns =>
      rw [hi] at h
      simp only [Prod.mk.injEq, and_true] at h
      subst h
      refine ⟨rfl, rfl, ?_⟩
      simp only [Value.elems, List.length_map, allInts_length _ _ hi]
      exact hl
    | none =>
      rw [hi] at h
      cases hs : allStrs (v :: vs) with
      | some ss =>
        rw [hs] at h
        simp only [Prod.mk.injEq, and_true] at h
        subst h
        refine ⟨rfl, rfl, ?_⟩
        simp only [Value.elems, List.length_map, allStrs_length _ _ hs]
        exact hl
      | none =>
        rw [hs] at h
        simp at h


theorem bind_ok {α β : Type} (x : Except Err α) (k : α → Except Err β) (res : β)
    (h : (x >>= k) = .ok res) : ∃ y, x = .ok y ∧ k y = .ok res := by
  cases x with
  | error e => cases h
  | ok y => exact ⟨y, rfl, h⟩

/-- The closure `set` of `assignTable` returns a column of the table's row count, whatever
the modifier and the new values are. -/
theorem tableSet_colOK (r : Int) (f : Option Function) (rows : List Int) (col newcol res : Value)
    (h : ColOK r col) (e : tableSet f rows col newcol = .ok res) : ColOK r res := by
  have tail : ∀ nc : Value,
      (if nc.kind ≠ col.kind then do
          let rs0 ← getAt col.Shape 0
          let vals ← fillLoop col (prod [rs0]).toNat 0
          let vals ← substLoop nc rows 0 vals
          match Unify (.mixed [rs0] vals) true with
          | (_, false) => .error (.other "cannot unify array")
          | (ur, true) => if ur.isUniform then pure ur else .error .panic
        else scatterLoop nc rows 0 col) = Except.ok res → ColOK r res := by
    intro nc e
    by_cases hk : nc.kind ≠ col.kind
    · rw [if_pos hk] at e
      have hs : col.Shape = [r] := h.2.1
      have hg : getAt col.Shape 0 = .ok r := by rw [hs]; rfl
      simp only [hg, bind, Except.bind, prod, mul_one] at e
      cases hf : fillLoop col r.toNat 0 with
      | error err => rw [hf] at e; cases e
      | ok vals =>
        rw [hf] at e
        simp only at e
        cases hsb : substLoop nc rows 0 vals with
        | error err => rw [hsb] at e; cases e
        | ok vals1 =>
          rw [hsb] at e
          simp only at e
          have hl : (vals1.length : Int) = r := by
            rw [substLoop_length nc rows 0 vals vals1 hsb, fillLoop_length col _ 0 vals hf]
            have := h.2.2
            omega
          cases hu : Unify (.mixed [r] vals1) true with
          | mk ur ok =>
            rw [hu] at e
            cases ok with
            | false => cases e
            | true => 
              have hc := unify_mixed_colOK r vals1 ur true hu hl
              simp only [hc.1, if_true, pure, Except.pure, Except.ok.injEq] at e
              subst e
              exact hc
    · rw [if_neg hk] at e
      exact scatterLoop_colOK r nc rows 0 col res h e
  unfold tableSet at e
  cases f with
  | none => exact tail newcol e
  | some g =>
    obtain ⟨left, _, e⟩ := bind_ok _ _ res e
    obtain ⟨v, _, e⟩ := bind_ok _ _ res e
    by_cases h1 : v.isArray = false
    · rw [if_pos h1] at e
      cases e
    · rw [if_neg h1] at e
      by_cases h2 : v.Shape.length ≠ 1
      · rw [if_pos h2] at e
        cases e
      · rw [if_neg h2] at e
        by_cases h3 : v.Shape.headD 0 ≠ rows.length
        · rw [if_pos h3] at e
          cases e
        · rw [if_neg h3] at e
          cases hu : Unify v true with
          | mk ur ok =>
            rw [hu] at e
            cases ok with
            | false => cases e
            | true =>
              by_cases h4 : ur.isUniform = true
              · simp only [h4, if_true] at e
                exact tail ur e
              · simp only [h4] at e
                cases e


theorem tableKeysLoop_mem (all : List Scalar) (n : Int) :
    ∀ (cs : List Int) (i : Int) (keys : List Scalar),
      tableKeysLoop all n cs i = .ok keys → ∀ key ∈ keys, key ∈ all := by
  intro cs
  induction cs with
  | nil =>
    intro i keys e key hk
    simp only [tableKeysLoop, Except.ok.injEq] at e
    subst e
    cases hk
  | cons c cs ih =>
    intro i keys e key hk
    simp only [tableKeysLoop] at e
    by_cases hr : i < 0 ∨ i ≥ n
    · rw [if_pos hr] at e
      cases e
    · rw [if_neg hr] at e
      obtain ⟨k, hk1, e⟩ := bind_ok _ _ keys e
      obtain ⟨rest, hrest, e⟩ := bind_ok _ _ keys e
      simp only [pure, Except.pure, Except.ok.injEq] at e
      subst e
      rcases List.mem_cons.mp hk with h | h
      · subst h
        rw [getAt_ok_iff] at hk1
        exact List.getElem?_mem hk1.2
      · exact ih (i + 1) rest hrest key h

/-- The loop of `assignTable` over keys of the table keeps the key order, the row count
and the column invariant, whether it ends with an error or not. -/
theorem assignTableLoop_inv (f : Option Function) (rows : List Int) (o : Dict)
    (isTable : Bool) :
    ∀ (keys : List Scalar) (t : Table), (∀ key ∈ keys, key ∈ t.K) → t.ColsOK →
      (assignTableLoop f rows o isTable keys t).1.K = t.K ∧
      (assignTableLoop f rows o isTable keys t).1.Rows = t.Rows ∧
      (assignTableLoop f rows o isTable keys t).1.ColsOK := by
  intro keys
  induction keys with
  | nil =>
    intro t _ h
    exact ⟨rfl, rfl, h⟩
  | cons key keys ih =>
    intro t hkeys h
    obtain ⟨col0, hg, hc0⟩ := h key (hkeys key (List.mem_cons_self _ _))
    have hu : uniformAt t.M key = .ok col0 := by
      simp only [uniformAt, hg, hc0.1, if_true]
    unfold assignTableLoop
    simp only []
    split
    · exact ⟨rfl, rfl, h⟩
    · rename_i c heq
      have hc : ColOK t.Rows c := by
        simp only [hu, bind, Except.bind] at heq
        cases isTable with
        | true =>
          simp only [if_true] at heq
          cases hrc : uniformAt o.M key with
          | error err => rw [hrc] at heq; cases heq
          | ok rc =>
            rw [hrc] at heq
            simp only at heq
            by_cases hs : rc.Shape.length ≠ 1 ∨ rc.Shape.headD 0 ≠ rows.length
            · rw [if_pos hs] at heq
              cases hsh : rc.Shape <;> rw [hsh] at heq <;> cases heq
            · rw [if_neg hs] at heq
              cases hcp : copyLoop rc rows 0 (MakeArray rc (some [(rows.length : Int)])) with
              | error err => rw [hcp] at heq; cases heq
              | ok sub =>
                rw [hcp] at heq
                exact tableSet_colOK t.Rows f rows col0 sub c hc0 heq
        | false =>
          simp only [Bool.false_eq_true, if_false] at heq
          cases hrv : o.At key with
          | none => rw [hrv] at heq; cases heq
          | some rv =>
            rw [hrv] at heq
            simp only at heq
            by_cases ha : rv.isArray = true
            · rw [if_pos ha] at heq
              cases heq
            · rw [if_neg ha] at heq
              exact tableSet_colOK t.Rows f rows col0 _ c hc0 heq
      have hsome : (assocGet t.M key).isSome = true := by rw [hg]; rfl
      have hK : (Dict.Set ⟨t.K, t.M⟩ key c).K = t.K := by
        simp only [Dict.Set, hsome, if_true]
      have hM : (Dict.Set ⟨t.K, t.M⟩ key c).M = assocSet t.M key c := rfl
      have hinv : Table.ColsOK ⟨(Dict.Set ⟨t.K, t.M⟩ key c).K, (Dict.Set ⟨t.K, t.M⟩ key c).M,
          t.Rows⟩ := by
        intro k2 hk2
        rw [hK] at hk2
        show ∃ col, assocGet (Dict.Set ⟨t.K, t.M⟩ key c).M k2 = some col ∧ ColOK t.Rows col
        rw [hM]
        by_cases hk : k2 = key
        · subst hk
          exact ⟨c, assocGet_assocSet_self t.M k2 c, hc⟩
        · rw [assocGet_assocSet_ne t.M key k2 c hk]
          exact h k2 hk2
      obtain ⟨i1, i2, i3⟩ := ih ⟨(Dict.Set ⟨t.K, t.M⟩ key c).K, (Dict.Set ⟨t.K, t.M⟩ key c).M,
        t.Rows⟩ (fun k2 hk2 => by
          show k2 ∈ (Dict.Set ⟨t.K, t.M⟩ key c).K
          rw [hK]
          exact hkeys k2 (List.mem_cons_of_mem _ hk2)) hinv
      exact ⟨by rw [i1]; exact hK, i2, i3⟩


/-- The function `assignTable` either leaves the table as it is or runs its loop over keys
taken from the key order of the table. -/
theorem assignTable_result (t : Table) (idx : IntArray) (f : Option Function) (R : Value) :
    (assignTable t idx f R).1 = t ∨
    ∃ rows o isTable keys, (∀ key ∈ keys, key ∈ t.K) ∧
      assignTable t idx f R = assignTableLoop f rows o isTable keys t := by
  unfold assignTable
  simp only []
  split
  · left; rfl
  · rename_i rows cols keys hsel
    obtain ⟨d0, _, hsel⟩ := bind_ok _ _ _ hsel
    obtain ⟨rows1, _, hsel⟩ := bind_ok _ _ _ hsel
    obtain ⟨cols1, _, hsel⟩ := bind_ok _ _ _ hsel
    obtain ⟨keys1, hk, hsel⟩ := bind_ok _ _ _ hsel
    simp only [pure, Except.pure, Except.ok.injEq, Prod.mk.injEq] at hsel
    obtain ⟨_, _, hk3⟩ := hsel
    subst hk3
    have hmem := tableKeysLoop_mem t.K _ cols1 0 keys1 hk
    split
    · left; rfl
    · rename_i o isTable _
      by_cases h1 : o.K.length ≠ keys1.length
      · rw [if_pos h1]
        left; rfl
      · rw [if_neg h1]
        by_cases h2 : (List.zip o.K keys1).any (fun p => decide (p.1 ≠ p.2)) = true
        · rw [if_pos h2]
          left; rfl
        · rw [if_neg h2]
          right
          exact ⟨rows, o, isTable, keys1, hmem, rfl⟩

/-- C20: the table invariant is preserved by an update.  For every table in which every
key of the key order holds a uniform vector of exactly `Rows` elements, every index
descriptor, modifier and right-hand side, the table after `assignTable`, whether the call
ends with an error or not, has the same keys in the same order and the same `Rows`, and
every key again holds a uniform vector of exactly `Rows` elements. -/
theorem assignTable_preserves_invariant (t : Table) (idx : IntArray) (f : Option Function)
    (R : Value) (h : t.ColsOK) :
    (assignTable t idx f R).1.K = t.K ∧ (assignTable t idx f R).1.Rows = t.Rows ∧
      (assignTable t idx f R).1.ColsOK := by
  rcases assignTable_result t idx f R with e | ⟨rows, o, isTable, keys, hmem, e⟩
  · rw [e]
    exact ⟨rfl, rfl, h⟩
  · rw [e]
    exact assignTableLoop_inv f rows o isTable keys t hmem h


/-- Witness of C20: every row of the integer column `a` receives the string x; the column
becomes a string vector of three elements, the keys and the row count stay. -/
theorem assignTable_preserves_invariant_witness :
    (assignTable ⟨[.str "a", .str "b"],
        [(.str "a", .intArray [3] [1, 2, 3]), (.str "b", .intArray [3] [4, 5, 6])], 3⟩
      ⟨[3, 1], [0, 1, 2, 0]⟩ none (.scalar (.str "x"))).1.K = [.str "a", .str "b"] ∧
    (assignTable ⟨[.str "a", .str "b"],
        [(.str "a", .intArray [3] [1, 2, 3]), (.str "b", .intArray [3] [4, 5, 6])], 3⟩
      ⟨[3, 1], [0, 1, 2, 0]⟩ none (.scalar (.str "x"))).1.Rows = 3 ∧
    (assignTable ⟨[.str "a", .str "b"],
        [(.str "a", .intArray [3] [1, 2, 3]), (.str "b", .intArray [3] [4, 5, 6])], 3⟩
      ⟨[3, 1], [0, 1, 2, 0]⟩ none (.scalar (.str "x"))).1.ColsOK :=
  assignTable_preserves_invariant ⟨[.str "a", .str "b"],
      [(.str "a", .intArray [3] [1, 2, 3]), (.str "b", .intArray [3] [4, 5, 6])], 3⟩
    ⟨[3, 1], [0, 1, 2, 0]⟩ none (.scalar (.str "x"))
    (fun key hkey => by
      simp only [List.mem_cons, List.mem_singleton, List.not_mem_nil, or_false] at hkey
      rcases hkey with rfl | rfl
      · exact ⟨_, rfl, rfl, rfl, rfl⟩
      · exact ⟨_, rfl, rfl, rfl, rfl⟩)

/-- Evaluation: a table update that changes the element type of a column, and one that
fails and leaves the table as it was. -/
theorem eval_assignTable_retype :
    assignTable ⟨[.str "a", .str "b"],
        [(.str "a", .intArray [3] [1, 2, 3]), (.str "b", .intArray [3] [4, 5, 6])], 3⟩
      ⟨[3, 1], [0, 1, 2, 0]⟩ none (.scalar (.str "x"))
    = (⟨[.str "a", .str "b"],
        [(.str "a", .strArray [3] ["x", "x", "x"]), (.str "b", .intArray [3] [4, 5, 6])], 3⟩,
      .ok ()) ∧
    assignTable ⟨[.str "a", .str "b"],
        [(.str "a", .intArray [3] [1, 2, 3]), (.str "b", .intArray [3] [4, 5, 6])], 3⟩
      ⟨[2, 1], [0, 2, 0]⟩ none (.scalar (.str "x"))
    = (⟨[.str "a", .str "b"],
        [(.str "a", .intArray [3] [1, 2, 3]), (.str "b", .intArray [3] [4, 5, 6])], 3⟩,
      .error (.other "cannot unify array")) := ⟨by rfl, by rfl⟩

/-! ## Out-of-range selections of a table update -/

/-- The guard in the loop that collects the column keys tests the loop counter, which stays
below `len(keys)`: a column position outside the key order reaches the read
`all[cols[i]]`, which panics. -/
theorem tableKeysLoop_out_of_range (all : List Scalar) (n : Nat) :
    ∀ (cs : List Int) (i : Nat), i + cs.length ≤ n →
      (∃ c ∈ cs, c < 0 ∨ c ≥ (all.length : Int)) →
      tableKeysLoop all (n : Int) cs (i : Int) = .error .panic := by
  intro cs
  induction cs with
  | nil =>
    intro i _ h
    obtain ⟨c, hc, _⟩ := h
    cases hc
  | cons c cs ih =>
    intro i hi h
    simp only [List.length_cons] at hi
    have hr : ¬ ((i : Int) < 0 ∨ (i : Int) ≥ (n : Int)) := by omega
    have hcast : ((i : Int) + 1) = ((i + 1 : Nat) : Int) := by push_cast; rfl
    simp only [tableKeysLoop, hr, if_false, hcast]
    by_cases hc : c < 0 ∨ c ≥ (all.length : Int)
    · have hg : getAt all c = .error .panic := by
        unfold getAt
        by_cases h0 : c < 0
        · simp only [h0, if_true]
        · simp only [h0, if_false]
          rw [List.getElem?_eq_none (by omega)]
      rw [hg]
      rfl
    · have hrest : ∃ c2 ∈ cs, c2 < 0 ∨ c2 ≥ (all.length : Int) := by
        obtain ⟨c2, hm, hb⟩ := h
        rcases List.mem_cons.mp hm with e | e
        · subst e
          exact absurd hb hc
        · exact ⟨c2, e, hb⟩
      rw [ih (i + 1) (by omega) hrest]
      rw [(getAt_inrange all c (.int 0) (by omega) (by omega)).1]
      rfl

/-- A column position outside the key order of the table makes `assignTable` panic, for
every table, modifier and right-hand side; `d0` is the number of selected rows. -/
theorem assignTable_column_out_of_range (t : Table) (d0 : Nat) (dims rows cols : List Int)
    (f : Option Function) (R : Value) (hr : rows.length = d0)
    (hc : ∃ c ∈ cols, c < 0 ∨ c ≥ (t.K.length : Int)) :
    assignTable t ⟨(d0 : Int) :: dims, rows ++ cols⟩ f R = (t, .error .panic) := by
  subst hr
  have h1 : getAt ((rows.length : Int) :: dims) 0 = .ok (rows.length : Int) := by
    simp [getAt]
  have hb : ¬ ((rows.length : Int) < 0 ∨
      (rows.length : Int) > ((rows ++ cols).length : Int)) := by
    simp only [List.length_append]
    push_cast
    omega
  have h2 : sliceTo (rows ++ cols) (rows.length : Int) = .ok rows := by
    simp only [sliceTo, hb, if_false, Int.toNat_ofNat, List.take_left']
  have h3 : sliceFrom (rows ++ cols) (rows.length : Int) = .ok cols := by
    simp only [sliceFrom, hb, if_false, Int.toNat_ofNat, List.drop_left']
  have h4 := tableKeysLoop_out_of_range t.K cols.length cols 0 (by omega) hc
  simp only [Nat.cast_zero] at h4
  simp only [assignTable, h1, h2, h3, h4, bind, Except.bind]

/-- A call `Set` whose error is dropped leaves the array as it was when the offset is
outside the bounds: this is the write `col.Set(k, ...)` of the closure `set` for a row
index outside the column. -/
theorem setIgnore_out_of_range (col x : Value) (k : Int) (h : k < 0 ∨ k ≥ col.Size) :
    setIgnore col k x = col := by
  simp only [setIgnore, Value.Set, h, if_true]

/-- C21: out-of-range selections of a table update.  On the table a = 1 2 3, b = 4 5 6:
the row index 5 with column 0 and the integer 9 makes `assignTable` return success with
the table as it was, the failed write dropped; the column position 7 makes it panic in
the read of the key order; and the row index 5 with column 0 and a string makes it panic
in the write to the mixed copy of the column.  None of the three calls returns an
index-out-of-range error. -/
theorem assignTable_out_of_range_unreported :
    assignTable ⟨[.str "a", .str "b"],
        [(.str "a", .intArray [3] [1, 2, 3]), (.str "b", .intArray [3] [4, 5, 6])], 3⟩
      ⟨[1, 1], [5, 0]⟩ none (.scalar (.int 9))
    = (⟨[.str "a", .str "b"],
        [(.str "a", .intArray [3] [1, 2, 3]), (.str "b", .intArray [3] [4, 5, 6])], 3⟩,
      .ok ()) ∧
    assignTable ⟨[.str "a", .str "b"],
        [(.str "a", .intArray [3] [1, 2, 3]), (.str "b", .intArray [3] [4, 5, 6])], 3⟩
      ⟨[1, 1], [0, 7]⟩ none (.scalar (.int 9))
    = (⟨[.str "a", .str "b"],
        [(.str "a", .intArray [3] [1, 2, 3]), (.str "b", .intArray [3] [4, 5, 6])], 3⟩,
      .error .panic) ∧
    assignTable ⟨[.str "a", .str "b"],
        [(.str "a", .intArray [3] [1, 2, 3]), (.str "b", .intArray [3] [4, 5, 6])], 3⟩
      ⟨[1, 1], [5, 0]⟩ none (.scalar (.str "x"))
    = (⟨[.str "a", .str "b"],
        [(.str "a", .intArray [3] [1, 2, 3]), (.str "b", .intArray [3] [4, 5, 6])], 3⟩,
      .error .panic) := ⟨by rfl, by rfl, by rfl⟩

/-! ## Rotation of empty arrays and totality -/

theorem prod_eq_zero_of_mem (shape : List Int) (h : (0 : Int) ∈ shape) : prod shape = 0 := by
  induction shape with
  | nil => cases h
  | cons s ss ih =>
    simp only [prod]
    rcases List.mem_cons.mp h with e | e
    · rw [← e, zero_mul]
    · rw [ih e, mul_zero]

theorem prod_pos_all (shape : List Int) (hnn : ∀ s ∈ shape, 0 ≤ s) (hp : 0 < prod shape) :
    ∀ s ∈ shape, 0 < s := by
  intro s hs
  have h0 := hnn s hs
  by_contra hc
  have : s = 0 := by omega
  subst this
  rw [prod_eq_zero_of_mem shape hs] at hp
  exact absurd hp (lt_irrefl 0)

/-- For a positive size the closure `rot` returns a coordinate in `[0, size)`, whatever
the amount is and whether or not the addition wraps. -/
theorem rot_range (i n size : Int) (hs : 0 < size) :
    ∃ c, rot i n size = .ok c ∧ 0 ≤ c ∧ c < size := by
  have hne : ¬ (size = 0) := by omega
  refine ⟨_, by unfold rot; rw [if_neg hne], ?_, ?_⟩
  · by_cases hx : 0 ≤ wrapInt (i + n)
    · have hk := Int.tmod_nonneg size hx
      have : ¬ (Int.tmod (wrapInt (i + n)) size < 0) := by omega
      simp only [this, if_false]
      exact hk
    · obtain ⟨b0, b1⟩ := tmod_neg_bounds (wrapInt (i + n)) size (by omega) hs
      by_cases hk : Int.tmod (wrapInt (i + n)) size < 0
      · simp only [hk, if_true]; omega
      · simp only [hk, if_false]; omega
  · by_cases hx : 0 ≤ wrapInt (i + n)
    · have hk := Int.tmod_nonneg size hx
      have hlt := Int.tmod_lt_of_pos (wrapInt (i + n)) hs
      have : ¬ (Int.tmod (wrapInt (i + n)) size < 0) := by omega
      simp only [this, if_false]
      exact hlt
    · obtain ⟨b0, b1⟩ := tmod_neg_bounds (wrapInt (i + n)) size (by omega) hs
      by_cases hk : Int.tmod (wrapInt (i + n)) size < 0
      · simp only [hk, if_true]; omega
      · simp only [hk, if_false]; omega

/-- The remainder by zero is a panic. -/
theorem rot_zero (i n : Int) : rot i n 0 = .error .panic := by
  simp [rot]


/-- On an argument with an axis of length zero `rotate` runs no iteration of its loops:
the result is the empty array that `MakeArray` allocates, which depends on the variant and
the shape of the argument only. -/
theorem rotate_empty (R : Value) (L : IntArray) (k : Int)
    (hR : R.isArray = true) (hz : (0 : Int) ∈ R.Shape) (hL : AmountConforms L R.Shape k) :
    rotate (.intArray L.Dims L.Ints) R k = .ok (MakeArray R none) := by
  obtain ⟨hLw, hcase⟩ := hL
  have hp := prod_eq_zero_of_mem R.Shape hz
  obtain ⟨m1, m2, m3⟩ := makeArray_shape R hR R.Shape
  rw [← makeArray_none] at m1 m2 m3
  rcases hcase with ⟨hrank, hLd⟩ | ⟨hrank, h0, h1, hLd⟩
  · -- vector
    have hli : L.Ints.length = 1 := by
      rw [hLd] at hLw
      simp only [prod, mul_one] at hLw
      omega
    obtain ⟨n, hn⟩ : ∃ n, L.Ints = [n] := by
      match hI : L.Ints, hli with
      | [n], _ => exact ⟨n, rfl⟩
    obtain ⟨s, hs⟩ : ∃ s, R.Shape = [s] := by
      match hS : R.Shape, hrank with
      | [s], _ => exact ⟨s, rfl⟩
    have hs0 : s = 0 := by
      rw [hs] at hz
      simp only [List.mem_singleton] at hz
      exact hz.symm
    subst hs0
    rw [hLd, hn]
    cases R <;> simp [Value.isArray] at hR <;>
      (simp only [Value.Shape] at hs
       subst hs
       rfl)
  · -- rank other than 1
    have hax : (normAxis R.Shape.length k).toNat < R.Shape.length := by omega
    have hdl := dropAxis_length (normAxis R.Shape.length k).toNat R.Shape hax
    rw [← hLd] at hdl
    have hcheck : rotateShapeCheck R.Shape (normAxis R.Shape.length k) L.Dims 0 = .ok () := by
      have := rotateShapeCheck_ok R.Shape (normAxis R.Shape.length k).toNat L.Dims 0 (by
        rw [hLd]
        exact dropAxis_get R.Shape _ hax)
      rw [Int.toNat_of_nonneg h0] at this
      exact this
    have hgs : getAt R.Shape (normAxis R.Shape.length k)
        = .ok (R.Shape.getD (normAxis R.Shape.length k).toNat 0) := by
      have := getAt_natCast R.Shape (normAxis R.Shape.length k).toNat hax 0
      rw [Int.toNat_of_nonneg h0] at this
      exact this
    have hsize : (MakeArray R none).Size.toNat = 0 := by
      unfold Value.Size; omega
    have hr : ¬ (normAxis R.Shape.length k < 0 ∨ normAxis R.Shape.length k ≥ R.Shape.length) := by
      omega
    have hresh : ¬ (L.Dims.length = 1 ∧ R.Shape.length > 2) := by omega
    have hrk : ¬ ((L.Dims.length : Int) ≠ (R.Shape.length : Int) - 1) := by
      simp only [ne_eq, not_not]; omega
    unfold normAxis at hr hcheck hgs
    cases R <;> simp [Value.isArray] at hR <;>
      simp only [rotate, Value.isArray, hrank, if_false, NewIdxConverter, hr, hresh, hrk, hcheck,
        hgs, hsize, bind, Except.bind, pure, Except.pure, Bool.true_eq_false, normAxis,
        rotateLoop]


theorem rotateVecLoop_total (A : Value) (n size : Int)
    (hA : (A.elems.length : Int) = size) :
    ∀ (m k : Nat) (res : Value),
      k + m = A.elems.length →
      res.elems.length = A.elems.length →
      (∀ x ∈ A.elems, res.kind.accepts x = true) →
      ∃ res1, rotateVecLoop A n size m k res = .ok res1 ∧
        res1.kind = res.kind ∧ res1.Shape = res.Shape ∧
        res1.elems.length = A.elems.length := by
  intro m
  induction m with
  | zero =>
    intro k res _ hlen _
    exact ⟨res, rfl, rfl, rfl, hlen⟩
  | succ m ih =>
    intro k res hk hlen hacc
    have hs : 0 < size := by omega
    obtain ⟨c, hrot, c0, c1⟩ := rot_range (k : Int) n size hs
    have hlt : c.toNat < A.elems.length := by omega
    have hAt : A.At c = .ok (A.elems.get ⟨_, hlt⟩) := by
      unfold Value.At
      rw [getAt_ok_iff]
      exact ⟨c0, List.getElem?_eq_getElem hlt⟩
    have hmem : A.elems.get ⟨_, hlt⟩ ∈ A.elems := List.get_mem _ _ _
    have hk0 : (0 : Int) ≤ (k : Int) := by omega
    have hk1 : (k : Int) < res.Size := by unfold Value.Size; omega
    obtain ⟨r, hr, hre, hrs, hrk⟩ := set_ok res _ (k : Int) (hacc _ hmem) hk0 hk1
    have hstep : rotateVecLoop A n size (m + 1) k res
        = rotateVecLoop A n size m ((k + 1 : Nat) : Int) r := by
      simp only [rotateVecLoop, hrot, bind, Except.bind, hAt, setIgnore, Value.Copy, hr]
      push_cast
      rfl
    have hrl : r.elems.length = A.elems.length := by rw [hre, List.length_set, hlen]
    obtain ⟨res1, h1, h2, h3, h4⟩ :=
      ih (k + 1) r (by omega) hrl (by rw [hrk]; exact hacc)
    exact ⟨res1, by rw [hstep, h1], by rw [h2, hrk], by rw [h3, hrs], h4⟩

theorem rotateLoop_total (A : Value) (L : IntArray) (shape : List Int) (axis : Nat)
    (hax : axis < shape.length) (hA : (A.elems.length : Int) = prod shape)
    (hLd : L.Dims = dropAxis axis shape) (hLw : (L.Ints.length : Int) = prod L.Dims) :
    ∀ (n k : Nat) (res : Value) (dst : List Int),
      k + n = A.elems.length →
      (0 < n → ValidIdx shape dst ∧ Index (weights shape) dst = k) →
      res.elems.length = A.elems.length →
      (∀ x ∈ A.elems, res.kind.accepts x = true) →
      ∃ res1, rotateLoop A L shape (weights L.Dims) (weights shape) axis
          (shape.getD axis 0) n k res dst = .ok res1 ∧
        res1.kind = res.kind ∧ res1.Shape = res.Shape ∧
        res1.elems.length = A.elems.length := by
  intro n
  induction n with
  | zero =>
    intro k res dst _ _ hlen _
    exact ⟨res, rfl, rfl, rfl, hlen⟩
  | succ n ih =>
    intro k res dst hk hdst hlen hacc
    obtain ⟨hv, hI⟩ := hdst (Nat.succ_pos n)
    have hdl : axis < dst.length := by rw [validIdx_length hv]; exact hax
    have hiv : ValidIdx L.Dims (dropAxis axis dst) := by
      rw [hLd]; exact dropAxis_valid axis hv
    obtain ⟨i0, i1⟩ := index_bounds hiv
    obtain ⟨hn1, _⟩ := getAt_inrange L.Ints (Index (weights L.Dims) (dropAxis axis dst)) 0
      i0 (by omega)
    obtain ⟨d0, d1⟩ := validIdx_getD axis hv hax
    have hs : 0 < shape.getD axis 0 := by omega
    obtain ⟨c, hrot, c0, c1⟩ := rot_range (dst.getD axis 0)
      (L.Ints.getD (Index (weights L.Dims) (dropAxis axis dst)).toNat 0) (shape.getD axis 0) hs
    have hsv : ValidIdx shape (dst.set axis c) := validIdx_set axis c hv c0 c1
    obtain ⟨b0, b1⟩ := index_bounds hsv
    have hlt : (Index (weights shape) (dst.set axis c)).toNat < A.elems.length := by omega
    have hAt : A.At (Index (weights shape) (dst.set axis c))
        = .ok (A.elems.get ⟨_, hlt⟩) := by
      unfold Value.At
      rw [getAt_ok_iff]
      exact ⟨b0, List.getElem?_eq_getElem hlt⟩
    have hmem : A.elems.get ⟨_, hlt⟩ ∈ A.elems := List.get_mem _ _ _
    have hk0 : (0 : Int) ≤ (k : Int) := by omega
    have hk1 : (k : Int) < res.Size := by unfold Value.Size; omega
    obtain ⟨r, hr, hre, hrs, hrk⟩ := set_ok res _ (k : Int) (hacc _ hmem) hk0 hk1
    have hstep : rotateLoop A L shape (weights L.Dims) (weights shape) axis
          (shape.getD axis 0) (n + 1) k res dst
        = rotateLoop A L shape (weights L.Dims) (weights shape) axis
          (shape.getD axis 0) n ((k + 1 : Nat) : Int) r (IncArrayIndex dst shape) := by
      have e2 := getAt_natCast dst axis hdl 0
      have e4 : dst.take axis ++ dst.drop (axis + 1) = dropAxis axis dst := rfl
      simp only [rotateLoop, e4, hn1, e2, hrot, bind, Except.bind, hAt, setIgnore,
        Value.Copy, hr]
      push_cast
      rfl
    have hnext : 0 < n → ValidIdx shape (IncArrayIndex dst shape) ∧
        Index (weights shape) (IncArrayIndex dst shape) = ((k + 1 : Nat) : Int) := by
      intro hn
      obtain ⟨cT, cF⟩ := incCarry_spec hv
      cases hc : (incCarry dst shape).2 with
      | true =>
        have := (cT hc).2
        omega
      | false =>
        obtain ⟨v1, v2⟩ := cF hc
        refine ⟨v1, ?_⟩
        unfold IncArrayIndex
        rw [v2, hI]
        push_cast
        rfl
    have hrl : r.elems.length = A.elems.length := by rw [hre, List.length_set, hlen]
    obtain ⟨res1, h1, h2, h3, h4⟩ :=
      ih (k + 1) r (IncArrayIndex dst shape) (by omega) hnext hrl (by rw [hrk]; exact hacc)
    exact ⟨res1, by rw [hstep, h1], by rw [h2, hrk], by rw [h3, hrs], h4⟩

/-- Totality of `rotate`: on every well-formed array and every conforming amount it
returns an array of the argument's variant, shape and size, also when an offset addition
wraps; no remainder by zero and no read outside the storage, which are panics, occurs. -/
theorem rotate_succeeds (A : Value) (L : IntArray) (k : Int) (hA : A.WF)
    (hL : AmountConforms L A.Shape k) :
    ∃ res, rotate (.intArray L.Dims L.Ints) A k = .ok res ∧ res.kind = A.kind ∧
      res.Shape = A.Shape ∧ res.Size = A.Size := by
  obtain ⟨hLw, hcase⟩ := hL
  obtain ⟨hArr, hnn, hsz⟩ := hA
  rcases hcase with ⟨hrank, hLd⟩ | ⟨hrank, h0, h1, hLd⟩
  · have hli : L.Ints.length = 1 := by
      rw [hLd] at hLw
      simp only [prod, mul_one] at hLw
      omega
    obtain ⟨n, hn⟩ : ∃ n, L.Ints = [n] := by
      match hI : L.Ints, hli with
      | [n], _ => exact ⟨n, rfl⟩
    obtain ⟨size, hs⟩ : ∃ s, A.Shape = [s] := by
      match hS : A.Shape, hrank with
      | [s], _ => exact ⟨s, rfl⟩
    have hlen0 : (A.elems.length : Int) = size := by
      rw [hs] at hsz
      simp only [prod, mul_one] at hsz
      exact hsz
    obtain ⟨m1, m2, m3⟩ := makeArray_shape A hArr [size]
    have hp : (prod [size]).toNat = A.elems.length := by
      simp only [prod, mul_one]; omega
    rw [hp] at m2
    obtain ⟨res, e1, e2, e3, e4⟩ :=
      rotateVecLoop_total A n size hlen0 A.elems.length 0 (MakeArray A (some [size]))
        (by omega) m2 (fun x hx => makeArray_accepts A _ x hx)
    refine ⟨res, ?_, by rw [e2, makeArray_kind A hArr], by rw [e3, m1, hs],
      by unfold Value.Size; rw [e4]⟩
    have hsz2 : size.toNat = A.elems.length := by omega
    rw [hLd, hn]
    cases A <;> simp [Value.isArray] at hArr <;>
      (simp only [Value.Shape] at hs
       subst hs
       simp only [rotate, Value.isArray, Value.Shape, List.length_cons, List.length_nil,
         if_true, List.headD_cons, ne_eq, not_true_eq_false, or_self, if_false, getAt,
         Int.lt_irrefl, Int.toNat_zero, List.getElem?_cons_zero, bind, Except.bind, hsz2,
         Bool.true_eq_false, Nat.zero_add]
       exact e1)
  · obtain ⟨m1, m2, m3⟩ := makeArray_shape A hArr A.Shape
    rw [← makeArray_none] at m1 m2 m3
    have hlen : (MakeArray A none).elems.length = A.elems.length := by omega
    have hax : (normAxis A.Shape.length k).toNat < A.Shape.length := by omega
    obtain ⟨res, e1, e2, e3, e4⟩ :=
      rotateLoop_total A L A.Shape (normAxis A.Shape.length k).toNat hax hsz hLd hLw
        A.elems.length 0 (MakeArray A none) (List.replicate A.Shape.length 0)
        (by omega)
        (fun hn => ⟨validIdx_zeros hnn (by omega), by simp [index_zeros]⟩)
        hlen (fun x hx => makeArray_accepts A none x hx)
    refine ⟨res, ?_, by rw [e2, makeArray_kind A hArr], by rw [e3, m1],
      by unfold Value.Size; rw [e4]⟩
    have hdl := dropAxis_length (normAxis A.Shape.length k).toNat A.Shape hax
    rw [← hLd] at hdl
    have hcheck : rotateShapeCheck A.Shape (normAxis A.Shape.length k) L.Dims 0 = .ok () := by
      have := rotateShapeCheck_ok A.Shape (normAxis A.Shape.length k).toNat L.Dims 0 (by
        rw [hLd]
        exact dropAxis_get A.Shape _ hax)
      rw [Int.toNat_of_nonneg h0] at this
      exact this
    have hgs : getAt A.Shape (normAxis A.Shape.length k)
        = .ok (A.Shape.getD (normAxis A.Shape.length k).toNat 0) := by
      have := getAt_natCast A.Shape (normAxis A.Shape.length k).toNat hax 0
      rw [Int.toNat_of_nonneg h0] at this
      exact this
    have hsize : (MakeArray A none).Size.toNat = A.elems.length := by
      unfold Value.Size; omega
    have hr : ¬ (normAxis A.Shape.length k < 0 ∨ normAxis A.Shape.length k ≥ A.Shape.length) := by
      omega
    have hresh : ¬ (L.Dims.length = 1 ∧ A.Shape.length > 2) := by omega
    have hrk : ¬ ((L.Dims.length : Int) ≠ (A.Shape.length : Int) - 1) := by
      simp only [ne_eq, not_not]; omega
    unfold normAxis at hr hcheck hgs e1
    cases A <;> simp [Value.isArray] at hArr <;>
      simp only [rotate, Value.isArray, hrank, if_false, NewIdxConverter, hr, hresh, hrk, hcheck,
        hgs, hsize, bind, Except.bind, pure, Except.pure, Bool.true_eq_false, normAxis] <;>
      exact e1


/-- C22: `rotate` is total on empty arrays.  For every array `R` with an axis of length
zero (the rotated axis included) and every conforming amount `L`, `rotate` returns the
empty array of `R`'s variant and shape that `MakeArray` allocates: its loops run no
iteration, so no remainder is evaluated and no element of `R` is read.  More generally:
the remainder by zero is a panic in this embedding and `rotate` would return it; for a
positive size the closure `rot` returns a coordinate in `[0, size)` whatever the amount
is; and on every well-formed array with a conforming amount `rotate` returns an array, so
no remainder by zero and no read outside the storage occurs, and whenever the loop body
runs (the array has an element) every axis, the rotated one included, has a positive
length. -/
theorem rotate_total_on_empty (R : Value) (L : IntArray) (k : Int)
    (hR : R.isArray = true) (hz : (0 : Int) ∈ R.Shape) (hL : AmountConforms L R.Shape k) :
    (rotate (.intArray L.Dims L.Ints) R k = .ok (MakeArray R none) ∧
      (MakeArray R none).kind = R.kind ∧ (MakeArray R none).Shape = R.Shape ∧
      (MakeArray R none).elems = []) ∧
    (∀ i n : Int, rot i n 0 = .error .panic) ∧
    (∀ i n size : Int, 0 < size → ∃ c, rot i n size = .ok c ∧ 0 ≤ c ∧ c < size) ∧
    (∀ (A : Value) (M : IntArray) (j : Int), A.WF → AmountConforms M A.Shape j →
      (∃ res, rotate (.intArray M.Dims M.Ints) A j = .ok res ∧ res.kind = A.kind ∧
        res.Shape = A.Shape ∧ res.Size = A.Size) ∧
      (A.elems ≠ [] → ∀ s ∈ A.Shape, 0 < s)) := by
  refine ⟨⟨rotate_empty R L k hR hz hL, makeArray_kind R hR none, ?_, ?_⟩, rot_zero,
    rot_range, ?_⟩
  · rw [makeArray_none]
    exact (makeArray_shape R hR R.Shape).1
  · have h := (makeArray_shape R hR R.Shape).2.1
    rw [← makeArray_none, prod_eq_zero_of_mem R.Shape hz] at h
    exact List.length_eq_zero.mp h
  · intro A M j hA hM
    refine ⟨rotate_succeeds A M j hA hM, ?_⟩
    intro hne
    obtain ⟨_, hnn, hsz⟩ := hA
    have hpos : 0 < A.elems.length := List.length_pos.mpr hne
    exact prod_pos_all A.Shape hnn (by omega)

/-- Witness of C22: a 0 x 3 matrix rotated along its first axis, the one of length
zero. -/
theorem rotate_total_on_empty_witness :
    rotate (.intArray [3] [1, 2, 3]) (.intArray [0, 3] []) 0 = .ok (.intArray [0, 3] []) :=
  (rotate_total_on_empty (.intArray [0, 3] []) ⟨[3], [1, 2, 3]⟩ 0 rfl (by decide)
    ⟨by decide, Or.inr ⟨by decide, by decide, by decide, by decide⟩⟩).1.1

/-- Evaluation: empty arguments of `rotate`, along the axis of length zero and along
another axis, and an empty vector. -/
theorem eval_rotate_empty :
    rotate (.intArray [0] []) (.intArray [0, 3] []) 1 = .ok (.intArray [0, 3] []) ∧
    rotate (.intArray [2] [5, 6]) (.intArray [2, 0] []) 1 = .ok (.intArray [2, 0] []) ∧
    rotate (.intArray [1] [5]) (.intArray [0] []) 0 = .ok (.intArray [0] []) :=
  ⟨by rfl, by rfl, by rfl⟩

/-! ## Evaluations on concrete inputs -/

/-- Evaluation: a 2 x 3 matrix reversed along its last axis. -/
theorem eval_reverse_last : reverse (.intArray [2, 3] [1, 2, 3, 4, 5, 6]) (-1)
    = .ok (.intArray [2, 3] [3, 2, 1, 6, 5, 4]) := by rfl

/-- Evaluation: a 2 x 3 matrix reversed along its first axis. -/
theorem eval_reverse_first : reverse (.intArray [2, 3] [1, 2, 3, 4, 5, 6]) 0
    = .ok (.intArray [2, 3] [4, 5, 6, 1, 2, 3]) := by rfl

/-- Evaluation: a vector rotated by 1 and by -1. -/
theorem eval_rotate_vector :
    rotate (.intArray [1] [1]) (.intArray [3] [10, 20, 30]) (-1)
      = .ok (.intArray [3] [20, 30, 10]) ∧
    rotate (.intArray [1] [-1]) (.intArray [3] [10, 20, 30]) (-1)
      = .ok (.intArray [3] [30, 10, 20]) := ⟨by rfl, by rfl⟩

/-- Evaluation: a 2 x 3 matrix rotated along each axis by one amount per line. -/
theorem eval_rotate_matrix :
    rotate (.intArray [3] [0, 1, -1]) (.intArray [2, 3] [1, 2, 3, 4, 5, 6]) 0
      = .ok (.intArray [2, 3] [1, 5, 6, 4, 2, 3]) ∧
    rotate (.intArray [2] [1, -1]) (.intArray [2, 3] [1, 2, 3, 4, 5, 6]) (-1)
      = .ok (.intArray [2, 3] [2, 3, 1, 6, 4, 5]) := ⟨by rfl, by rfl⟩

/-- Evaluation: the table update of the specification, a = 1 2 3 becomes 9 2 9. -/
theorem eval_assignTable_scalar :
    (assignTable ⟨[.str "a", .str "b"],
        [(.str "a", .intArray [3] [1, 2, 3]), (.str "b", .intArray [3] [4, 5, 6])], 3⟩
      ⟨[2, 1], [0, 2, 0]⟩ none (.scalar (.int 9))).1.M
    = [(.str "a", .intArray [3] [9, 2, 9]), (.str "b", .intArray [3] [4, 5, 6])] := by rfl

end Iv
